import Mathlib

/-!
Verification development for the osm2go in-memory OSM object graph and its
edit/diff/merge engine.  The definitions below are a shallow embedding of the
C++ sources (`src/josm_elemstyles.cpp`, `src/osm.cpp` and the diff test
driver); pointers are replaced by ids into the id-keyed maps of the graph,
`std::map` by key-sorted association lists, and `char *` strings by `String`
(`nullptr` becomes `none`).  Functions whose bodies live in headers that are
not part of the source tree are modelled from the specification and say so in
their doc comments.
-/

set_option maxHeartbeats 1000000

namespace Osm2go

/-- `strcasecmp(a,b) == 0`: ASCII case-insensitive string equality,
character-wise over the underlying byte/character lists (`Char.toLower` is
exactly ASCII `tolower`). -/
def strcaseEq (a b : String) : Bool :=
  a.data.map Char.toLower == b.data.map Char.toLower

/-- Decimal digit accumulator of the `strtoll` model. -/
def digits_to_nat (acc : Nat) : List Char → Option Nat
  | [] => some acc
  | c :: rest =>
      if '0' ≤ c && c ≤ '9' then digits_to_nat (acc * 10 + (c.toNat - 48)) rest
      else none

/-- `isspace` in the C locale, as skipped by `strtoll`. -/
def c_isspace (c : Char) : Bool :=
  c == ' ' || c == '\t' || c == '\n' || c == '\x0b' || c == '\x0c' || c == '\r'

/-- Saturation of the converted value at the `long long` range
(`strtoll` clamps to `LLONG_MIN`/`LLONG_MAX` on overflow). -/
def llclamp (v : Int) : Int :=
  max (-(2 ^ 63)) (min (2 ^ 63 - 1) v)

/-- `strtoll(s, &endp, 10)` with the `*endp == '\0'` full-consumption check
of `osm_t::parse_relation_member`: optional leading whitespace and sign,
then decimal digits running to the end of the string, the value saturating
at the `long long` range.  When no digit is consumed `endp` is reset to the
start of the string, so of those inputs only the empty string passes the
check (yielding 0). -/
def strtoll_all (s : String) : Option Int :=
  match s.data with
  | [] => some 0
  | l =>
      match (l.dropWhile c_isspace : List Char) with
      | '-' :: c :: rest =>
          (digits_to_nat 0 (c :: rest)).map fun n => llclamp (-(n : Int))
      | '+' :: c :: rest =>
          (digits_to_nat 0 (c :: rest)).map fun n => llclamp (n : Int)
      | [] => none
      | ['-'] => none
      | ['+'] => none
      | l1 => (digits_to_nat 0 l1).map fun n => llclamp (n : Int)

/-- The longest-decimal-prefix value of the accumulator, for the unchecked
`strtoll(prop, NULL, 10)` of the older parser. -/
def leading_digits (acc : Nat) : List Char → Nat
  | [] => acc
  | c :: rest =>
      if '0' ≤ c && c ≤ '9' then leading_digits (acc * 10 + (c.toNat - 48)) rest
      else acc

/-- `strtoll(s, NULL, 10)` without an end check: leading whitespace is
skipped, garbage after the number is ignored, pure garbage yields 0, the
value saturates at the `long long` range. -/
def strtoll_prefix (s : String) : Int :=
  llclamp
    (match (s.data.dropWhile c_isspace : List Char) with
     | '-' :: rest => -(leading_digits 0 rest : Int)
     | '+' :: rest => (leading_digits 0 rest : Int)
     | l => (leading_digits 0 l : Int))

/-- Object flags.  The C++ code keeps a bitset with `OSM_FLAG_DIRTY` and
`OSM_FLAG_DELETED`; we model it as a structure of the two bits.  `flags == 0`
corresponds to both fields being `false`. -/
structure flags_t where
  dirty : Bool
  deleted : Bool
deriving DecidableEq, Repr

/-- The all-clear flag state (`flags == 0`). -/
def flags_t.clear : flags_t := ⟨false, false⟩

/-- `flags |= OSM_FLAG_DIRTY`. -/
def flags_t.markDirty (f : flags_t) : flags_t := { f with dirty := true }

/-- `flags |= OSM_FLAG_DELETED`. -/
def flags_t.markDeleted (f : flags_t) : flags_t := { f with deleted := true }

/-- Modelled from the spec: `base_object_t::isDirty()` lives in a header that
is not in the source tree; per §4.4 an object needs upload whenever any flag
is set, i.e. `flags != 0`. -/
def flags_t.isDirty (f : flags_t) : Bool := f.dirty || f.deleted

/-- A single OSM tag (`tag_t`): a key/value pair of interned strings. -/
structure tag_t where
  key : String
  value : String
deriving DecidableEq, Repr

/-- `tag_t::is_creator_tag`: case-insensitive comparison of the key against
`created_by`. -/
def tag_t.is_creator_tag (t : tag_t) : Bool :=
  strcaseEq t.key "created_by"

/-- Modelled from the spec: `tag_t::is_discardable()` is declared in a header
missing from the tree.  The spec's glossary names `created_by` as the
discardable tag, matching `is_creator_tag` of the older code revision. -/
def tag_t.is_discardable (t : tag_t) : Bool :=
  strcaseEq t.key "created_by"

/-- Key-level version of `tag_t::is_discardable` used for `osm_t::TagMap`
entries (`check_discardable_tag::operator()(TagMap::value_type)`). -/
def key_is_discardable (k : String) : Bool :=
  strcaseEq k "created_by"

/-- `osm_t::TagMap`: a `std::multimap<std::string, std::string>`, modelled as
a list of key/value pairs. -/
def TagMap := List (String × String)
deriving DecidableEq

/-- `tag_list_t`: the nullable `std::vector<tag_t> *contents` member.  `none`
is a null `contents` pointer. -/
def tag_list_t := Option (List tag_t)
deriving DecidableEq

instance : Repr tag_list_t := inferInstanceAs (Repr (Option (List tag_t)))
instance : Repr TagMap := inferInstanceAs (Repr (List (String × String)))

/-- `tag_list_t::empty()`: null contents or an empty vector. -/
def tag_list_t.isEmpty : tag_list_t → Bool
  | none => true
  | some l => l.isEmpty

/-- `tag_list_t::get_value(key)`: value of the first tag whose key matches
case-insensitively (`key_match_functor` uses `strcasecmp`; the legacy
`osm_tag_find` of `osm.cpp` compares the same way). -/
def tag_list_t.get_value (tl : tag_list_t) (k : String) : Option String :=
  match tl with
  | none => none
  | some l => (l.find? fun t => strcaseEq k t.key).map tag_t.value

/-- `tag_list_t::hasNonDiscardableTags()`: some tag is not discardable. -/
def tag_list_t.hasNonDiscardableTags (tl : tag_list_t) : Bool :=
  match tl with
  | none => false
  | some l => l.any fun t => !t.is_discardable

/-- `tag_match_functor(other, same_values)`: case-insensitive key match and
the value comparison result must equal `same_values`. -/
def tag_match (other : tag_t) (same_values : Bool) (t : tag_t) : Bool :=
  strcaseEq other.key t.key && (strcaseEq other.value t.value == same_values)

/-- Body of the merge loop of `tag_list_t::merge`: fold the incoming tags,
skipping discardable ones and exact (case-insensitive) duplicates, recording
a conflict when a same-key different-value tag is present. -/
def tag_merge_fold (acc : List tag_t × Bool) (src : tag_t) : List tag_t × Bool :=
  if !src.is_discardable && !(acc.1.any (tag_match src true)) then
    (acc.1 ++ [src], acc.2 || acc.1.any (tag_match src false))
  else
    acc

/-- `tag_list_t::merge(other)`: returns the merged list together with the
conflict flag.  An empty incoming list changes nothing; merging into an empty
list adopts the other list wholesale. -/
def tag_list_t.merge (mine other : tag_list_t) : tag_list_t × Bool :=
  if other.isEmpty then (mine, false)
  else if mine.isEmpty then (other, false)
  else
    match mine, other with
    | some ml, some ol =>
        let r := ol.foldl tag_merge_fold (ml, false)
        (some r.1, r.2)
    | _, _ => (mine, false)

/-- `tag_list_t::copy(other)` (via `tag_vector_copy_functor`): duplicate the
tag vector, dropping discardable tags; an empty source leaves a null list. -/
def tag_list_t.copy (other : tag_list_t) : tag_list_t :=
  if other.isEmpty then none
  else
    match other with
    | some l => some (l.filter fun t => !t.is_discardable)
    | none => none

/-- `std::multimap::equal_range(key)` on a `TagMap`: all entries for `key`. -/
def TagMap.equalRange (m : TagMap) (k : String) : List (String × String) :=
  m.filter fun p => p.1 == k

/-- `tag_list_compare_base` specialised to a `TagMap` argument: the common
length/emptiness pre-check of the tag comparison.  Returns the final verdict
when it is already decided (`some b`) and the count of discardable tags on
the list side for the main loop. -/
def tag_list_compare_base (tl : tag_list_t) (t2 : TagMap) :
    Option Bool × Nat :=
  if tl.isEmpty && t2.isEmpty then (some false, 0)
  else
    let t2discardables := t2.countP fun p => key_is_discardable p.1
    if tl.isEmpty then (some (decide (t2.length ≠ t2discardables)), 0)
    else
      match tl with
      | none => (some false, 0)  -- unreachable: isEmpty covered the null case
      | some contents =>
          let t1discardables := contents.countP fun t => t.is_discardable
          if t2.length - t2discardables ≠ contents.length - t1discardables then
            (some true, t1discardables)
          else
            (none, t1discardables)

/-- Main loop of `tag_list_t::operator!=(const osm_t::TagMap &)`: walk the
non-discardable tags (a countdown skips the discardable ones) and test each
against `equal_range` of the map. -/
def tag_list_ne_map_loop (t2 : TagMap) : List tag_t → Nat → Bool
  | [], _ => false
  | t :: rest, d =>
      if d ≠ 0 && t.is_discardable then
        tag_list_ne_map_loop t2 rest (d - 1)
      else
        let range := t2.equalRange t.key
        if range.isEmpty then true
        else if range.any fun p => p.2 == t.value then
          tag_list_ne_map_loop t2 rest d
        else true

/-- `tag_list_t::operator!=(const osm_t::TagMap &t2)`. -/
def tag_list_t.neMap (tl : tag_list_t) (t2 : TagMap) : Bool :=
  match tag_list_compare_base tl t2 with
  | (some r, _) => r
  | (none, t1d) =>
      match tl with
      | none => false  -- unreachable: base already decided the empty case
      | some contents => tag_list_ne_map_loop t2 contents t1d

/-- `tag_fill_functor` + `tag_list_t::replace(const osm_t::TagMap &)`:
install the map's entries as the new tag list, dropping creator tags; an
empty map leaves a null contents pointer. -/
def tag_list_t.replaceFromMap (m : TagMap) : tag_list_t :=
  if m.isEmpty then none
  else some ((m.filter fun p => !(key_is_discardable p.1)).map
    fun p => tag_t.mk p.1 p.2)

/-- Modelled from the spec: `ID_ILLEGAL` is defined in a header missing from
the tree; it is the sentinel id that must never be stored in a live map
(spec §8), i.e. `0`. -/
def ID_ILLEGAL : Int := 0

/-- `object_t`: tagged reference to an OSM object.  The `node`/`way`/
`relation` pointer variants are represented by the id of the object inside
the owning graph; the `*Id` variants are the bare id references used for
members that were not resolved at parse time. -/
inductive object_t where
  | node (id : Int)
  | way (id : Int)
  | relation (id : Int)
  | nodeId (id : Int)
  | wayId (id : Int)
  | relationId (id : Int)
  | illegal
deriving DecidableEq, Repr

/-- The base type of a reference: `type & ~_REF_FLAG`. -/
inductive obj_type where
  | node | way | relation | illegal
deriving DecidableEq, Repr

/-- `object_t::type & ~_REF_FLAG`. -/
def object_t.baseType : object_t → obj_type
  | .node _ | .nodeId _ => .node
  | .way _ | .wayId _ => .way
  | .relation _ | .relationId _ => .relation
  | .illegal => .illegal

/-- `object_t::is_real()`. -/
def object_t.is_real : object_t → Bool
  | .node _ | .way _ | .relation _ => true
  | _ => false

/-- `object_t::get_id()`: the stored or referenced id; `ID_ILLEGAL` for the
illegal variant. -/
def object_t.get_id : object_t → Int
  | .node i | .way i | .relation i => i
  | .nodeId i | .wayId i | .relationId i => i
  | .illegal => ID_ILLEGAL

/-- `object_t::operator==`: identical base types and the same id, regardless
of the real/id-reference distinction (two real references to the same id
denote the same arena object). -/
def object_t.eq (a b : object_t) : Bool :=
  a.baseType == b.baseType && a.get_id == b.get_id

/-- A relation member (`member_t`): an object reference plus an optional
interned role string (`nullptr` -> `none`). -/
structure member_t where
  object : object_t
  role : Option String
deriving DecidableEq, Repr

/-- `member_t::operator==`: object and role must both match (a null role
only equals a null role). -/
def member_t.eq (a b : member_t) : Bool :=
  object_t.eq a.object b.object && a.role == b.role

/-- Geographic position (`pos_t`).  The claims never compute with
coordinates, they only copy them, so the numeric representation is kept
abstract as a pair of integers. -/
structure pos_t where
  lat : Int
  lon : Int
deriving DecidableEq, Repr

/-- Projected screen position (`lpos_t`), same remark as `pos_t`. -/
structure lpos_t where
  x : Int
  y : Int
deriving DecidableEq, Repr

/-- `node_t`: base attributes plus position and the `ways` reference
counter. -/
structure node_t where
  id : Int
  version : Nat
  flags : flags_t
  tags : tag_list_t
  pos : pos_t
  lpos : lpos_t
  ways : Nat
deriving DecidableEq, Repr

/-- `way_t`: base attributes plus the node chain, stored as node ids. -/
structure way_t where
  id : Int
  version : Nat
  flags : flags_t
  tags : tag_list_t
  node_chain : List Int
deriving DecidableEq, Repr

/-- `relation_t`: base attributes plus the ordered member list. -/
structure relation_t where
  id : Int
  version : Nat
  flags : flags_t
  tags : tag_list_t
  members : List member_t
deriving DecidableEq, Repr

/-- Modelled from the spec: `base_object_t::isNew()` is declared in the
missing header; per §3 a negative id marks a locally created object. -/
def isNew (id : Int) : Bool := id < 0

/-- An id-keyed `std::map`: an association list kept sorted by key through
`osmMap.insert`.  Iteration order of the list is the ascending key order of
the C++ map. -/
abbrev osmMap (α : Type) := List (Int × α)

namespace osmMap

/-- `map[k] = v`: insert at the sorted position, replacing an existing
binding for the same key. -/
def insert {α} (m : osmMap α) (k : Int) (v : α) : osmMap α :=
  match m with
  | [] => [(k, v)]
  | (k', v') :: rest =>
      if k < k' then (k, v) :: (k', v') :: rest
      else if k = k' then (k, v) :: rest
      else (k', v') :: insert rest k v

/-- `std::map::erase(k)` (on a map without duplicate keys). -/
def erase {α} (m : osmMap α) (k : Int) : osmMap α :=
  match m with
  | [] => []
  | (k', v) :: rest => if k' = k then erase rest k else (k', v) :: erase rest k

/-- Update the value bound to `k` in place, leaving other keys alone. -/
def modify {α} (m : osmMap α) (k : Int) (f : α → α) : osmMap α :=
  match m with
  | [] => []
  | (k', v) :: rest =>
      if k' = k then (k', f v) :: modify rest k f else (k', v) :: modify rest k f

/-- All keys of the map. -/
def keys {α} (m : osmMap α) : List Int := m.map Prod.fst

end osmMap

/-- The OSM graph (`osm_t`): the three id-keyed object maps plus the set of
hidden way ids.  Bounds and upload policy play no role in the verified
operations and are omitted. -/
structure osm_t where
  nodes : osmMap node_t
  ways : osmMap way_t
  relations : osmMap relation_t
  hiddenWays : List Int
deriving DecidableEq, Repr

/-- The empty graph. -/
def osm_t.empty : osm_t := ⟨[], [], [], []⟩

/-- Modelled from the spec: `osm_t::mark_dirty` is declared in the missing
header; §4.4 — any mutation sets the Dirty flag on the object. -/
def node_t.mark_dirty (n : node_t) : node_t := { n with flags := n.flags.markDirty }

/-- Way version of `mark_dirty` (see `node_t.mark_dirty`). -/
def way_t.mark_dirty (w : way_t) : way_t := { w with flags := w.flags.markDirty }

/-- Relation version of `mark_dirty` (see `node_t.mark_dirty`). -/
def relation_t.mark_dirty (r : relation_t) : relation_t := { r with flags := r.flags.markDirty }

/-- Modelled from the spec: `base_object_t::markDeleted` is declared in the
missing header; §4.3 — a positive-id object is only flagged Deleted. -/
def node_t.markDeleted (n : node_t) : node_t := { n with flags := n.flags.markDeleted }

/-- Way version of `markDeleted`. -/
def way_t.markDeleted (w : way_t) : way_t := { w with flags := w.flags.markDeleted }

/-- Relation version of `markDeleted`. -/
def relation_t.markDeleted (r : relation_t) : relation_t := { r with flags := r.flags.markDeleted }

/-- Id allocation of `osm_t::attach`: `-1` on an empty map or when the
smallest existing key (`map.begin()`) is non-negative, one less than the
smallest key otherwise. -/
def osm_new_id {α} (m : osmMap α) : Int :=
  match m with
  | [] => -1
  | (k, _) :: _ => if k ≥ 0 then -1 else k - 1

/-- `osm_t::attach` for nodes: assign the fresh negative id and insert.  The
Dirty flag is set because a locally created object is dirty by construction
(the tests assert `flags == OSM_FLAG_DIRTY` right after `attach`). -/
def osm_t.node_attach (osm : osm_t) (n : node_t) : osm_t × Int :=
  let nid := osm_new_id osm.nodes
  let n' := { n with id := nid, flags := n.flags.markDirty }
  ({ osm with nodes := osm.nodes.insert nid n' }, nid)

/-- `osm_t::attach` for ways (see `osm_t.node_attach`). -/
def osm_t.way_attach (osm : osm_t) (w : way_t) : osm_t × Int :=
  let wid := osm_new_id osm.ways
  let w' := { w with id := wid, flags := w.flags.markDirty }
  ({ osm with ways := osm.ways.insert wid w' }, wid)

/-- `osm_t::insert` (`object_insert`): insert an already-identified object,
as done for parsed base data. -/
def osm_t.node_insert (osm : osm_t) (n : node_t) : osm_t :=
  { osm with nodes := osm.nodes.insert n.id n }

/-- `osm_t::insert` for ways. -/
def osm_t.way_insert (osm : osm_t) (w : way_t) : osm_t :=
  { osm with ways := osm.ways.insert w.id w }

/-- `osm_t::insert` for relations. -/
def osm_t.relation_insert (osm : osm_t) (r : relation_t) : osm_t :=
  { osm with relations := osm.relations.insert r.id r }

/-- `way_t::append_node`: push the node onto the chain and bump its `ways`
reference counter.  The node pointer argument becomes a node id; the
operation requires both objects to exist in the graph (a C++ precondition of
holding valid pointers). -/
def osm_t.append_node (osm : osm_t) (wid nid : Int) : osm_t :=
  match osm.ways.lookup wid, osm.nodes.lookup nid with
  | some _, some _ =>
      { osm with
        ways := osm.ways.modify wid fun w => { w with node_chain := w.node_chain ++ [nid] },
        nodes := osm.nodes.modify nid fun n => { n with ways := n.ways + 1 } }
  | _, _ => osm

/-- `way_t::is_closed()`: non-empty chain whose front equals its back. -/
def way_t.is_closed (w : way_t) : Bool :=
  match w.node_chain with
  | [] => false
  | x :: rest => x == (x :: rest).getLastD x

/-- `way_t::ends_with_node`: deleted ways never end in a node; otherwise the
chain's front or back must be the node. -/
def way_t.ends_with_node (w : way_t) (nid : Int) : Bool :=
  if w.flags.deleted then false
  else
    match w.node_chain with
    | [] => false
    | x :: rest => x == nid || (x :: rest).getLastD x == nid

/-- `remove_member_functor`: erase every member equal (as `object_t`) to
`obj` from a member list. -/
def remove_members (obj : object_t) (ms : List member_t) : List member_t :=
  ms.filter fun m => !(object_t.eq m.object obj)

/-- `osm_t::remove_from_relations`: drop `obj` from every relation's member
list, marking a relation dirty exactly when one of its members matched. -/
def osm_t.remove_from_relations (osm : osm_t) (obj : object_t) : osm_t :=
  { osm with relations := osm.relations.map fun p =>
      if p.2.members.any fun m => object_t.eq m.object obj then
        (p.1, { p.2.mark_dirty with members := remove_members obj p.2.members })
      else p }

/-- Member walk of `relation_object_replacer::operator()`: members matching
`old` get their object replaced by `repl`; if the rewritten member became
identical (object and role) to its direct predecessor in the already
processed part or to the untouched successor, it is dropped instead. -/
def replace_members : List member_t → Option member_t → object_t → object_t → List member_t
  | [], _, _, _ => []
  | m :: rest, prev, old, repl =>
      if object_t.eq m.object old then
        let m' := { m with object := repl }
        if (match prev with | some p => member_t.eq p m' | none => false)
            || (match rest.head? with | some n => member_t.eq n m' | none => false) then
          replace_members rest prev old repl
        else
          m' :: replace_members rest (some m') old repl
      else
        m :: replace_members rest (some m) old repl

/-- `relation_object_replacer` applied to one relation: replace `old` by
`repl` in the member list (collapsing freshly created adjacent duplicates)
and mark the relation dirty when anything matched. -/
def relation_replace_object (r : relation_t) (old repl : object_t) : relation_t :=
  if r.members.any fun m => object_t.eq m.object old then
    { r.mark_dirty with members := replace_members r.members none old repl }
  else r

/-- `relation_membership_functor`: the ids of the relations having `a`
(resp. `b`) among their members, in map order. -/
def relation_memberships (osm : osm_t) (a : object_t) :
    List Int :=
  (osm.relations.filter fun p => p.2.members.any fun m => object_t.eq m.object a).map Prod.fst

/-- Attribute lookup used by the persistence tie-breaks: `node->ways` for a
node reference, 0 when the object is not present. -/
def osm_t.refNodeWays (osm : osm_t) (o : object_t) : Nat :=
  match osm.nodes.lookup o.get_id with
  | some n => n.ways
  | none => 0

/-- `way->node_chain.size()` for a way reference, 0 when absent. -/
def osm_t.refWayLen (osm : osm_t) (o : object_t) : Nat :=
  match osm.ways.lookup o.get_id with
  | some w => w.node_chain.length
  | none => 0

/-- `obj->version` for a node/way reference, 0 when absent. -/
def osm_t.refVersion (osm : osm_t) (o : object_t) : Nat :=
  match o.baseType with
  | .node => (match osm.nodes.lookup o.get_id with | some n => n.version | none => 0)
  | .way => (match osm.ways.lookup o.get_id with | some w => w.version | none => 0)
  | _ => 0

/-- `osm_t::checkObjectPersistence(first, second, rels)` (node/way variant):
returns `true` when `first` is kept, together with the `rels` output — the
relations containing whichever object loses.  The disjunction mirrors the
source: the first clause fires only when `keep` (= `first`) is new and
`remove` (= `second`) is old; later clauses can still prefer `remove`. -/
def osm_t.checkObjectPersistence (osm : osm_t) (first second : object_t) :
    Bool × List Int :=
  let keep := first
  let remove := second
  let removeRels := relation_memberships osm remove
  let keepRels := relation_memberships osm keep
  let nret :=
    (isNew keep.get_id && !(isNew remove.get_id)) ||
    removeRels.length > keepRels.length ||
    (keep.baseType == .node && osm.refNodeWays remove > osm.refNodeWays keep) ||
    (keep.baseType == .way && osm.refWayLen remove > osm.refWayLen keep) ||
    osm.refVersion remove > osm.refVersion keep ||
    (remove.get_id > 0 && remove.get_id < keep.get_id)
  (!nret, if nret then keepRels else removeRels)

/-- The modes of `osm_t::node_delete` (`NodeDeleteFlags`). -/
inductive node_delete_flags where
  | default | keepRefs | shortWays
deriving DecidableEq, Repr

/-- Core of `osm_t::node_delete` without the `NodeDeleteShortWays` cascade:
erase the node from every way chain (`node_chain_delete_functor`; in
keep-refs mode the chains are left alone but affected ways are still marked
dirty), drop it from relations unless keeping refs, then free a new node or
soft-delete an old one.  Also returns the affected way ids (`way_chain`). -/
def osm_t.node_delete_core (osm : osm_t) (nid : Int) (keepRefs : Bool) :
    osm_t × List Int :=
  match osm.nodes.lookup nid with
  | none => (osm, [])
  | some node =>
      let affected :=
        if node.ways > 0 then
          (osm.ways.filter fun p => p.2.node_chain.contains nid).map Prod.fst
        else []
      let osm1 :=
        if node.ways > 0 then
          { osm with ways := osm.ways.map fun p =>
              if p.2.node_chain.contains nid then
                (p.1,
                  if keepRefs then p.2.mark_dirty
                  else { p.2.mark_dirty with
                         node_chain := p.2.node_chain.filter fun x => x ≠ nid })
              else p }
        else osm
      let osm2 := if keepRefs then osm1 else osm1.remove_from_relations (.node nid)
      let osm3 :=
        if isNew nid then { osm2 with nodes := osm2.nodes.erase nid }
        else { osm2 with nodes := osm2.nodes.modify nid node_t.markDeleted }
      (osm3, affected)

/-- `osm_unref_way_free`: decrement the node's way counter; once it is no
longer used by any way, carries no non-discardable tag and is not referenced
by any relation, delete it (keeping refs — the only way using it is the one
currently being deleted). -/
def osm_unref_way_free (osm : osm_t) (nid : Int) : osm_t :=
  match osm.nodes.lookup nid with
  | none => osm
  | some n =>
      let n' := { n with ways := n.ways - 1 }
      let osm' := { osm with nodes := osm.nodes.insert nid n' }
      if n'.ways = 0 && !n'.tags.hasNonDiscardableTags &&
          (osm'.relations.all fun p =>
            !(p.2.members.any fun m => object_t.eq m.object (.node nid))) then
        (osm'.node_delete_core nid true).1
      else osm'

/-- `osm_t::way_delete`: remove the way from all relations, unref (and
possibly delete) its chain nodes, clear the chain, then soft-delete an old
way or free a new one. -/
def osm_t.way_delete (osm : osm_t) (wid : Int) : osm_t :=
  match osm.ways.lookup wid with
  | none => osm
  | some way =>
      let osm1 := if wid ≠ ID_ILLEGAL then osm.remove_from_relations (.way wid) else osm
      let osm2 := way.node_chain.foldl osm_unref_way_free osm1
      let osm3 := { osm2 with ways := osm2.ways.modify wid fun w => { w with node_chain := [] } }
      if !(isNew wid) then
        { osm3 with ways := osm3.ways.modify wid way_t.markDeleted }
      else
        { osm3 with ways := osm3.ways.erase wid }

/-- `osm_t::node_delete(node, flags, map)`: the core deletion plus, in
short-ways mode, deletion of every affected way that was left with a single
node (`node_deleted_from_ways`). -/
def osm_t.node_delete (osm : osm_t) (nid : Int) (fl : node_delete_flags) : osm_t :=
  match fl with
  | .keepRefs => (osm.node_delete_core nid true).1
  | .default => (osm.node_delete_core nid false).1
  | .shortWays =>
      let r := osm.node_delete_core nid false
      r.2.foldl (fun o wid =>
        match o.ways.lookup wid with
        | some w => if w.node_chain.length = 1 then o.way_delete wid else o
        | none => o) r.1

/-- Inner `while` of the `mergeNodes` way rewiring: occurrences of `remove`
are replaced by `keep`, or erased when that would duplicate an adjacent
`keep` entry; at most `budget` (`remove->ways`) occurrences are processed.
Returns the new chain, the number of occurrences processed and the number of
replacements (`keep->ways` increments). -/
def join_chain (keep remove : Int) :
    List Int → Option Int → Nat → List Int × Nat × Nat
  | [], _, _ => ([], 0, 0)
  | x :: rest, prev, budget =>
      if budget ≠ 0 && x == remove then
        if prev == some keep || rest.head? == some keep then
          let r := join_chain keep remove rest prev (budget - 1)
          (r.1, r.2.1 + 1, r.2.2)
        else
          let r := join_chain keep remove rest (some keep) (budget - 1)
          (keep :: r.1, r.2.1 + 1, r.2.2 + 1)
      else
        let r := join_chain keep remove rest (some x) budget
        (x :: r.1, r.2.1, r.2.2)

/-- Outer way loop of the `mergeNodes` rewiring: the ways are visited in map
order while `remove->ways` is still positive; each rewritten way is marked
dirty.  Returns the new way map, the remaining `remove->ways` counter and
the total `keep->ways` increment. -/
def merge_rewire_ways (keep remove : Int) :
    osmMap way_t → Nat → osmMap way_t × Nat × Nat
  | [], budget => ([], budget, 0)
  | (wid, w) :: rest, budget =>
      if budget ≠ 0 then
        let r := join_chain keep remove w.node_chain none budget
        let w' := if r.2.1 ≠ 0 then { w.mark_dirty with node_chain := r.1 } else w
        let rr := merge_rewire_ways keep remove rest (budget - r.2.1)
        ((wid, w') :: rr.1, rr.2.1, r.2.2 + rr.2.2)
      else ((wid, w) :: rest, budget, 0)

/-- `osm_t::mergeNodes(first, second, mergeways)`: pick the survivor via
`checkObjectPersistence`, mark both dirty, move the survivor to `second`'s
position, rewire ways and relations from the loser to the survivor, merge
the tag lists and delete the loser keeping refs.  Returns the updated graph,
the surviving node id and the tag conflict flag.  `none` models the C++
precondition of two valid, distinct node pointers. -/
def osm_t.mergeNodes (osm : osm_t) (firstId secondId : Int) :
    Option (osm_t × Int × Bool) :=
  if firstId = secondId then none
  else
  match osm.nodes.lookup firstId, osm.nodes.lookup secondId with
  | some first, some second =>
      let pr := osm.checkObjectPersistence (.node firstId) (.node secondId)
      let keepId := if pr.1 then firstId else secondId
      let removeId := if pr.1 then secondId else firstId
      let keepN := if pr.1 then first else second
      let removeN := if pr.1 then second else first
      let osm := { osm with nodes :=
        (osm.nodes.modify keepId node_t.mark_dirty).modify removeId node_t.mark_dirty }
      let osm := { osm with nodes := osm.nodes.modify keepId fun n =>
        { n with pos := second.pos, lpos := second.lpos } }
      let rw := merge_rewire_ways keepId removeId osm.ways removeN.ways
      let osm := { osm with
        ways := rw.1,
        nodes := (osm.nodes.modify keepId fun n => { n with ways := n.ways + rw.2.2 }).modify
          removeId fun n => { n with ways := rw.2.1 } }
      let rels := pr.2
      let newRels := osm.relations.map fun (p : Int × relation_t) =>
        if rels.contains p.1 then
          (p.1, relation_replace_object p.2 (.node removeId) (.node keepId))
        else p
      let osm := { osm with relations := newRels }
      let merged := tag_list_t.merge keepN.tags removeN.tags
      let osm := { osm with nodes := osm.nodes.modify keepId fun n =>
        { n with tags := merged.1 } }
      let osm := (osm.node_delete_core removeId true).1
      some (osm, keepId, merged.2)
  | _, _ => none

/-- Real-way test of `object.type == object_t::WAY` (the reference variant,
not `WAY_ID`). -/
def object_t.isRealWay : object_t → Bool
  | .way _ => true
  | _ => false

/-- Member scan of the newer `relation_transfer::operator()`: every member
referencing the source way gets a copy for the destination way (same role)
inserted next to it; the copy goes in front when the preceding member is a
real way sharing an endpoint with the destination way or — when there is no
preceding way member — the following member is a real way sharing an
endpoint with the source way, and after it otherwise.  `prev` is the member
preceding the scan position in the (already rewritten) vector. -/
def transfer_scan (osm : osm_t) (dstId srcId dstFront dstBack srcFront srcBack : Int) :
    List member_t → Option member_t → List member_t
  | [], _ => []
  | m :: rest, prev =>
      if object_t.eq m.object (.way srcId) then
        let newM : member_t := ⟨.way dstId, m.role⟩
        let insertBefore :=
          match prev with
          | some pm =>
              if pm.object.isRealWay then
                match osm.ways.lookup pm.object.get_id with
                | some pw => pw.ends_with_node dstFront || pw.ends_with_node dstBack
                | none => false
              else
                match rest.head? with
                | some nm =>
                    if nm.object.isRealWay then
                      match osm.ways.lookup nm.object.get_id with
                      | some nw => nw.ends_with_node srcFront || nw.ends_with_node srcBack
                      | none => false
                    else false
                | none => false
          | none =>
              match rest.head? with
              | some nm =>
                  if nm.object.isRealWay then
                    match osm.ways.lookup nm.object.get_id with
                    | some nw => nw.ends_with_node srcFront || nw.ends_with_node srcBack
                    | none => false
                  else false
              | none => false
        if insertBefore then
          newM :: m :: transfer_scan osm dstId srcId dstFront dstBack srcFront srcBack rest (some m)
        else
          m :: newM :: transfer_scan osm dstId srcId dstFront dstBack srcFront srcBack rest (some newM)
      else
        m :: transfer_scan osm dstId srcId dstFront dstBack srcFront srcBack rest (some m)

/-- `relation_transfer` over all relations: relations referencing the source
way receive the destination-way copies and are marked dirty.  The endpoint
comparisons read both ways from the graph as it stands after the split, so
`src`'s chain is the post-split chain of the original way. -/
def relation_transfer_all (osm : osm_t) (dstId srcId : Int) : osm_t :=
  match osm.ways.lookup dstId with
  | none => osm
  | some dst =>
      let f := dst.node_chain.head?.getD 0
      let b := dst.node_chain.getLastD 0
      let sf := match osm.ways.lookup srcId with
                | some src => src.node_chain.head?.getD 0
                | none => 0
      let sb := match osm.ways.lookup srcId with
                | some src => src.node_chain.getLastD 0
                | none => 0
      let newRels := osm.relations.map fun (p : Int × relation_t) =>
        if p.2.members.any fun m => object_t.eq m.object (.way srcId) then
          (p.1, { p.2.mark_dirty with
                  members := transfer_scan osm dstId srcId f b sf sb p.2.members none })
        else p
      { osm with relations := newRels }

/-- `way_t::split(osm, cut_at, cut_at_node)`.  The cut iterator becomes an
index into the node chain.  Closed ways are un-closed and rotated in place
(no new way); open ways are partitioned into the head (kept by the original
way) and the tail.  A degenerate tail is dropped again.  The node chains are
exchanged when the head is shorter, so the history stays with the longer
part; finally the new way is attached and the relation memberships are
transferred.  Returns the new graph and the id of the created way. -/
def osm_t.way_split (osm : osm_t) (wid : Int) (cutAt : Nat) (cutAtNode : Bool) :
    osm_t × Option Int :=
  match osm.ways.lookup wid with
  | none => (osm, none)
  | some way =>
      if way.node_chain.length ≤ 2 then (osm, none)
      else
        let osm := { osm with ways := osm.ways.modify wid way_t.mark_dirty }
        if way.is_closed then
          let chain := way.node_chain.dropLast
          let backId := way.node_chain.getLastD 0
          let osm := { osm with nodes := osm.nodes.modify backId fun n =>
            { n with ways := n.ways - 1 } }
          let rotated := chain.drop cutAt ++ chain.take cutAt
          ({ osm with ways := osm.ways.modify wid fun w =>
              { w with node_chain := rotated } }, none)
        else
          let tail := way.node_chain.drop cutAt
          let newNodes :=
            if cutAtNode then
              osm.nodes.modify (way.node_chain.getD cutAt 0) (fun n =>
                { n with ways := n.ways + 1 })
            else osm.nodes
          let osm := { osm with nodes := newNodes }
          let keepLen := cutAt + (if cutAtNode then 1 else 0)
          let headChain := way.node_chain.take keepLen
          let osm := { osm with ways := osm.ways.modify wid fun w =>
            { w with node_chain := headChain } }
          if tail.length < 2 then
            match tail.head? with
            | some front =>
                ({ osm with nodes := osm.nodes.modify front fun n =>
                    { n with ways := n.ways - 1 } }, none)
            | none => (osm, none)
          else
            let newTags := tag_list_t.copy way.tags
            let origChain := if headChain.length < tail.length then tail else headChain
            let newChain := if headChain.length < tail.length then headChain else tail
            let osm := { osm with ways := osm.ways.modify wid fun w =>
              { w with node_chain := origChain } }
            let att := osm.way_attach
              { id := ID_ILLEGAL, version := 0, flags := flags_t.clear,
                tags := newTags, node_chain := newChain }
            let osm := relation_transfer_all att.1 att.2 wid
            (osm, some att.2)

/-- `reverse_direction_sensitive_tags_functor::operator()`: flip `oneway`
values, `sidewalk` sides and the direction-sensitive `:left/:right/:forward/
:backward` key suffixes. -/
def reverse_tag (t : tag_t) : tag_t :=
  if t.key == "oneway" then
    if strcaseEq t.value "yes" || strcaseEq t.value "true" || t.value == "1" then
      ⟨"oneway", "-1"⟩
    else if t.value == "-1" then ⟨"oneway", "yes"⟩
    else t
  else if t.key == "sidewalk" then
    if strcaseEq t.value "right" then ⟨"sidewalk", "left"⟩
    else if strcaseEq t.value "left" then ⟨"sidewalk", "right"⟩
    else t
  else
    -- strrchr(etag.key, ':'): split the key at its last colon
    let l := t.key.data
    let suffix := (l.reverse.takeWhile fun c => c ≠ ':').reverse
    if suffix.length = l.length then t  -- no colon in the key
    else
      let pre := l.take (l.length - suffix.length - 1)
      let repl :=
        if suffix = "left".data then some "right".data
        else if suffix = "right".data then some "left".data
        else if suffix = "forward".data then some "backward".data
        else if suffix = "backward".data then some "forward".data
        else none
      match repl with
      | some s => ⟨String.mk (pre ++ ':' :: s), t.value⟩
      | none => t

/-- One relation under `reverse_roles::operator()`: only `type=route`
relations are touched; the first member referencing the way has a `forward`
role turned into `backward` and vice versa (case-insensitively), and the
relation is marked dirty when a flip happened. -/
def flip_first_role (w : object_t) : List member_t → List member_t × Bool
  | [] => ([], false)
  | m :: rest =>
      if object_t.eq m.object w then
        match m.role with
        | some role =>
            if strcaseEq role "forward" then
              (({ m with role := some "backward" } : member_t) :: rest, true)
            else if strcaseEq role "backward" then
              (({ m with role := some "forward" } : member_t) :: rest, true)
            else (m :: rest, false)
        | none => (m :: rest, false)
      else
        let r := flip_first_role w rest
        (m :: r.1, r.2)

/-- `reverse_roles::operator()` for a single relation. -/
def reverse_roles_rel (r : relation_t) (w : object_t) : relation_t :=
  match r.tags.get_value "type" with
  | none => r
  | some ty =>
      if !(strcaseEq ty "route") then r
      else
        let fr := flip_first_role w r.members
        if fr.2 then { r.mark_dirty with members := fr.1 } else r

/-- `way_t::reverse(osm, tags_flipped, roles_flipped)`: mark the way dirty,
flip its direction-sensitive tags, reverse the node chain and flip the
`forward`/`backward` roles in every route relation referencing the way. -/
def osm_t.way_reverse (osm : osm_t) (wid : Int) : osm_t :=
  match osm.ways.lookup wid with
  | none => osm
  | some w =>
      let newTags : tag_list_t :=
        match w.tags with
        | none => none
        | some l => some (l.map reverse_tag)
      let w' := { w.mark_dirty with tags := newTags, node_chain := w.node_chain.reverse }
      let osm := { osm with ways := osm.ways.insert wid w' }
      let newRels := osm.relations.map fun (p : Int × relation_t) =>
        (p.1, reverse_roles_rel p.2 (.way wid))
      { osm with relations := newRels }

/-- First-key-negative fast path of `osm_t::is_clean`: `map.begin()->first
< 0` on a non-empty map. -/
def map_first_neg {α} (m : osmMap α) : Bool :=
  match m with
  | [] => false
  | (k, _) :: _ => decide (k < 0)

/-- `map_is_clean`: no object in the map reports `isDirty()`. -/
def map_is_clean {α} (fl : α → flags_t) (m : osmMap α) : Bool :=
  m.all fun p => !(fl p.2).isDirty

/-- `osm_t::is_clean(honor_hidden_flags)`. -/
def osm_t.is_clean (osm : osm_t) (honorHidden : Bool) : Bool :=
  if map_first_neg osm.nodes then false
  else if map_first_neg osm.ways then false
  else if map_first_neg osm.relations then false
  else if honorHidden && !osm.hiddenWays.isEmpty then false
  else
    map_is_clean node_t.flags osm.nodes &&
    map_is_clean way_t.flags osm.ways &&
    map_is_clean relation_t.flags osm.relations

/-- `osm_t::parse_relation_member(tp, ref, role, members)` (the newer
variant): reject a missing or unknown type, a missing ref or trailing
garbage after the number (`strtoll` + `*endp` check, modelled with
`String.toInt?`); resolve the id against the graph and fall back to the
matching `*_ID` variant when the object is unknown; an empty role string
becomes a null role.  Returns the success flag and the extended member
list. -/
def osm_t.parse_relation_member (osm : osm_t) (tp ref role : Option String)
    (members : List member_t) : Bool × List member_t :=
  match tp with
  | none => (false, members)
  | some tps =>
      match ref with
      | none => (false, members)
      | some refs =>
          let ty : Option obj_type :=
            if tps == "way" then some .way
            else if tps == "node" then some .node
            else if tps == "relation" then some .relation
            else none
          match ty with
          | none => (false, members)
          | some ty =>
              match strtoll_all refs with
              | none => (false, members)
              | some id =>
                  let obj : object_t :=
                    match ty with
                    | .way =>
                        match osm.ways.lookup id with
                        | some _ => .way id
                        | none => .wayId id
                    | .node =>
                        match osm.nodes.lookup id with
                        | some _ => .node id
                        | none => .nodeId id
                    | .relation =>
                        match osm.relations.lookup id with
                        | some _ => .relation id
                        | none => .relationId id
                    | .illegal => .illegal
                  let r : Option String :=
                    match role with
                    | some s => if s.length > 0 then some s else none
                    | none => none
                  (true, members ++ [⟨obj, r⟩])

/-- The older `process_member`/`osm_parse_osm_relation_member` of `osm.cpp`,
for the attribute-present paths: an unknown type yields an illegal member
that the caller drops (`none` here); `strtoll` without an end-pointer check
turns garbage into `0`; unresolved ids fall back to id variants — including
the slip of storing `NODE_ID` in the `RELATION` branch. -/
def process_member_old (osm : osm_t) (tp ref role : Option String) :
    Option member_t :=
  let ty : obj_type :=
    match tp with
    | some s =>
        if s == "way" then .way
        else if s == "node" then .node
        else if s == "relation" then .relation
        else .illegal
    | none => .illegal
  match ref with
  | none => none
  | some refs =>
      match ty with
      | .illegal => none
      | _ =>
          let id := strtoll_prefix refs
          let obj : object_t :=
            match ty with
            | .way =>
                match osm.ways.lookup id with
                | some _ => .way id
                | none => .wayId id
            | .node =>
                match osm.nodes.lookup id with
                | some _ => .node id
                | none => .nodeId id
            | .relation =>
                match osm.relations.lookup id with
                | some _ => .relation id
                | none => .nodeId id
            | .illegal => .illegal
          let r : Option String :=
            match role with
            | some s => if s.length > 0 then some s else none
            | none => none
          some ⟨obj, r⟩

/-- The three object kinds of the graph. -/
inductive obj_kind where
  | nodes | ways | relations
deriving DecidableEq, Repr

/-- Dirty categories of `osm_t::dirty_t::counter`. -/
inductive dirty_cat where
  | added | changed | deleted
deriving DecidableEq, Repr

/-- Classification of `object_counter::operator()`: deleted objects first,
then new ones, then objects with the Dirty flag; clean objects yield
nothing. -/
def classify_obj (oid : Int) (fl : flags_t) : Option dirty_cat :=
  if fl.deleted then some .deleted
  else if isNew oid then some .added
  else if fl.dirty then some .changed
  else none

/-- The dirty summary of the graph, pointwise: for an object kind and an id,
the category and flags of the object, or `none` for absent/unmodified
objects.  Two graphs with equal `dirtyClass` functions have the same sets of
added/changed/deleted ids per type together with their flags. -/
def osm_t.dirtyClass (osm : osm_t) (k : obj_kind) (id : Int) :
    Option (dirty_cat × flags_t) :=
  match k with
  | .nodes => (osm.nodes.lookup id).bind fun o =>
      (classify_obj o.id o.flags).map fun c => (c, o.flags)
  | .ways => (osm.ways.lookup id).bind fun o =>
      (classify_obj o.id o.flags).map fun c => (c, o.flags)
  | .relations => (osm.relations.lookup id).bind fun o =>
      (classify_obj o.id o.flags).map fun c => (c, o.flags)

/-- One entry of the persisted diff for a single object type. -/
inductive diff_entry (α : Type) where
  | added (id : Int) (obj : α)
  | changed (id : Int) (obj : α)
  | deleted (id : Int) (fl : flags_t)
deriving DecidableEq, Repr

/-- The id an entry refers to. -/
def diff_entry.key {α} : diff_entry α → Int
  | .added i _ => i
  | .changed i _ => i
  | .deleted i _ => i

/-- Modelled from the spec: `diff_save` lives in `diff.cpp`, which is not
part of the tree (only its test driver is).  Per §4.4/§6 the diff enumerates
the Added/Changed/Deleted objects of one map — classified exactly as the
in-tree `object_counter` does — and records their current state. -/
def diff_save_map {α} (oid : α → Int) (ofl : α → flags_t) (m : osmMap α) :
    List (diff_entry α) :=
  m.filterMap fun p =>
    match classify_obj (oid p.2) (ofl p.2) with
    | some .deleted => some (.deleted p.1 (ofl p.2))
    | some .added => some (.added p.1 p.2)
    | some .changed => some (.changed p.1 p.2)
    | none => none

/-- Modelled from the spec: `diff_restore` replay for one map — recreate
Added objects under their negative ids, reapply Changed state, mark Deleted
objects deleted; an entry whose id is absent from the base map is skipped
(§4.4 failure policy). -/
def diff_apply_entry {α} (setfl : flags_t → α → α) (m : osmMap α) :
    diff_entry α → osmMap α
  | .added i o => m.insert i o
  | .changed i o => m.insert i o
  | .deleted i fl => m.modify i (setfl fl)

def diff_restore_map {α} (setfl : flags_t → α → α) (m : osmMap α)
    (es : List (diff_entry α)) : osmMap α :=
  es.foldl (diff_apply_entry setfl) m

/-- The saved diff of a graph: one entry list per object type. -/
structure osm_diff where
  dnodes : List (diff_entry node_t)
  dways : List (diff_entry way_t)
  drelations : List (diff_entry relation_t)
deriving DecidableEq, Repr

/-- Modelled from the spec: `diff_save` over the whole graph. -/
def diff_save (osm : osm_t) : osm_diff :=
  ⟨diff_save_map node_t.id node_t.flags osm.nodes,
   diff_save_map way_t.id way_t.flags osm.ways,
   diff_save_map relation_t.id relation_t.flags osm.relations⟩

/-- Modelled from the spec: `diff_restore_file` replayed onto a freshly
parsed base graph. -/
def diff_restore (base : osm_t) (d : osm_diff) : osm_t :=
  { base with
    nodes := diff_restore_map (fun fl n => { n with flags := fl }) base.nodes d.dnodes,
    ways := diff_restore_map (fun fl w => { w with flags := fl }) base.ways d.dways,
    relations := diff_restore_map (fun fl r => { r with flags := fl }) base.relations d.drelations }

/-- The edit scripts of the diff round-trip scenario: add a node, delete a
way, replace an object's tags. -/
inductive edit_t where
  | addNode (p : pos_t) (lp : lpos_t)
  | deleteWay (id : Int)
  | modifyTags (k : obj_kind) (id : Int) (ntags : TagMap)
deriving DecidableEq, Repr

/-- Tag replacement of `osm_t::updateTags` for a still-clean object: when
the new tags differ from the current ones (`tag_list_t::operator!=`), the
tag list is replaced and the object marked dirty; otherwise nothing
happens. -/
def apply_edit (osm : osm_t) : edit_t → osm_t
  | .addNode p lp =>
      (osm.node_attach
        { id := ID_ILLEGAL, version := 0, flags := flags_t.clear,
          tags := none, pos := p, lpos := lp, ways := 0 }).1
  | .deleteWay wid => osm.way_delete wid
  | .modifyTags k id ntags =>
      match k with
      | .nodes =>
          match osm.nodes.lookup id with
          | some o =>
              if o.tags.neMap ntags then
                { osm with nodes := osm.nodes.modify id fun n =>
                    { n.mark_dirty with tags := tag_list_t.replaceFromMap ntags } }
              else osm
          | none => osm
      | .ways =>
          match osm.ways.lookup id with
          | some o =>
              if o.tags.neMap ntags then
                { osm with ways := osm.ways.modify id fun w =>
                    { w.mark_dirty with tags := tag_list_t.replaceFromMap ntags } }
              else osm
          | none => osm
      | .relations =>
          match osm.relations.lookup id with
          | some o =>
              if o.tags.neMap ntags then
                { osm with relations := osm.relations.modify id fun r =>
                    { r.mark_dirty with tags := tag_list_t.replaceFromMap ntags } }
              else osm
          | none => osm

/-- A whole edit script. -/
def apply_edits (osm : osm_t) (es : List edit_t) : osm_t :=
  es.foldl apply_edit osm

/-- The graph mutations of the reference-count invariant: object creation,
node appending, the two public node-deletion modes, way deletion, node
merging and way splitting. -/
inductive mutation_t where
  | nodeAttach (p : pos_t) (lp : lpos_t) (tags : tag_list_t)
  | wayAttach (tags : tag_list_t)
  | appendNode (wid nid : Int)
  | nodeDelete (nid : Int) (short : Bool)
  | wayDelete (wid : Int)
  | merge (a b : Int)
  | split (wid : Int) (cutAt : Nat) (cutAtNode : Bool)
deriving DecidableEq, Repr

/-- Apply one mutation through the embedded graph operations. -/
def apply_mutation (osm : osm_t) : mutation_t → osm_t
  | .nodeAttach p lp tags =>
      (osm.node_attach
        { id := ID_ILLEGAL, version := 0, flags := flags_t.clear,
          tags := tags, pos := p, lpos := lp, ways := 0 }).1
  | .wayAttach tags =>
      (osm.way_attach
        { id := ID_ILLEGAL, version := 0, flags := flags_t.clear,
          tags := tags, node_chain := [] }).1
  | .appendNode wid nid => osm.append_node wid nid
  | .nodeDelete nid short =>
      osm.node_delete nid (if short then .shortWays else .default)
  | .wayDelete wid => osm.way_delete wid
  | .merge a b =>
      match osm.mergeNodes a b with
      | some r => r.1
      | none => osm
  | .split wid cutAt cutAtNode => (osm.way_split wid cutAt cutAtNode).1

/-- A sequence of mutations applied to a graph. -/
def apply_mutations (osm : osm_t) (ms : List mutation_t) : osm_t :=
  ms.foldl apply_mutation osm

/-- Total number of node-chain entries referencing the node across all
ways. -/
def chain_occ (osm : osm_t) (nid : Int) : Nat :=
  osm.ways.foldl (fun acc p => acc + p.2.node_chain.count nid) 0

/-- The reference-count invariant: every node's `ways` counter bounds the
number of chain entries referencing it, with equality for nodes that are not
flagged Deleted (`node_delete` leaves the counter of the node it soft
deletes untouched). -/
def osm_t.refInv (osm : osm_t) : Bool :=
  osm.nodes.all fun p =>
    decide (chain_occ osm p.1 ≤ p.2.ways) &&
    (p.2.flags.deleted || p.2.ways == chain_occ osm p.1)

/-- The number of distinct ways whose chain contains the node — the
quantity named by the spec's invariant. -/
def distinct_ways_containing (osm : osm_t) (nid : Int) : Nat :=
  (osm.ways.filter fun p => p.2.node_chain.contains nid).length

/-- Keys strictly ascending: the `std::map` ordering invariant of an
association-list map. -/
def osmMap.SortedKeys {α} (m : osmMap α) : Prop :=
  List.Pairwise (· < ·) (m.map Prod.fst)

instance {α} (m : osmMap α) : Decidable (osmMap.SortedKeys m) :=
  inferInstanceAs (Decidable (List.Pairwise _ _))

namespace osmMap

theorem lookup_cons {α} (k' : Int) (v' : α) (rest : List (Int × α)) (i : Int) :
    ((k', v') :: rest).lookup i = if i = k' then some v' else rest.lookup i := by
  simp only [List.lookup]
  by_cases h : i = k'
  · simp [h]
  · have hb : (i == k') = false := beq_eq_false_iff_ne.mpr h
    simp [hb, h]

theorem lookup_insert {α} (m : osmMap α) (k : Int) (v : α) (i : Int) :
    (m.insert k v).lookup i = if i = k then some v else m.lookup i := by
  induction m with
  | nil =>
      rw [show osmMap.insert ([] : osmMap α) k v = [(k, v)] from rfl, lookup_cons]
  | cons p rest ih =>
      obtain ⟨k', v'⟩ := p
      simp only [insert]
      by_cases h1 : k < k'
      · simp only [if_pos h1, lookup_cons]
      · by_cases h2 : k = k'
        · subst h2
          rw [if_neg h1, if_pos rfl, lookup_cons, lookup_cons]
          by_cases h3 : i = k <;> simp [h3]
        · simp only [if_neg h1, if_neg h2, lookup_cons, ih]
          by_cases h3 : i = k'
          · have h4 : ¬(i = k) := fun h => h2 (h3 ▸ h).symm
            have h5 : ¬(k' = k) := fun hh => h2 hh.symm
            simp [h3, h4, h5]
          · simp [h3]

theorem lookup_erase {α} (m : osmMap α) (k : Int) (i : Int) :
    (m.erase k).lookup i = if i = k then none else m.lookup i := by
  induction m with
  | nil => simp [erase, List.lookup]
  | cons p rest ih =>
      obtain ⟨k', v'⟩ := p
      simp only [erase]
      by_cases h1 : k' = k
      · simp only [if_pos h1, ih, lookup_cons]
        by_cases h2 : i = k
        · simp [h2]
        · have h3 : ¬(i = k') := fun h => h2 (h.trans h1)
          simp [h2, h3]
      · simp only [if_neg h1, lookup_cons, ih]
        by_cases h2 : i = k'
        · have h3 : ¬(i = k) := fun h => h1 ((h2.symm.trans h))
          simp [h1, h2, h3]
        · simp [h2]

theorem lookup_modify {α} (m : osmMap α) (k : Int) (f : α → α) (i : Int) :
    (m.modify k f).lookup i = if i = k then (m.lookup i).map f else m.lookup i := by
  induction m with
  | nil => simp [modify, List.lookup]
  | cons p rest ih =>
      obtain ⟨k', v'⟩ := p
      simp only [modify]
      by_cases h1 : k' = k
      · simp only [if_pos h1, lookup_cons, ih]
        by_cases h2 : i = k'
        · simp [h1, h2, h2.trans h1]
        · have h3 : ¬(i = k) := fun h => h2 (h.trans h1.symm)
          simp [h2, h3]
      · simp only [if_neg h1, lookup_cons, ih]
        by_cases h2 : i = k'
        · have h3 : ¬(i = k) := fun h => h1 ((h2.symm.trans h))
          simp [h1, h2, h3]
        · simp [h2]

theorem keys_modify {α} (m : osmMap α) (k : Int) (f : α → α) :
    (m.modify k f).keys = m.keys := by
  induction m with
  | nil => rfl
  | cons p rest ih =>
      obtain ⟨k', v'⟩ := p
      by_cases h1 : k' = k <;> simp_all [modify, keys]

theorem mem_insert {α} {m : osmMap α} {k : Int} {v : α} {p : Int × α}
    (h : p ∈ m.insert k v) : p = (k, v) ∨ p ∈ m := by
  induction m with
  | nil =>
      simp only [insert, List.mem_singleton] at h
      exact Or.inl h
  | cons q rest ih =>
      obtain ⟨k', v'⟩ := q
      simp only [insert] at h
      split_ifs at h with h1 h2
      · rcases List.mem_cons.mp h with h5 | h5
        · exact Or.inl h5
        · exact Or.inr h5
      · rcases List.mem_cons.mp h with h5 | h5
        · exact Or.inl h5
        · exact Or.inr (List.mem_cons_of_mem _ h5)
      · rcases List.mem_cons.mp h with h5 | h5
        · exact Or.inr (by simp [h5])
        · rcases ih h5 with h3 | h3
          · exact Or.inl h3
          · exact Or.inr (List.mem_cons_of_mem _ h3)

theorem lookup_eq_none_iff {α} (m : osmMap α) (i : Int) :
    m.lookup i = none ↔ ∀ p ∈ m, p.1 ≠ i := by
  induction m with
  | nil => simp [List.lookup]
  | cons q rest ih =>
      obtain ⟨k', v'⟩ := q
      rw [lookup_cons]
      by_cases h1 : i = k'
      · simp only [if_pos h1]
        constructor
        · intro hc; cases hc
        · intro hall
          exact absurd h1.symm (hall (k', v') (List.mem_cons_self _ _))
      · simp only [if_neg h1, ih, List.mem_cons]
        constructor
        · rintro hall p (rfl | hp)
          · exact fun hc => h1 hc.symm
          · exact hall p hp
        · intro hall p hp
          exact hall p (Or.inr hp)

theorem lookup_isSome_of_mem {α} {m : osmMap α} {p : Int × α} (h : p ∈ m) :
    (m.lookup p.1).isSome := by
  induction m with
  | nil => simp at h
  | cons q rest ih =>
      obtain ⟨k', v'⟩ := q
      rw [lookup_cons]
      by_cases h1 : p.1 = k'
      · simp [h1]
      · rcases List.mem_cons.mp h with h5 | h5
        · exact absurd (congrArg Prod.fst h5) h1
        · simp only [if_neg h1]
          exact ih h5

theorem mem_keys_insert {α} {m : osmMap α} {k : Int} {v : α} {j : Int}
    (h : j ∈ (m.insert k v).keys) : j = k ∨ j ∈ m.keys := by
  simp only [keys, List.mem_map] at h
  obtain ⟨p, hp, hj⟩ := h
  rcases mem_insert hp with h5 | h5
  · subst h5; exact Or.inl hj.symm
  · exact Or.inr (by simp only [keys, List.mem_map]; exact ⟨p, h5, hj⟩)

theorem SortedKeys.insert {α} {m : osmMap α} (hs : m.SortedKeys) (k : Int) (v : α) :
    (m.insert k v).SortedKeys := by
  induction m with
  | nil => simp [osmMap.insert, SortedKeys]
  | cons q rest ih =>
      obtain ⟨k', v'⟩ := q
      have hs' : SortedKeys rest := (List.pairwise_cons.mp hs).2
      have hlt : ∀ j ∈ rest.map Prod.fst, k' < j := (List.pairwise_cons.mp hs).1
      simp only [osmMap.insert]
      split_ifs with h1 h2
      · refine List.pairwise_cons.mpr ⟨?_, hs⟩
        intro j hj
        simp only [List.map_cons, List.mem_cons] at hj
        rcases hj with rfl | hj
        · exact h1
        · exact h1.trans (hlt j hj)
      · refine List.pairwise_cons.mpr ⟨?_, hs'⟩
        intro j hj
        exact h2 ▸ hlt j hj
      · refine List.pairwise_cons.mpr ⟨?_, ih hs'⟩
        intro j hj
        rcases mem_keys_insert (m := rest) hj with rfl | hj
        · omega
        · exact hlt j hj

theorem SortedKeys.erase {α} {m : osmMap α} (hs : m.SortedKeys) (k : Int) :
    (m.erase k).SortedKeys := by
  induction m with
  | nil => simp [osmMap.erase, SortedKeys]
  | cons q rest ih =>
      obtain ⟨k', v'⟩ := q
      have hs' : SortedKeys rest := (List.pairwise_cons.mp hs).2
      have hlt : ∀ j ∈ rest.map Prod.fst, k' < j := (List.pairwise_cons.mp hs).1
      simp only [osmMap.erase]
      split_ifs with h1
      · exact ih hs'
      · refine List.pairwise_cons.mpr ⟨?_, ih hs'⟩
        intro j hj
        have hsub : (osmMap.erase rest k).Sublist rest := by
          clear hj ih hs hs' hlt
          induction rest with
          | nil => simp [osmMap.erase]
          | cons r rs ihr =>
              obtain ⟨a, b⟩ := r
              simp only [osmMap.erase]
              split_ifs with h2
              · exact ihr.trans (List.sublist_cons_self _ _)
              · exact List.Sublist.cons₂ _ ihr
        exact hlt j ((hsub.map Prod.fst).mem hj)

theorem SortedKeys.modify {α} {m : osmMap α} (hs : m.SortedKeys) (k : Int) (f : α → α) :
    (m.modify k f).SortedKeys := by
  have hk : (m.modify k f).map Prod.fst = m.map Prod.fst := keys_modify m k f
  unfold SortedKeys
  rw [hk]
  exact hs

theorem lookup_new_id_none {α} {m : osmMap α} (hs : m.SortedKeys) :
    m.lookup (osm_new_id m) = none := by
  rw [lookup_eq_none_iff]
  intro p hp
  match m, hp with
  | (k0, v0) :: rest, hp =>
      have hlt : ∀ j ∈ rest.map Prod.fst, k0 < j := (List.pairwise_cons.mp hs).1
      have hge : k0 ≤ p.1 := by
        rcases List.mem_cons.mp hp with h5 | h5
        · subst h5; exact le_refl _
        · exact le_of_lt (hlt p.1 (List.mem_map_of_mem Prod.fst h5))
      simp only [osm_new_id]
      split_ifs with h1
      · omega
      · omega

theorem lookup_ifmap {α} (m : osmMap α) (c : Int × α → Bool) (F : Int × α → α) (i : Int) :
    (m.map (fun p => if c p then (p.1, F p) else p)).lookup i
      = (m.lookup i).map (fun v => if c (i, v) then F (i, v) else v) := by
  induction m with
  | nil => simp [List.lookup]
  | cons q rest ih =>
      obtain ⟨k, v⟩ := q
      by_cases hc : c (k, v)
      · simp only [List.map_cons, if_pos hc, lookup_cons]
        by_cases h2 : i = k
        · subst h2; simp [lookup_cons, hc]
        · simp [lookup_cons, h2, ih]
      · simp only [List.map_cons, if_neg hc, lookup_cons]
        by_cases h2 : i = k
        · subst h2; simp [lookup_cons, hc]
        · simp [lookup_cons, h2, ih]

theorem lookup_pairmap {α} (m : osmMap α) (F : Int × α → α) (i : Int) :
    (m.map (fun p => (p.1, F p))).lookup i = (m.lookup i).map (fun v => F (i, v)) := by
  induction m with
  | nil => simp [List.lookup]
  | cons q rest ih =>
      obtain ⟨k, v⟩ := q
      simp only [List.map_cons, lookup_cons]
      by_cases h2 : i = k
      · subst h2; simp
      · simp [h2, ih]

end osmMap

/-! ### Demonstration graphs used by witnesses and counterexamples -/

/-- A plain node with the given id and way counter. -/
def mkNode (i : Int) (v : Nat := 1) (w : Nat := 0) : node_t :=
  { id := i, version := v, flags := flags_t.clear, tags := none,
    pos := ⟨0, 0⟩, lpos := ⟨0, 0⟩, ways := w }

/-- A plain way with the given id and node chain. -/
def mkWay (i : Int) (c : List Int) (v : Nat := 1) : way_t :=
  { id := i, version := v, flags := flags_t.clear, tags := none, node_chain := c }

/-- A plain relation with the given id and members. -/
def mkRel (i : Int) (ms : List member_t) (tags : tag_list_t := none) : relation_t :=
  { id := i, version := 1, flags := flags_t.clear, tags := tags, members := ms }

/-- C1 counterexample graph: an old node 1 and a new node −1, where only
the new node is a member of a relation. -/
def cgC1 : osm_t :=
  { nodes := [(-1, mkNode (-1)), (1, mkNode 1)],
    ways := [],
    relations := [(5, mkRel 5 [⟨.node (-1), none⟩])],
    hiddenWays := [] }

/-! ### Claims -/

/-- C7: a `tag_list_t` whose only tag is `created_by=X` (for any value `X`)
compares equal to an empty plain tag map — `operator!=` returns `false` —
and, symmetrically, an empty `tag_list_t` compares equal to a plain tag map
holding only a `created_by` entry. -/
theorem tag_list_only_creator_eq_empty (X : String) :
    tag_list_t.neMap (some [⟨"created_by", X⟩]) [] = false ∧
    tag_list_t.neMap (none : tag_list_t) [("created_by", X)] = false := by
  constructor
  · rfl
  · rfl

/-- C9: a relation member whose ref does not resolve is retained as an
Id-variant reference, not dropped.  The newer parser stores the variant
matching the declared type for all three types; the `osm.cpp` variants
(`process_member` / `osm_parse_osm_relation_member`) store `NODE_ID` in
their `RELATION` branch, contradicting the claim's "relation gives
RelationId" at the same input. -/
theorem parse_member_unresolved_id_variants :
    (osm_t.empty.parse_relation_member (some "node") (some "296255") none []
      = (true, [⟨.nodeId 296255, none⟩])) ∧
    (osm_t.empty.parse_relation_member (some "way") (some "296255") none []
      = (true, [⟨.wayId 296255, none⟩])) ∧
    (osm_t.empty.parse_relation_member (some "relation") (some "296255") none []
      = (true, [⟨.relationId 296255, none⟩])) ∧
    (process_member_old osm_t.empty (some "relation") (some "296255") none
      = some ⟨.nodeId 296255, none⟩) := by
  refine ⟨?_, ?_, ?_, ?_⟩ <;> decide

/-- C1 counterexample: merging old node 1 (first argument) with new node −1
(second argument) that is referenced by one relation keeps the NEW node −1,
not the old node 1 — the "not new" rule does not dominate the relation-count
rule in this argument order. -/
theorem mergeNodes_rule1_counterexample :
    (cgC1.mergeNodes 1 (-1)).map (fun r => r.2.1) ≠ some 1 ∧
    (cgC1.mergeNodes 1 (-1)).map (fun r => r.2.1) = some (-1) := by
  constructor
  · decide
  · decide

/-- C1 (amended): when the NEW node is passed as the first argument and the
old one as the second, `mergeNodes` keeps the old node regardless of
relation or way counts; in the opposite argument order a later tie-break
rule can keep the new node (see the counterexample). -/
theorem mergeNodes_keeps_old_when_new_first (osm : osm_t) (a b : Int)
    (na nb : node_t) (ha : osm.nodes.lookup a = some na)
    (hb : osm.nodes.lookup b = some nb)
    (hnew : isNew a = true) (hold : isNew b = false) (hne : a ≠ b) :
    ∃ osm' c, osm.mergeNodes a b = some (osm', b, c) := by
  unfold osm_t.mergeNodes
  rw [if_neg hne, ha, hb]
  have hpr : (osm.checkObjectPersistence (.node a) (.node b)).1 = false := by
    unfold osm_t.checkObjectPersistence
    simp only [object_t.get_id, hnew, hold]
    simp
  simp only [hpr]
  exact ⟨_, _, rfl⟩

/-- C1 witness: in the counterexample graph, merging new node −1 (first)
into old node 1 (second) keeps the old node. -/
theorem mergeNodes_keeps_old_when_new_first_witness :
    ∃ osm' c, cgC1.mergeNodes (-1) 1 = some (osm', 1, c) :=
  mergeNodes_keeps_old_when_new_first cgC1 (-1) 1 (mkNode (-1)) (mkNode 1)
    (by decide) (by decide) (by decide) (by decide) (by decide)

/-- Deleting a node (in any mode) only touches the `nodes` map at the id of
the deleted node itself. -/
theorem node_delete_core_lookup_other (osm : osm_t) (nid i : Int) (kr : Bool)
    (h : i ≠ nid) :
    ((osm.node_delete_core nid kr).1).nodes.lookup i = osm.nodes.lookup i := by
  unfold osm_t.node_delete_core
  cases hl : osm.nodes.lookup nid with
  | none => simp only [hl]
  | some nd =>
      simp only [hl, osm_t.remove_from_relations]
      split_ifs with h1 h2 h3 <;>
        simp [osmMap.lookup_erase, osmMap.lookup_modify, h]

/-- C10: after `mergeNodes(first, second)` the surviving node's geographic
and projected positions are those of the second argument, whichever identity
the persistence tie-break keeps. -/
theorem mergeNodes_position_from_second (osm : osm_t) (a b : Int)
    (na nb : node_t) (ha : osm.nodes.lookup a = some na)
    (hb : osm.nodes.lookup b = some nb) (hne : a ≠ b) :
    ∃ osm' k c, osm.mergeNodes a b = some (osm', k, c) ∧
      ∃ nk, osm'.nodes.lookup k = some nk ∧ nk.pos = nb.pos ∧ nk.lpos = nb.lpos := by
  unfold osm_t.mergeNodes
  rw [if_neg hne, ha, hb]
  set pr := osm.checkObjectPersistence (.node a) (.node b) with hpr
  by_cases hp : pr.1
  · -- keep = a, remove = b
    simp only [hp, if_true]
    refine ⟨_, _, _, rfl, ?_⟩
    rw [node_delete_core_lookup_other _ _ _ _ hne]
    simp [osmMap.lookup_modify, hne, ha]
  · simp only [hp, Bool.false_eq_true, if_false]
    refine ⟨_, _, _, rfl, ?_⟩
    rw [node_delete_core_lookup_other _ _ _ _ (Ne.symm hne)]
    simp [osmMap.lookup_modify, Ne.symm hne, hb]

/-- Demo nodes at distinct positions for the C10 witness. -/
def nC10a : node_t :=
  { id := -1, version := 1, flags := flags_t.clear, tags := none,
    pos := ⟨1, 2⟩, lpos := ⟨3, 4⟩, ways := 0 }

/-- Second demo node of the C10 witness. -/
def nC10b : node_t :=
  { id := 1, version := 1, flags := flags_t.clear, tags := none,
    pos := ⟨5, 6⟩, lpos := ⟨7, 8⟩, ways := 0 }

/-- C10 witness graph. -/
def cgC10 : osm_t :=
  { nodes := [(-1, nC10a), (1, nC10b)], ways := [], relations := [],
    hiddenWays := [] }

/-- C10 witness: merging the two demo nodes moves the survivor to the
second node's position. -/
theorem mergeNodes_position_from_second_witness :
    ∃ osm' k c, cgC10.mergeNodes (-1) 1 = some (osm', k, c) ∧
      ∃ nk, osm'.nodes.lookup k = some nk ∧
        nk.pos = nC10b.pos ∧ nk.lpos = nC10b.lpos :=
  mergeNodes_position_from_second cgC10 (-1) 1 nC10a nC10b
    (by decide) (by decide) (by decide)

theorem osm_new_id_modify {α} (m : osmMap α) (k : Int) (f : α → α) :
    osm_new_id (m.modify k f) = osm_new_id m := by
  cases m with
  | nil => rfl
  | cons p rest =>
      obtain ⟨k', v'⟩ := p
      simp only [osmMap.modify]
      split_ifs <;> rfl

theorem osm_new_id_neg {α} (m : osmMap α) : osm_new_id m < 0 := by
  cases m with
  | nil => simp [osm_new_id]
  | cons p rest =>
      obtain ⟨k', v'⟩ := p
      simp only [osm_new_id]
      split_ifs with h1 <;> omega

theorem lookup_insert_new_id_of_some {α} {m : osmMap α} (hs : m.SortedKeys)
    {i : Int} {w : α} (h : m.lookup i = some w) (v : α) :
    (m.insert (osm_new_id m) v).lookup i = some w := by
  rw [osmMap.lookup_insert, if_neg, h]
  intro hc
  rw [hc, osmMap.lookup_new_id_none hs] at h
  cases h

theorem relation_transfer_all_ways (osm : osm_t) (d s : Int) :
    (relation_transfer_all osm d s).ways = osm.ways := by
  unfold relation_transfer_all
  cases osm.ways.lookup d <;> rfl

/-- The open-way behaviour of `way_t::split` when the tail is valid: a fresh
way is attached holding the copied tags and one of the two chain parts — the
tail, unless the remaining head would be shorter, in which case the chains
are exchanged so the original id keeps the longer part. -/
theorem way_split_open_spec (osm : osm_t) (wid : Int) (w : way_t)
    (cutAt : Nat) (cutAtNode : Bool)
    (hw : osm.ways.lookup wid = some w) (hs : osm.ways.SortedKeys)
    (hlen : ¬(w.node_chain.length ≤ 2)) (hnc : w.is_closed = false)
    (htail : ¬((w.node_chain.drop cutAt).length < 2)) :
    ∃ nid,
      (osm.way_split wid cutAt cutAtNode).2 = some nid ∧
      isNew nid = true ∧ osm.ways.lookup nid = none ∧
      (osm.way_split wid cutAt cutAtNode).1.ways.lookup nid = some
        { id := nid, version := 0, flags := ⟨true, false⟩,
          tags := tag_list_t.copy w.tags,
          node_chain :=
            if (w.node_chain.take (cutAt + (if cutAtNode then 1 else 0))).length
                < (w.node_chain.drop cutAt).length
            then w.node_chain.take (cutAt + (if cutAtNode then 1 else 0))
            else w.node_chain.drop cutAt } ∧
      (osm.way_split wid cutAt cutAtNode).1.ways.lookup wid = some
        { w.mark_dirty with node_chain :=
            if (w.node_chain.take (cutAt + (if cutAtNode then 1 else 0))).length
                < (w.node_chain.drop cutAt).length
            then w.node_chain.drop cutAt
            else w.node_chain.take (cutAt + (if cutAtNode then 1 else 0)) } := by
  unfold osm_t.way_split
  simp only [hw, if_neg hlen, hnc, Bool.false_eq_true, if_false, if_neg htail,
    osm_t.way_attach]
  rw [relation_transfer_all_ways]
  refine ⟨_, rfl, ?_, ?_, ?_, ?_⟩
  · exact decide_eq_true (osm_new_id_neg _)
  · rw [osm_new_id_modify, osm_new_id_modify, osm_new_id_modify]
    exact osmMap.lookup_new_id_none hs
  · rw [osmMap.lookup_insert, if_pos rfl]
    rfl
  · refine lookup_insert_new_id_of_some (((hs.modify _ _).modify _ _).modify _ _) ?_ _
    simp [osmMap.lookup_modify, hw, way_t.mark_dirty]

/-- Five nodes on one way; splitting early in the chain exercises the
"keep the history with the longer way" chain exchange. -/
def sgC4 : osm_t :=
  { nodes := [(-5, mkNode (-5) 1 1), (-4, mkNode (-4) 1 1), (-3, mkNode (-3) 1 1),
              (-2, mkNode (-2) 1 1), (-1, mkNode (-1) 1 1)],
    ways := [(-1, mkWay (-1) [-1, -2, -3, -4, -5])],
    relations := [],
    hiddenWays := [] }

/-- Three nodes on one way, for the middle split of C5. -/
def sgC5 : osm_t :=
  { nodes := [(-3, mkNode (-3) 1 1), (-2, mkNode (-2) 1 1), (-1, mkNode (-1) 1 1)],
    ways := [(-1, mkWay (-1) [-1, -2, -3])],
    relations := [],
    hiddenWays := [] }

/-- C4 counterexample: splitting the five-node way [−1,−2,−3,−4,−5] at
position 1 with `cut_at_node` leaves the tail with the original way; the
way returned by `split` holds the head segment [−1,−2], not the tail
segment from the cut position. -/
theorem way_split_tail_claim_counterexample :
    (sgC4.way_split (-1) 1 true).2 = some (-2) ∧
    ((sgC4.way_split (-1) 1 true).1.ways.lookup (-2)).map way_t.node_chain
      = some [-1, -2] ∧
    ((-1 : Int) :: [-2]) ≠ List.drop 1 [(-1 : Int), -2, -3, -4, -5] := by
  refine ⟨by decide, by decide, by decide⟩

/-- C4 (amended): splitting an open way at a cut position whose tail is
still a valid way returns a freshly created way (negative id, absent from
the graph before the call) whose tag list is the original's copy with
discardable tags omitted, and whose node chain is the tail segment from the
cut position — unless the head segment remaining with the original way
would be the shorter part, in which case the two chains are exchanged and
the returned way holds the head segment. -/
theorem way_split_returns_new_way (osm : osm_t) (wid : Int) (w : way_t)
    (cutAt : Nat) (cutAtNode : Bool)
    (hw : osm.ways.lookup wid = some w) (hs : osm.ways.SortedKeys)
    (hlen : ¬(w.node_chain.length ≤ 2)) (hnc : w.is_closed = false)
    (htail : ¬((w.node_chain.drop cutAt).length < 2)) :
    ∃ nid wnew,
      (osm.way_split wid cutAt cutAtNode).2 = some nid ∧
      osm.ways.lookup nid = none ∧ isNew nid = true ∧
      (osm.way_split wid cutAt cutAtNode).1.ways.lookup nid = some wnew ∧
      wnew.tags = tag_list_t.copy w.tags ∧
      wnew.node_chain =
        (if (w.node_chain.take (cutAt + (if cutAtNode then 1 else 0))).length
             < (w.node_chain.drop cutAt).length
         then w.node_chain.take (cutAt + (if cutAtNode then 1 else 0))
         else w.node_chain.drop cutAt) := by
  obtain ⟨nid, h1, h2, h3, h4, h5⟩ :=
    way_split_open_spec osm wid w cutAt cutAtNode hw hs hlen hnc htail
  exact ⟨nid, _, h1, h3, h2, h4, rfl, rfl⟩

/-- C4 witness: on the five-node way the swap branch is taken; the returned
way holds the head segment. -/
theorem way_split_returns_new_way_witness :
    ∃ nid wnew,
      (sgC4.way_split (-1) 1 true).2 = some nid ∧
      sgC4.ways.lookup nid = none ∧ isNew nid = true ∧
      (sgC4.way_split (-1) 1 true).1.ways.lookup nid = some wnew ∧
      wnew.tags = tag_list_t.copy (mkWay (-1) [-1, -2, -3, -4, -5]).tags ∧
      wnew.node_chain =
        (if ((mkWay (-1) [-1, -2, -3, -4, -5]).node_chain.take (1 + 1)).length
             < ((mkWay (-1) [-1, -2, -3, -4, -5]).node_chain.drop 1).length
         then (mkWay (-1) [-1, -2, -3, -4, -5]).node_chain.take (1 + 1)
         else (mkWay (-1) [-1, -2, -3, -4, -5]).node_chain.drop 1) :=
  way_split_returns_new_way sgC4 (-1) (mkWay (-1) [-1, -2, -3, -4, -5]) 1 true
    (by decide) (by decide) (by decide) (by decide) (by decide)

/-- C5: splitting a three-node way [a,b,c] (pairwise distinct) at the
middle node with `cut_at_node=true` leaves the original way with the
two-node chain [a,b] ending at the cut node, and creates a new way with
the two-node chain [b,c] starting at the cut node — the cut node belongs
to both ways. -/
theorem way_split_three_nodes_middle (osm : osm_t) (wid : Int) (w : way_t)
    (a b c : Int) (hw : osm.ways.lookup wid = some w)
    (hchain : w.node_chain = [a, b, c])
    (hab : a ≠ b) (hac : a ≠ c) (hbc : b ≠ c)
    (hs : osm.ways.SortedKeys) :
    ∃ nid worig wnew,
      (osm.way_split wid 1 true).2 = some nid ∧
      (osm.way_split wid 1 true).1.ways.lookup wid = some worig ∧
      worig.node_chain = [a, b] ∧
      (osm.way_split wid 1 true).1.ways.lookup nid = some wnew ∧
      wnew.node_chain = [b, c] := by
  have hlen : ¬(w.node_chain.length ≤ 2) := by rw [hchain]; simp
  have hnc : w.is_closed = false := by
    unfold way_t.is_closed
    rw [hchain]
    simpa using hac
  have htail : ¬((w.node_chain.drop 1).length < 2) := by rw [hchain]; simp
  obtain ⟨nid, h1, h2, h3, h4, h5⟩ :=
    way_split_open_spec osm wid w 1 true hw hs hlen hnc htail
  rw [hchain] at h4 h5
  refine ⟨nid, _, _, h1, h5, ?_, h4, ?_⟩
  · simp
  · simp

/-- C5 witness: the three-node demo graph split at the middle. -/
theorem way_split_three_nodes_middle_witness :
    ∃ nid worig wnew,
      (sgC5.way_split (-1) 1 true).2 = some nid ∧
      (sgC5.way_split (-1) 1 true).1.ways.lookup (-1) = some worig ∧
      worig.node_chain = [-1, -2] ∧
      (sgC5.way_split (-1) 1 true).1.ways.lookup nid = some wnew ∧
      wnew.node_chain = [-2, -3] :=
  way_split_three_nodes_middle sgC5 (-1) (mkWay (-1) [-1, -2, -3]) (-1) (-2) (-3)
    (by decide) (by decide) (by decide) (by decide) (by decide) (by decide)

/-- On a key-sorted map, `map.begin()->first < 0` holds exactly when some
key is negative. -/
theorem map_first_neg_iff {α} {m : osmMap α} (hs : m.SortedKeys) :
    map_first_neg m = true ↔ ∃ p ∈ m, p.1 < 0 := by
  cases m with
  | nil => simp [map_first_neg]
  | cons q rest =>
      obtain ⟨k, v⟩ := q
      simp only [map_first_neg, decide_eq_true_eq]
      constructor
      · intro h
        exact ⟨(k, v), by simp, h⟩
      · rintro ⟨p, hp, hneg⟩
        rcases List.mem_cons.mp hp with h5 | h5
        · rw [h5] at hneg; exact hneg
        · have hlt := (List.pairwise_cons.mp hs).1 p.1
            (List.mem_map_of_mem Prod.fst h5)
          omega

/-- C8: `is_clean(honorHidden)` is false whenever any map's lowest id is
negative (equivalently, on a sorted map: contains a negative id) or
hidden ways are to be honoured and exist; otherwise it is true exactly when
no object in any of the three maps carries the Dirty or Deleted flag. -/
theorem is_clean_characterised (osm : osm_t) (honor : Bool)
    (hs1 : osm.nodes.SortedKeys) (hs2 : osm.ways.SortedKeys)
    (hs3 : osm.relations.SortedKeys) :
    (((∃ p ∈ osm.nodes, p.1 < 0) ∨ (∃ p ∈ osm.ways, p.1 < 0) ∨
      (∃ p ∈ osm.relations, p.1 < 0) ∨ (honor = true ∧ osm.hiddenWays ≠ [])) →
      osm.is_clean honor = false) ∧
    (¬((∃ p ∈ osm.nodes, p.1 < 0) ∨ (∃ p ∈ osm.ways, p.1 < 0) ∨
      (∃ p ∈ osm.relations, p.1 < 0) ∨ (honor = true ∧ osm.hiddenWays ≠ [])) →
      (osm.is_clean honor = true ↔
        ((∀ p ∈ osm.nodes, (p.2 : node_t).flags.isDirty = false) ∧
         (∀ p ∈ osm.ways, (p.2 : way_t).flags.isDirty = false) ∧
         (∀ p ∈ osm.relations, (p.2 : relation_t).flags.isDirty = false)))) := by
  constructor
  · intro hblock
    unfold osm_t.is_clean
    split_ifs with h1 h2 h3 h4
    · rfl
    · rfl
    · rfl
    · rfl
    · exfalso
      rcases hblock with hb | hb | hb | hb
      · exact h1 ((map_first_neg_iff hs1).mpr hb)
      · exact h2 ((map_first_neg_iff hs2).mpr hb)
      · exact h3 ((map_first_neg_iff hs3).mpr hb)
      · refine h4 ?_
        rw [Bool.and_eq_true, hb.1]
        refine ⟨rfl, ?_⟩
        simp only [Bool.not_eq_true']
        cases hemp : osm.hiddenWays.isEmpty
        · rfl
        · exact absurd (List.isEmpty_iff.mp hemp) hb.2
  · intro hnone
    unfold osm_t.is_clean
    have hn1 : ¬(map_first_neg osm.nodes = true) :=
      fun hb => hnone (Or.inl ((map_first_neg_iff hs1).mp hb))
    have hn2 : ¬(map_first_neg osm.ways = true) :=
      fun hb => hnone (Or.inr (Or.inl ((map_first_neg_iff hs2).mp hb)))
    have hn3 : ¬(map_first_neg osm.relations = true) :=
      fun hb => hnone (Or.inr (Or.inr (Or.inl ((map_first_neg_iff hs3).mp hb))))
    have hn4 : ¬((honor && !osm.hiddenWays.isEmpty) = true) := by
      intro hb
      rw [Bool.and_eq_true] at hb
      obtain ⟨hb1, hb2⟩ := hb
      refine hnone (Or.inr (Or.inr (Or.inr ⟨hb1, ?_⟩)))
      intro hemp
      rw [hemp] at hb2
      simp at hb2
    rw [if_neg hn1, if_neg hn2, if_neg hn3, if_neg hn4]
    simp only [map_is_clean, List.all_eq_true, Bool.and_eq_true, Bool.not_eq_true',
      Prod.forall]
    exact and_assoc

/-- A clean one-node graph for the C8 witness. -/
def dgC8 : osm_t :=
  { nodes := [(7, mkNode 7)], ways := [], relations := [], hiddenWays := [] }

/-- C8 witness: the clean demo graph is clean. -/
theorem is_clean_characterised_witness : dgC8.is_clean true = true :=
  ((is_clean_characterised dgC8 true (by decide) (by decide) (by decide)).2
    (by decide)).mpr (by decide)

/-- `flip_first_role` skips a prefix of members that do not reference the
way. -/
theorem flip_first_role_append (w : object_t) (l1 rest : List member_t)
    (h1 : ∀ x ∈ l1, object_t.eq x.object w = false) :
    flip_first_role w (l1 ++ rest) =
      (l1 ++ (flip_first_role w rest).1, (flip_first_role w rest).2) := by
  induction l1 with
  | nil => simp
  | cons x xs ih =>
      have hx : object_t.eq x.object w = false := h1 x (List.mem_cons_self _ _)
      have hxs : ∀ y ∈ xs, object_t.eq y.object w = false :=
        fun y hy => h1 y (List.mem_cons_of_mem _ hy)
      simp only [List.cons_append, flip_first_role, hx, Bool.false_eq_true,
        if_false, List.append_eq, ih hxs]

/-- C6: after `way.reverse()`, in every relation tagged `type=route` that
references the way through exactly one member, that member's `forward` role
has become `backward` and vice versa (case-insensitively); members with
other roles, roleless members and relations not tagged as routes are left
untouched, and a relation whose member was flipped is marked Dirty. -/
theorem way_reverse_route_roles (osm : osm_t) (wid : Int) (w : way_t)
    (rid : Int) (r : relation_t)
    (hw : osm.ways.lookup wid = some w) (hr : osm.relations.lookup rid = some r) :
    ((r.tags.get_value "type" = none) →
      (osm.way_reverse wid).relations.lookup rid = some r) ∧
    (∀ ty, r.tags.get_value "type" = some ty → strcaseEq ty "route" = false →
      (osm.way_reverse wid).relations.lookup rid = some r) ∧
    (∀ ty, r.tags.get_value "type" = some ty → strcaseEq ty "route" = true →
     ∀ l1 m l2, r.members = l1 ++ m :: l2 →
      (∀ x ∈ l1, object_t.eq x.object (.way wid) = false) →
      object_t.eq m.object (.way wid) = true →
      (∀ x ∈ l2, object_t.eq x.object (.way wid) = false) →
      ((∀ ro, m.role = some ro → strcaseEq ro "forward" = true →
          (osm.way_reverse wid).relations.lookup rid =
            some { r.mark_dirty with
                   members := l1 ++ { m with role := some "backward" } :: l2 }) ∧
       (∀ ro, m.role = some ro → strcaseEq ro "forward" = false →
          strcaseEq ro "backward" = true →
          (osm.way_reverse wid).relations.lookup rid =
            some { r.mark_dirty with
                   members := l1 ++ { m with role := some "forward" } :: l2 }) ∧
       (∀ ro, m.role = some ro → strcaseEq ro "forward" = false →
          strcaseEq ro "backward" = false →
          (osm.way_reverse wid).relations.lookup rid = some r) ∧
       (m.role = none →
          (osm.way_reverse wid).relations.lookup rid = some r))) := by
  have hbase :
      (osm.way_reverse wid).relations.lookup rid =
        some (reverse_roles_rel r (.way wid)) := by
    unfold osm_t.way_reverse
    rw [hw]
    simp only []
    rw [osmMap.lookup_pairmap, hr]
    rfl
  refine ⟨?_, ?_, ?_⟩
  · intro hty
    rw [hbase]
    unfold reverse_roles_rel
    simp only [hty]
  · intro ty hty hnr
    rw [hbase]
    unfold reverse_roles_rel
    simp only [hty, hnr, Bool.not_false, if_true]
  · intro ty hty hroute l1 m l2 hmem hl1 hm hl2
    have hflip :
        flip_first_role (.way wid) r.members =
          (l1 ++ (flip_first_role (.way wid) (m :: l2)).1,
           (flip_first_role (.way wid) (m :: l2)).2) := by
      rw [hmem]
      exact flip_first_role_append _ l1 (m :: l2) hl1
    refine ⟨?_, ?_, ?_, ?_⟩
    · intro ro hro hfw
      rw [hbase]
      unfold reverse_roles_rel
      simp only [hty, hroute, Bool.not_true, Bool.false_eq_true, if_false, hflip,
        flip_first_role, hm, hro, hfw]
      simp
    · intro ro hro hnfw hbw
      rw [hbase]
      unfold reverse_roles_rel
      simp only [hty, hroute, Bool.not_true, Bool.false_eq_true, if_false, hflip,
        flip_first_role, hm, hro, hnfw, hbw]
      simp
    · intro ro hro hnfw hnbw
      rw [hbase]
      unfold reverse_roles_rel
      simp only [hty, hroute, Bool.not_true, Bool.false_eq_true, if_false, hflip,
        flip_first_role, hm, hro, hnfw, hnbw]
      simp [← hmem]
    · intro hro
      rw [hbase]
      unfold reverse_roles_rel
      simp only [hty, hroute, Bool.not_true, Bool.false_eq_true, if_false, hflip,
        flip_first_role, hm, hro]
      simp [← hmem]

namespace osmMap

theorem lookup_mem {α} {m : osmMap α} {i : Int} {v : α}
    (h : m.lookup i = some v) : (i, v) ∈ m := by
  induction m with
  | nil => simp [List.lookup] at h
  | cons q rest ih =>
      obtain ⟨k, w⟩ := q
      rw [lookup_cons] at h
      by_cases h1 : i = k
      · rw [if_pos h1] at h
        injection h with h
        simp [h1, h]
      · rw [if_neg h1] at h
        exact List.mem_cons_of_mem _ (ih h)

theorem sorted_mem_lookup {α} {m : osmMap α} (hs : m.SortedKeys)
    {i : Int} {v : α} (h : (i, v) ∈ m) : m.lookup i = some v := by
  induction m with
  | nil => simp at h
  | cons q rest ih =>
      obtain ⟨k, w⟩ := q
      rw [lookup_cons]
      rcases List.mem_cons.mp h with h5 | h5
      · injection h5 with h5a h5b
        subst h5a
        simp [h5b]
      · have hlt := (List.pairwise_cons.mp hs).1 i (List.mem_map_of_mem Prod.fst h5)
        rw [if_neg (by omega)]
        exact ih (List.pairwise_cons.mp hs).2 h5

theorem sorted_lookup_split {α} {m : osmMap α} (hs : m.SortedKeys)
    {i : Int} {o : α} (h : m.lookup i = some o) :
    ∃ m1 m2, m = m1 ++ (i, o) :: m2 ∧ (∀ p ∈ m1, p.1 ≠ i) ∧
      (∀ p ∈ m2, p.1 ≠ i) := by
  induction m with
  | nil => simp [List.lookup] at h
  | cons q rest ih =>
      obtain ⟨k, w⟩ := q
      rw [lookup_cons] at h
      by_cases h1 : i = k
      · rw [if_pos h1] at h
        injection h with h
        refine ⟨[], rest, by simp [h1, h], by simp, ?_⟩
        intro p hp
        have hlt := (List.pairwise_cons.mp hs).1 p.1 (List.mem_map_of_mem Prod.fst hp)
        omega
      · rw [if_neg h1] at h
        obtain ⟨m1, m2, hm, hm1, hm2⟩ := ih (List.pairwise_cons.mp hs).2 h
        exact ⟨(k, w) :: m1, m2, by simp [hm], by
          intro p hp
          rcases List.mem_cons.mp hp with h5 | h5
          · rw [h5]; exact fun hc => h1 hc.symm
          · exact hm1 p h5, hm2⟩

theorem keys_ifmap {α} (m : osmMap α) (c : Int × α → Bool) (F : Int × α → α) :
    keys (m.map (fun p => if c p then (p.1, F p) else p)) = keys m := by
  induction m with
  | nil => rfl
  | cons q rest ih =>
      obtain ⟨k, v⟩ := q
      by_cases hc : c (k, v) <;> simpa [keys, hc] using ih

theorem sortedKeys_ifmap {α} {m : osmMap α} (hs : SortedKeys m)
    (c : Int × α → Bool) (F : Int × α → α) :
    SortedKeys (m.map (fun p => if c p then (p.1, F p) else p)) := by
  unfold SortedKeys
  have hk := keys_ifmap m c F
  unfold keys at hk
  rw [hk]
  exact hs

end osmMap

/-- Every saved diff entry comes from a dirty map pair and carries its
key. -/
theorem diff_save_key_mem {α} (oid : α → Int) (ofl : α → flags_t)
    (m : osmMap α) {e : diff_entry α} (h : e ∈ diff_save_map oid ofl m) :
    ∃ p ∈ m, e.key = p.1 ∧ classify_obj (oid p.2) (ofl p.2) ≠ none := by
  unfold diff_save_map at h
  obtain ⟨p, hp, hpe⟩ := List.mem_filterMap.mp h
  refine ⟨p, hp, ?_, ?_⟩
  · cases hcl : classify_obj (oid p.2) (ofl p.2) with
    | none => rw [hcl] at hpe; cases hpe
    | some cat =>
        rw [hcl] at hpe
        cases cat <;> (injection hpe with hpe; rw [← hpe]; rfl)
  · cases hcl : classify_obj (oid p.2) (ofl p.2) with
    | none => rw [hcl] at hpe; cases hpe
    | some cat => simp

/-- Applying one entry that names a different id leaves a binding alone. -/
theorem diff_apply_entry_other {α} (setfl : flags_t → α → α) (m : osmMap α)
    (e : diff_entry α) (i : Int) (h : e.key ≠ i) :
    (diff_apply_entry setfl m e).lookup i = m.lookup i := by
  cases e with
  | added j o =>
      rw [show diff_apply_entry setfl m (.added j o) = m.insert j o from rfl,
        osmMap.lookup_insert, if_neg (fun hc => h hc.symm)]
  | changed j o =>
      rw [show diff_apply_entry setfl m (.changed j o) = m.insert j o from rfl,
        osmMap.lookup_insert, if_neg (fun hc => h hc.symm)]
  | deleted j fl =>
      rw [show diff_apply_entry setfl m (.deleted j fl) = m.modify j (setfl fl) from rfl,
        osmMap.lookup_modify, if_neg (fun hc => h hc.symm)]

theorem diff_restore_map_cons {α} (setfl : flags_t → α → α) (m : osmMap α)
    (e : diff_entry α) (es : List (diff_entry α)) :
    diff_restore_map setfl m (e :: es) =
      diff_restore_map setfl (diff_apply_entry setfl m e) es := rfl

theorem diff_restore_map_append {α} (setfl : flags_t → α → α) (m : osmMap α)
    (es1 es2 : List (diff_entry α)) :
    diff_restore_map setfl m (es1 ++ es2) =
      diff_restore_map setfl (diff_restore_map setfl m es1) es2 := by
  unfold diff_restore_map
  exact List.foldl_append _ _ _ _

/-- Replaying entries that do not mention an id leaves its binding alone. -/
theorem diff_restore_untouched {α} (setfl : flags_t → α → α) (m : osmMap α)
    (es : List (diff_entry α)) (i : Int) (h : ∀ e ∈ es, e.key ≠ i) :
    (diff_restore_map setfl m es).lookup i = m.lookup i := by
  induction es generalizing m with
  | nil => rfl
  | cons e rest ih =>
      rw [diff_restore_map_cons,
        ih _ (fun e' h' => h e' (List.mem_cons_of_mem _ h')),
        diff_apply_entry_other setfl m e i (h e (List.mem_cons_self _ _))]

/-- Replaying a split entry list applies the middle entry to the id it
names, with the surrounding entries not interfering. -/
theorem diff_restore_split {α} (setfl : flags_t → α → α) (m : osmMap α)
    (es1 es2 : List (diff_entry α)) (e : diff_entry α)
    (h1 : ∀ x ∈ es1, x.key ≠ e.key) (h2 : ∀ x ∈ es2, x.key ≠ e.key) :
    (diff_restore_map setfl m (es1 ++ e :: es2)).lookup e.key =
      (match e with
       | .added _ o => some o
       | .changed _ o => some o
       | .deleted _ fl => (m.lookup e.key).map (setfl fl)) := by
  rw [diff_restore_map_append, diff_restore_map_cons,
    diff_restore_untouched setfl _ es2 e.key h2]
  have hpre : (diff_restore_map setfl m es1).lookup e.key = m.lookup e.key :=
    diff_restore_untouched setfl m es1 e.key h1
  cases e with
  | added j o =>
      rw [show diff_apply_entry setfl (diff_restore_map setfl m es1) (.added j o)
            = (diff_restore_map setfl m es1).insert j o from rfl,
        osmMap.lookup_insert]
      simp [diff_entry.key]
  | changed j o =>
      rw [show diff_apply_entry setfl (diff_restore_map setfl m es1) (.changed j o)
            = (diff_restore_map setfl m es1).insert j o from rfl,
        osmMap.lookup_insert]
      simp [diff_entry.key]
  | deleted j fl =>
      rw [show diff_apply_entry setfl (diff_restore_map setfl m es1) (.deleted j fl)
            = (diff_restore_map setfl m es1).modify j (setfl fl) from rfl,
        osmMap.lookup_modify]
      have hpre' : (diff_restore_map setfl m es1).lookup j = m.lookup j := hpre
      simp [diff_entry.key, hpre']

/-- A freshly parsed base map: sorted, only positive upstream ids matching
the stored objects, and all flags clear. -/
def mapBaseClean {α} (oid : α → Int) (ofl : α → flags_t) (m : osmMap α) :
    Prop :=
  osmMap.SortedKeys m ∧ ∀ p ∈ m, p.1 = oid p.2 ∧ 0 < p.1 ∧ ofl p.2 = flags_t.clear

instance {α} (oid : α → Int) (ofl : α → flags_t) (m : osmMap α) :
    Decidable (mapBaseClean oid ofl m) :=
  inferInstanceAs (Decidable (_ ∧ _))

/-- A freshly parsed base graph. -/
def osm_t.baseClean (osm : osm_t) : Prop :=
  mapBaseClean node_t.id node_t.flags osm.nodes ∧
  mapBaseClean way_t.id way_t.flags osm.ways ∧
  mapBaseClean relation_t.id relation_t.flags osm.relations

instance (osm : osm_t) : Decidable osm.baseClean :=
  inferInstanceAs (Decidable (_ ∧ _ ∧ _))

theorem mapBaseClean_lookup_nonpos {α} {oid : α → Int} {ofl : α → flags_t}
    {b : osmMap α} (hb : mapBaseClean oid ofl b) {k : Int} (hk : k < 0) :
    b.lookup k = none := by
  cases h : b.lookup k with
  | none => rfl
  | some v =>
      have := (hb.2 (k, v) (osmMap.lookup_mem h)).2.1
      omega

/-- The relation an edited graph `g` keeps to its base `b`: sorted, ids
match keys, `g` covers `b` (absent from `g` implies absent from `b`),
every upstream id still present in `g` exists in `b`, and only upstream
objects carry the deleted flag (new ones are erased instead). -/
def mapInv {α} (oid : α → Int) (ofl : α → flags_t) (b g : osmMap α) :
    Prop :=
  osmMap.SortedKeys g ∧
  (∀ i o, g.lookup i = some o → i = oid o) ∧
  (∀ i, g.lookup i = none → b.lookup i = none) ∧
  (∀ i o, g.lookup i = some o → 0 ≤ i → (b.lookup i).isSome = true) ∧
  (∀ i o, g.lookup i = some o → (ofl o).deleted = true → 0 ≤ i)

theorem mapBaseClean_mapInv {α} {oid : α → Int} {ofl : α → flags_t}
    {b : osmMap α} (hb : mapBaseClean oid ofl b) : mapInv oid ofl b b := by
  refine ⟨hb.1, ?_, fun i h => h, ?_, ?_⟩
  · intro i o h
    exact (hb.2 (i, o) (osmMap.lookup_mem h)).1
  · intro i o h _
    rw [h]; rfl
  · intro i o h hd
    have := (hb.2 (i, o) (osmMap.lookup_mem h)).2.1
    omega

theorem mapInv_modify {α} {oid : α → Int} {ofl : α → flags_t}
    {b g : osmMap α} (hinv : mapInv oid ofl b g) (k : Int) (f : α → α)
    (hid : ∀ o, oid (f o) = oid o)
    (hdel : (∀ o, (ofl (f o)).deleted = true → (ofl o).deleted = true) ∨ 0 ≤ k) :
    mapInv oid ofl b (g.modify k f) := by
  obtain ⟨hs, hk, hsub, hpos, hdl⟩ := hinv
  refine ⟨osmMap.SortedKeys.modify hs k f, ?_, ?_, ?_, ?_⟩
  · intro i o h
    rw [osmMap.lookup_modify] at h
    by_cases h1 : i = k
    · rw [if_pos h1] at h
      cases h0 : g.lookup i with
      | none => rw [h0] at h; cases h
      | some v =>
          rw [h0] at h
          injection h with h
          rw [← h, hid]
          exact hk i v h0
    · rw [if_neg h1] at h
      exact hk i o h
  · intro i h
    rw [osmMap.lookup_modify] at h
    by_cases h1 : i = k
    · rw [if_pos h1] at h
      exact hsub i (by cases h0 : g.lookup i with
        | none => rfl
        | some v => rw [h0] at h; cases h)
    · rw [if_neg h1] at h
      exact hsub i h
  · intro i o h hi
    rw [osmMap.lookup_modify] at h
    by_cases h1 : i = k
    · rw [if_pos h1] at h
      cases h0 : g.lookup i with
      | none => rw [h0] at h; cases h
      | some v => exact hpos i v h0 hi
    · rw [if_neg h1] at h
      exact hpos i o h hi
  · intro i o h hd
    rw [osmMap.lookup_modify] at h
    by_cases h1 : i = k
    · rw [if_pos h1] at h
      cases h0 : g.lookup i with
      | none => rw [h0] at h; cases h
      | some v =>
          rw [h0] at h
          injection h with h
          rcases hdel with hdel | hdel
          · exact hdl i v h0 (hdel v (by rw [h]; exact hd))
          · omega
    · rw [if_neg h1] at h
      exact hdl i o h hd

theorem mapInv_erase {α} {oid : α → Int} {ofl : α → flags_t}
    {b g : osmMap α} (hinv : mapInv oid ofl b g) (k : Int)
    (hb : b.lookup k = none) : mapInv oid ofl b (g.erase k) := by
  obtain ⟨hs, hk, hsub, hpos, hdl⟩ := hinv
  refine ⟨osmMap.SortedKeys.erase hs k, ?_, ?_, ?_, ?_⟩
  · intro i o h
    rw [osmMap.lookup_erase] at h
    by_cases h1 : i = k
    · rw [if_pos h1] at h; cases h
    · rw [if_neg h1] at h; exact hk i o h
  · intro i h
    rw [osmMap.lookup_erase] at h
    by_cases h1 : i = k
    · rw [h1]; exact hb
    · rw [if_neg h1] at h; exact hsub i h
  · intro i o h hi
    rw [osmMap.lookup_erase] at h
    by_cases h1 : i = k
    · rw [if_pos h1] at h; cases h
    · rw [if_neg h1] at h; exact hpos i o h hi
  · intro i o h hd
    rw [osmMap.lookup_erase] at h
    by_cases h1 : i = k
    · rw [if_pos h1] at h; cases h
    · rw [if_neg h1] at h; exact hdl i o h hd

theorem mapInv_insert_fresh {α} {oid : α → Int} {ofl : α → flags_t}
    {b g : osmMap α} (hinv : mapInv oid ofl b g) (v : α)
    (hvid : oid v = osm_new_id g) (hdel : (ofl v).deleted = false) :
    mapInv oid ofl b (g.insert (osm_new_id g) v) := by
  obtain ⟨hs, hk, hsub, hpos, hdl⟩ := hinv
  have hneg : osm_new_id g < 0 := osm_new_id_neg g
  refine ⟨osmMap.SortedKeys.insert hs _ v, ?_, ?_, ?_, ?_⟩
  · intro i o h
    rw [osmMap.lookup_insert] at h
    by_cases h1 : i = osm_new_id g
    · rw [if_pos h1] at h
      injection h with h
      rw [← h, hvid, h1]
    · rw [if_neg h1] at h; exact hk i o h
  · intro i h
    rw [osmMap.lookup_insert] at h
    by_cases h1 : i = osm_new_id g
    · rw [if_pos h1] at h; cases h
    · rw [if_neg h1] at h; exact hsub i h
  · intro i o h hi
    rw [osmMap.lookup_insert] at h
    by_cases h1 : i = osm_new_id g
    · omega
    · rw [if_neg h1] at h; exact hpos i o h hi
  · intro i o h hd
    rw [osmMap.lookup_insert] at h
    by_cases h1 : i = osm_new_id g
    · rw [if_pos h1] at h
      injection h with h
      rw [← h] at hd
      rw [hdel] at hd
      cases hd
    · rw [if_neg h1] at h; exact hdl i o h hd

theorem mapInv_insert_existing {α} {oid : α → Int} {ofl : α → flags_t}
    {b g : osmMap α} (hinv : mapInv oid ofl b g) {k : Int} {v0 : α}
    (h0 : g.lookup k = some v0) (v : α) (hid : oid v = oid v0)
    (hdel : (ofl v).deleted = true → (ofl v0).deleted = true) :
    mapInv oid ofl b (g.insert k v) := by
  obtain ⟨hs, hk, hsub, hpos, hdl⟩ := hinv
  refine ⟨osmMap.SortedKeys.insert hs k v, ?_, ?_, ?_, ?_⟩
  · intro i o h
    rw [osmMap.lookup_insert] at h
    by_cases h1 : i = k
    · rw [if_pos h1] at h
      injection h with h
      rw [← h, hid, h1]
      exact hk k v0 h0
    · rw [if_neg h1] at h; exact hk i o h
  · intro i h
    rw [osmMap.lookup_insert] at h
    by_cases h1 : i = k
    · rw [if_pos h1] at h; cases h
    · rw [if_neg h1] at h; exact hsub i h
  · intro i o h hi
    rw [osmMap.lookup_insert] at h
    by_cases h1 : i = k
    · rw [h1]; exact hpos k v0 h0 (h1 ▸ hi)
    · rw [if_neg h1] at h; exact hpos i o h hi
  · intro i o h hd
    rw [osmMap.lookup_insert] at h
    by_cases h1 : i = k
    · rw [if_pos h1] at h
      injection h with h
      rw [h1]
      exact hdl k v0 h0 (hdel (by rw [h]; exact hd))
    · rw [if_neg h1] at h; exact hdl i o h hd

theorem mapInv_ifmap {α} {oid : α → Int} {ofl : α → flags_t}
    {b g : osmMap α} (hinv : mapInv oid ofl b g)
    (c : Int × α → Bool) (F : Int × α → α)
    (hid : ∀ p, oid (F p) = oid p.2)
    (hdel : ∀ p, (ofl (F p)).deleted = true → (ofl p.2).deleted = true) :
    mapInv oid ofl b (g.map fun p => if c p then (p.1, F p) else p) := by
  obtain ⟨hs, hk, hsub, hpos, hdl⟩ := hinv
  refine ⟨osmMap.sortedKeys_ifmap hs c F, ?_, ?_, ?_, ?_⟩
  · intro i o h
    rw [osmMap.lookup_ifmap] at h
    cases h0 : g.lookup i with
    | none => rw [h0] at h; cases h
    | some v =>
        rw [h0] at h
        injection h with h
        simp only at h
        by_cases hc : c (i, v)
        · rw [if_pos hc] at h
          rw [← h, hid]
          exact hk i v h0
        · rw [if_neg hc] at h
          rw [← h]
          exact hk i v h0
  · intro i h
    rw [osmMap.lookup_ifmap] at h
    exact hsub i (by cases h0 : g.lookup i with
      | none => rfl
      | some v => rw [h0] at h; cases h)
  · intro i o h hi
    rw [osmMap.lookup_ifmap] at h
    cases h0 : g.lookup i with
    | none => rw [h0] at h; cases h
    | some v => exact hpos i v h0 hi
  · intro i o h hd
    rw [osmMap.lookup_ifmap] at h
    cases h0 : g.lookup i with
    | none => rw [h0] at h; cases h
    | some v =>
        rw [h0] at h
        injection h with h
        simp only at h
        by_cases hc : c (i, v)
        · rw [if_pos hc] at h
          exact hdl i v h0 (hdel (i, v) (by rw [h]; exact hd))
        · rw [if_neg hc] at h
          exact hdl i v h0 (by rw [h]; exact hd)

/-- The `mapInv` relation on all three maps of the graph. -/
def osm_t.diffInv (b g : osm_t) : Prop :=
  mapInv node_t.id node_t.flags b.nodes g.nodes ∧
  mapInv way_t.id way_t.flags b.ways g.ways ∧
  mapInv relation_t.id relation_t.flags b.relations g.relations

theorem baseClean_diffInv {b : osm_t} (hb : b.baseClean) : b.diffInv b :=
  ⟨mapBaseClean_mapInv hb.1, mapBaseClean_mapInv hb.2.1,
   mapBaseClean_mapInv hb.2.2⟩

theorem diffInv_remove_from_relations {b g : osm_t} (h : b.diffInv g)
    (obj : object_t) : b.diffInv (g.remove_from_relations obj) := by
  refine ⟨h.1, h.2.1, ?_⟩
  exact mapInv_ifmap h.2.2 _ _ (fun p => rfl) (fun p hd => hd)

theorem diffInv_node_delete_core {b g : osm_t} (hb : b.baseClean)
    (h : b.diffInv g) (nid : Int) (kr : Bool) :
    b.diffInv (g.node_delete_core nid kr).1 := by
  unfold osm_t.node_delete_core
  split
  · exact h
  · next node hl =>
      have h1 : b.diffInv (if node.ways > 0 then
          { g with ways := g.ways.map fun p =>
              if p.2.node_chain.contains nid then
                (p.1,
                  if kr then p.2.mark_dirty
                  else { p.2.mark_dirty with
                         node_chain := p.2.node_chain.filter fun x => x ≠ nid })
              else p }
        else g) := by
        split
        · refine ⟨h.1, ?_, h.2.2⟩
          exact mapInv_ifmap h.2.1 _ _
            (fun p => by cases kr <;> rfl)
            (fun p => by cases kr <;> exact fun hd => hd)
        · exact h
      have h2 : ∀ G : osm_t, b.diffInv G →
          b.diffInv (if kr then G else G.remove_from_relations (.node nid)) := by
        intro G hG
        split
        · exact hG
        · exact diffInv_remove_from_relations hG _
      have h3 : ∀ G : osm_t, b.diffInv G →
          b.diffInv (if isNew nid then { G with nodes := G.nodes.erase nid }
                     else { G with nodes := G.nodes.modify nid node_t.markDeleted }) := by
        intro G hG
        split
        · next hnew =>
            exact ⟨mapInv_erase hG.1 nid
              (mapBaseClean_lookup_nonpos hb.1 (by simpa [isNew] using hnew)),
              hG.2.1, hG.2.2⟩
        · next hnew =>
            refine ⟨mapInv_modify hG.1 nid _ (fun o => rfl) (Or.inr ?_),
              hG.2.1, hG.2.2⟩
            simp [isNew] at hnew
            omega
      exact h3 _ (h2 _ h1)

theorem diffInv_unref {b g : osm_t} (hb : b.baseClean) (h : b.diffInv g)
    (nid : Int) : b.diffInv (osm_unref_way_free g nid) := by
  unfold osm_unref_way_free
  split
  · exact h
  · next n hl =>
      have h1 : b.diffInv
          { g with nodes := g.nodes.insert nid { n with ways := n.ways - 1 } } :=
        ⟨mapInv_insert_existing h.1 hl _ rfl (fun hd => hd), h.2.1, h.2.2⟩
      dsimp only
      split
      · exact diffInv_node_delete_core hb h1 nid true
      · exact h1

theorem diffInv_foldl_unref {b g : osm_t} (hb : b.baseClean) (h : b.diffInv g)
    (l : List Int) : b.diffInv (l.foldl osm_unref_way_free g) := by
  induction l generalizing g with
  | nil => exact h
  | cons x xs ih => exact ih (diffInv_unref hb h x)

theorem diffInv_way_delete {b g : osm_t} (hb : b.baseClean) (h : b.diffInv g)
    (wid : Int) : b.diffInv (g.way_delete wid) := by
  unfold osm_t.way_delete
  split
  · exact h
  · next way hl =>
      have h1 : b.diffInv (if wid ≠ ID_ILLEGAL then
          g.remove_from_relations (.way wid) else g) := by
        split
        · exact diffInv_remove_from_relations h _
        · exact h
      have h2 := diffInv_foldl_unref hb h1 way.node_chain
      have h3 : b.diffInv
          { way.node_chain.foldl osm_unref_way_free
              (if wid ≠ ID_ILLEGAL then g.remove_from_relations (.way wid) else g) with
            ways := (way.node_chain.foldl osm_unref_way_free
              (if wid ≠ ID_ILLEGAL then g.remove_from_relations (.way wid) else g)).ways.modify
                wid fun w => { w with node_chain := [] } } :=
        ⟨h2.1, mapInv_modify h2.2.1 wid _ (fun o => rfl) (Or.inl fun o hd => hd),
         h2.2.2⟩
      have h4 : ∀ G : osm_t, b.diffInv G →
          b.diffInv (if !(isNew wid) then
              { G with ways := G.ways.modify wid way_t.markDeleted }
            else { G with ways := G.ways.erase wid }) := by
        intro G hG
        split
        · next hnew =>
            refine ⟨hG.1, mapInv_modify hG.2.1 wid _ (fun o => rfl) (Or.inr ?_),
              hG.2.2⟩
            simp [isNew] at hnew
            omega
        · next hnew =>
            refine ⟨hG.1, mapInv_erase hG.2.1 wid
              (mapBaseClean_lookup_nonpos hb.2.1 ?_), hG.2.2⟩
            simp [isNew] at hnew
            omega
      exact h4 _ h3

theorem diffInv_apply_edit {b g : osm_t} (hb : b.baseClean) (h : b.diffInv g)
    (e : edit_t) : b.diffInv (apply_edit g e) := by
  cases e with
  | addNode p lp =>
      exact ⟨mapInv_insert_fresh h.1 _ rfl rfl, h.2.1, h.2.2⟩
  | deleteWay wid => exact diffInv_way_delete hb h wid
  | modifyTags k id ntags =>
      cases k with
      | nodes =>
          show b.diffInv (match g.nodes.lookup id with
            | some o => if o.tags.neMap ntags then
                { g with nodes := g.nodes.modify id fun n =>
                    { n.mark_dirty with tags := tag_list_t.replaceFromMap ntags } }
              else g
            | none => g)
          split
          · split
            · exact ⟨mapInv_modify h.1 id _ (fun o => rfl)
                (Or.inl fun o hd => hd), h.2.1, h.2.2⟩
            · exact h
          · exact h
      | ways =>
          show b.diffInv (match g.ways.lookup id with
            | some o => if o.tags.neMap ntags then
                { g with ways := g.ways.modify id fun w =>
                    { w.mark_dirty with tags := tag_list_t.replaceFromMap ntags } }
              else g
            | none => g)
          split
          · split
            · exact ⟨h.1, mapInv_modify h.2.1 id _ (fun o => rfl)
                (Or.inl fun o hd => hd), h.2.2⟩
            · exact h
          · exact h
      | relations =>
          show b.diffInv (match g.relations.lookup id with
            | some o => if o.tags.neMap ntags then
                { g with relations := g.relations.modify id fun r =>
                    { r.mark_dirty with tags := tag_list_t.replaceFromMap ntags } }
              else g
            | none => g)
          split
          · split
            · exact ⟨h.1, h.2.1, mapInv_modify h.2.2 id _ (fun o => rfl)
                (Or.inl fun o hd => hd)⟩
            · exact h
          · exact h

theorem diffInv_apply_edits {b g : osm_t} (hb : b.baseClean) (h : b.diffInv g)
    (es : List edit_t) : b.diffInv (apply_edits g es) := by
  induction es generalizing g with
  | nil => exact h
  | cons e rest ih => exact ih (diffInv_apply_edit hb h e)

/-- One map of the diff round trip: restoring the saved diff onto the clean
base reproduces the dirty classification (category and flags) of every id,
provided the edited map stands in the `mapInv` relation to the base. -/
theorem map_round_trip {α} (oid : α → Int) (ofl : α → flags_t)
    (setfl : flags_t → α → α)
    (hfl : ∀ fl o, ofl (setfl fl o) = fl)
    {b g : osmMap α} (hb : mapBaseClean oid ofl b)
    (hinv : mapInv oid ofl b g) (i : Int) :
    ((diff_restore_map setfl b (diff_save_map oid ofl g)).lookup i).bind
        (fun o => (classify_obj (oid o) (ofl o)).map fun c => (c, ofl o)) =
      (g.lookup i).bind
        (fun o => (classify_obj (oid o) (ofl o)).map fun c => (c, ofl o)) := by
  obtain ⟨hgs, hgk, hsub, hpos, hdl⟩ := hinv
  cases hl : g.lookup i with
  | none =>
      have hkey : ∀ e ∈ diff_save_map oid ofl g, e.key ≠ i := by
        intro e he
        obtain ⟨p, hp, hek, _⟩ := diff_save_key_mem oid ofl g he
        rw [hek]
        exact (osmMap.lookup_eq_none_iff g i).mp hl p hp
      rw [diff_restore_untouched setfl b _ i hkey, hsub i hl]
  | some o =>
      cases hcl : classify_obj (oid o) (ofl o) with
      | none =>
          have hkey : ∀ e ∈ diff_save_map oid ofl g, e.key ≠ i := by
            intro e he
            obtain ⟨p, hp, hek, hne⟩ := diff_save_key_mem oid ofl g he
            rw [hek]
            intro hc
            have hp' : (i, p.2) ∈ g := by rw [← hc]; exact hp
            have hlp := osmMap.sorted_mem_lookup hgs hp'
            rw [hl] at hlp
            injection hlp with hlp
            rw [← hlp] at hne
            exact hne hcl
          rw [diff_restore_untouched setfl b _ i hkey]
          have hipos : 0 ≤ i := by
            have hid := hgk i o hl
            by_contra hneg
            push_neg at hneg
            have hnew : isNew (oid o) = true := by
              simp only [isNew, decide_eq_true_eq]
              omega
            simp only [classify_obj, hnew, if_true] at hcl
            split_ifs at hcl
          have hbs := hpos i o hl hipos
          cases hbl : b.lookup i with
          | none => rw [hbl] at hbs; simp at hbs
          | some bo =>
              have hbp := hb.2 (i, bo) (osmMap.lookup_mem hbl)
              have h1 : oid bo = i := hbp.1.symm
              have h2 : ofl bo = flags_t.clear := hbp.2.2
              have h3 : 0 < i := hbp.2.1
              simp only [Option.some_bind, hcl, Option.map_none]
              rw [h1, h2]
              have hcn : classify_obj i flags_t.clear = none := by
                unfold classify_obj
                rw [if_neg (by simp [flags_t.clear]),
                  if_neg (by simp [isNew]; omega),
                  if_neg (by simp [flags_t.clear])]
              rw [hcn]
              rfl
      | some cat =>
          obtain ⟨g1, g2, hgeq, hg1, hg2⟩ := osmMap.sorted_lookup_split hgs hl
          have hk1 : ∀ x ∈ diff_save_map oid ofl g1, x.key ≠ i := by
            intro x hx
            obtain ⟨p, hp, hek, _⟩ := diff_save_key_mem oid ofl g1 hx
            rw [hek]
            exact hg1 p hp
          have hk2 : ∀ x ∈ diff_save_map oid ofl g2, x.key ≠ i := by
            intro x hx
            obtain ⟨p, hp, hek, _⟩ := diff_save_key_mem oid ofl g2 hx
            rw [hek]
            exact hg2 p hp
          cases cat with
          | added =>
              have hsave : diff_save_map oid ofl g =
                  diff_save_map oid ofl g1 ++
                    diff_entry.added i o :: diff_save_map oid ofl g2 := by
                rw [hgeq]
                simp only [diff_save_map, List.filterMap_append,
                  List.filterMap_cons, hcl]
              rw [hsave]
              have hres : (diff_restore_map setfl b
                    (diff_save_map oid ofl g1 ++
                      diff_entry.added i o :: diff_save_map oid ofl g2)).lookup i
                  = some o :=
                diff_restore_split setfl b _ _ (.added i o) hk1 hk2
              rw [hres]
          | changed =>
              have hsave : diff_save_map oid ofl g =
                  diff_save_map oid ofl g1 ++
                    diff_entry.changed i o :: diff_save_map oid ofl g2 := by
                rw [hgeq]
                simp only [diff_save_map, List.filterMap_append,
                  List.filterMap_cons, hcl]
              rw [hsave]
              have hres : (diff_restore_map setfl b
                    (diff_save_map oid ofl g1 ++
                      diff_entry.changed i o :: diff_save_map oid ofl g2)).lookup i
                  = some o :=
                diff_restore_split setfl b _ _ (.changed i o) hk1 hk2
              rw [hres]
          | deleted =>
              have hsave : diff_save_map oid ofl g =
                  diff_save_map oid ofl g1 ++
                    diff_entry.deleted i (ofl o) :: diff_save_map oid ofl g2 := by
                rw [hgeq]
                simp only [diff_save_map, List.filterMap_append,
                  List.filterMap_cons, hcl]
              have hdtrue : (ofl o).deleted = true := by
                by_contra hd
                unfold classify_obj at hcl
                rw [if_neg hd] at hcl
                split_ifs at hcl <;> simp at hcl
              have hipos : 0 ≤ i := hdl i o hl hdtrue
              have hbs := hpos i o hl hipos
              cases hbl : b.lookup i with
              | none => rw [hbl] at hbs; simp at hbs
              | some bo =>
                  rw [hsave]
                  have hres : (diff_restore_map setfl b
                        (diff_save_map oid ofl g1 ++
                          diff_entry.deleted i (ofl o) ::
                            diff_save_map oid ofl g2)).lookup i
                      = (b.lookup i).map (setfl (ofl o)) :=
                    diff_restore_split setfl b _ _ (.deleted i (ofl o)) hk1 hk2
                  rw [hres, hbl]
                  simp only [Option.map_some', Option.some_bind]
                  rw [hfl]
                  simp only [classify_obj, hdtrue, if_true] at hcl ⊢

/-- Demo way for the C6 witness. -/
def wC6 : way_t := mkWay (-1) [-10, -11]

/-- Demo route relation for the C6 witness: the way is its only member,
with role `forward`. -/
def rC6 : relation_t :=
  mkRel 5 [⟨.way (-1), some "forward"⟩] (some [⟨"type", "route"⟩])

/-- Demo graph for the C6 witness. -/
def rgC6 : osm_t :=
  { nodes := [], ways := [(-1, wC6)], relations := [(5, rC6)], hiddenWays := [] }

/-- C6 witness: reversing the demo way flips the `forward` role of the
route relation's member to `backward` and marks the relation dirty. -/
theorem way_reverse_route_roles_witness :
    (rgC6.way_reverse (-1)).relations.lookup 5 =
      some { rC6.mark_dirty with
             members := [] ++
               ({ (⟨.way (-1), some "forward"⟩ : member_t) with
                  role := some "backward" }) :: [] } :=
  ((way_reverse_route_roles rgC6 (-1) wC6 5 rC6 (by decide) (by decide)).2.2
      "route" (by decide) (by decide)
      [] ⟨.way (-1), some "forward"⟩ [] (by decide) (by decide) (by decide)
      (by decide)).1 "forward" rfl (by decide)

/-- C2: Saving the modification diff of an edited graph and replaying it
onto a freshly parsed copy of the same base data reproduces, for every
object type and every id, the dirty classification — the Added / Changed /
Deleted category together with the object's flags — of the edited graph.
The edits are node creation, way deletion and tag replacement; the
classification `osm_t.dirtyClass` follows the in-tree `object_counter`;
`diff_save` / `diff_restore` live in `diff.cpp`, which is absent from the
tree, and are modelled from the spec. -/
theorem diff_round_trip (base : osm_t) (es : List edit_t)
    (hb : base.baseClean) (k : obj_kind) (id : Int) :
    (diff_restore base (diff_save (apply_edits base es))).dirtyClass k id =
      (apply_edits base es).dirtyClass k id := by
  have hinv := diffInv_apply_edits hb (baseClean_diffInv hb) es
  cases k with
  | nodes =>
      exact map_round_trip node_t.id node_t.flags
        (fun fl n => { n with flags := fl }) (fun fl o => rfl)
        hb.1 hinv.1 id
  | ways =>
      exact map_round_trip way_t.id way_t.flags
        (fun fl w => { w with flags := fl }) (fun fl o => rfl)
        hb.2.1 hinv.2.1 id
  | relations =>
      exact map_round_trip relation_t.id relation_t.flags
        (fun fl r => { r with flags := fl }) (fun fl o => rfl)
        hb.2.2 hinv.2.2 id

/-- Demo base graph for the C2 witness: two clean upstream nodes and a
clean upstream way over them. -/
def bgC2 : osm_t :=
  { nodes := [(1, mkNode 1 1 1), (2, mkNode 2 1 1)],
    ways := [(10, mkWay 10 [1, 2])], relations := [], hiddenWays := [] }

/-- Demo edit script for the C2 witness: create a node, retag a node,
delete the way. -/
def esC2 : List edit_t :=
  [.addNode ⟨5, 5⟩ ⟨5, 5⟩, .modifyTags .nodes 1 [("name", "x")],
   .deleteWay 10]

/-- C2 witness: the demo base graph is clean, and the diff round trip
reproduces the deleted way's classification. -/
theorem diff_round_trip_witness :
    osm_t.baseClean bgC2 ∧
      (diff_restore bgC2 (diff_save (apply_edits bgC2 esC2))).dirtyClass
          .ways 10 =
        (apply_edits bgC2 esC2).dirtyClass .ways 10 :=
  ⟨by decide, diff_round_trip bgC2 esC2 (by decide) .ways 10⟩

/-- Chain-entry occurrences of a node id, as a sum over the way map. -/
def ways_occ (ws : osmMap way_t) (i : Int) : Nat :=
  (ws.map fun p => p.2.node_chain.count i).sum

theorem chain_occ_eq (g : osm_t) (i : Int) :
    chain_occ g i = ways_occ g.ways i := by
  unfold chain_occ ways_occ
  generalize g.ways = l
  have haux : ∀ (l : List (Int × way_t)) (n : Nat),
      l.foldl (fun acc p => acc + p.2.node_chain.count i) n =
        n + (l.map fun p => p.2.node_chain.count i).sum := by
    intro l
    induction l with
    | nil => intro n; simp
    | cons q rest ih =>
        intro n
        rw [List.foldl_cons, ih, List.map_cons, List.sum_cons]
        omega
  rw [haux]
  omega

theorem ways_occ_cons (k : Int) (w : way_t) (l : osmMap way_t) (i : Int) :
    ways_occ ((k, w) :: l) i = w.node_chain.count i + ways_occ l i := by
  simp [ways_occ]

theorem ways_occ_append (l1 l2 : osmMap way_t) (i : Int) :
    ways_occ (l1 ++ l2) i = ways_occ l1 i + ways_occ l2 i := by
  simp [ways_occ]

theorem ways_occ_insert_fresh {m : osmMap way_t} {k : Int}
    (h : ∀ p ∈ m, p.1 ≠ k) (v : way_t) (i : Int) :
    ways_occ (m.insert k v) i = v.node_chain.count i + ways_occ m i := by
  induction m with
  | nil => simp [osmMap.insert, ways_occ]
  | cons q rest ih =>
      obtain ⟨k', v'⟩ := q
      have hk' : k' ≠ k := h (k', v') (List.mem_cons_self _ _)
      rw [show osmMap.insert ((k', v') :: rest) k v =
          if k < k' then (k, v) :: (k', v') :: rest
          else if k = k' then (k, v) :: rest
          else (k', v') :: osmMap.insert rest k v from rfl]
      by_cases h1 : k < k'
      · rw [if_pos h1, ways_occ_cons, ways_occ_cons]
      · rw [if_neg h1, if_neg (fun hc => hk' hc.symm), ways_occ_cons,
          ways_occ_cons, ih (fun p hp => h p (List.mem_cons_of_mem _ hp))]
        omega

namespace osmMap

theorem modify_eq_of_forall_ne {α} {m : osmMap α} {k : Int}
    (h : ∀ p ∈ m, p.1 ≠ k) (f : α → α) : m.modify k f = m := by
  induction m with
  | nil => rfl
  | cons q rest ih =>
      obtain ⟨k', v⟩ := q
      rw [show modify ((k', v) :: rest) k f =
          if k' = k then (k', f v) :: modify rest k f
          else (k', v) :: modify rest k f from rfl,
        if_neg (h (k', v) (List.mem_cons_self _ _)),
        ih (fun p hp => h p (List.mem_cons_of_mem _ hp))]

theorem erase_eq_of_forall_ne {α} {m : osmMap α} {k : Int}
    (h : ∀ p ∈ m, p.1 ≠ k) : m.erase k = m := by
  induction m with
  | nil => rfl
  | cons q rest ih =>
      obtain ⟨k', v⟩ := q
      rw [show erase ((k', v) :: rest) k =
          if k' = k then erase rest k else (k', v) :: erase rest k from rfl,
        if_neg (h (k', v) (List.mem_cons_self _ _)),
        ih (fun p hp => h p (List.mem_cons_of_mem _ hp))]

theorem modify_append {α} (l1 l2 : osmMap α) (k : Int) (f : α → α) :
    (l1 ++ l2).modify k f = l1.modify k f ++ l2.modify k f := by
  induction l1 with
  | nil => rfl
  | cons q rest ih =>
      obtain ⟨k', v⟩ := q
      by_cases h1 : k' = k <;>
        simp only [List.cons_append, modify, h1, if_true, if_false, ih] <;>
        simp [modify, h1, ih]

theorem erase_append {α} (l1 l2 : osmMap α) (k : Int) :
    (l1 ++ l2).erase k = l1.erase k ++ l2.erase k := by
  induction l1 with
  | nil => rfl
  | cons q rest ih =>
      obtain ⟨k', v⟩ := q
      by_cases h1 : k' = k <;>
        simp only [List.cons_append, erase, h1, if_true, if_false, ih] <;>
        simp [erase, h1, ih]

/-- Decomposition of `modify`/`erase` on a sorted map around a present
key. -/
theorem modify_erase_split {α} {m : osmMap α} (hs : SortedKeys m) {k : Int}
    {v : α} (h : m.lookup k = some v) (f : α → α) :
    ∃ m1 m2, m = m1 ++ (k, v) :: m2 ∧ (∀ p ∈ m1, p.1 ≠ k) ∧
      (∀ p ∈ m2, p.1 ≠ k) ∧
      m.modify k f = m1 ++ (k, f v) :: m2 ∧ m.erase k = m1 ++ m2 := by
  obtain ⟨m1, m2, hm, h1, h2⟩ := sorted_lookup_split hs h
  refine ⟨m1, m2, hm, h1, h2, ?_, ?_⟩
  · rw [hm, modify_append, modify_eq_of_forall_ne h1,
      show modify ((k, v) :: m2) k f =
        if k = k then (k, f v) :: modify m2 k f
        else (k, v) :: modify m2 k f from rfl,
      if_pos rfl, modify_eq_of_forall_ne h2]
  · rw [hm, erase_append, erase_eq_of_forall_ne h1,
      show erase ((k, v) :: m2) k =
        if k = k then erase m2 k else (k, v) :: erase m2 k from rfl,
      if_pos rfl, erase_eq_of_forall_ne h2]

end osmMap

/-- Additive occurrence ledger for an in-place way update. -/
theorem ways_occ_modify {m : osmMap way_t} (hs : osmMap.SortedKeys m)
    {k : Int} {v : way_t} (h : m.lookup k = some v) (f : way_t → way_t)
    (i : Int) :
    ways_occ (m.modify k f) i + v.node_chain.count i =
      ways_occ m i + ((f v).node_chain.count i) := by
  obtain ⟨m1, m2, hm, _, _, hmod, _⟩ := osmMap.modify_erase_split hs h f
  rw [hmod, hm, ways_occ_append, ways_occ_append, ways_occ_cons, ways_occ_cons]
  omega

/-- Occurrence ledger for erasing a way. -/
theorem ways_occ_erase {m : osmMap way_t} (hs : osmMap.SortedKeys m)
    {k : Int} {v : way_t} (h : m.lookup k = some v) (i : Int) :
    ways_occ (m.erase k) i + v.node_chain.count i = ways_occ m i := by
  obtain ⟨m1, m2, hm, _, _, _, hera⟩ :=
    osmMap.modify_erase_split hs h (fun w => w)
  rw [hera, hm, ways_occ_append, ways_occ_append, ways_occ_cons]
  omega

/-- Occurrences under a guarded per-entry rewrite, as a sum of the
transformed chains. -/
theorem ways_occ_ifmap (m : osmMap way_t) (c : Int × way_t → Bool)
    (F : Int × way_t → way_t) (i : Int) :
    ways_occ (m.map fun p => if c p then (p.1, F p) else p) i =
      ((m.map fun p =>
        (if c p then F p else p.2).node_chain.count i)).sum := by
  unfold ways_occ
  rw [List.map_map]
  refine congrArg List.sum (List.map_congr_left ?_)
  intro p _
  by_cases hc : c p <;> simp [hc]

/-- A rewrite whose transformed chains never contain `i` clears all
occurrences of `i`. -/
theorem ways_occ_ifmap_zero {m : osmMap way_t} {c : Int × way_t → Bool}
    {F : Int × way_t → way_t} {i : Int}
    (h : ∀ p ∈ m, (if c p then F p else p.2).node_chain.count i = 0) :
    ways_occ (m.map fun p => if c p then (p.1, F p) else p) i = 0 := by
  rw [ways_occ_ifmap]
  refine List.sum_eq_zero ?_
  intro x hx
  obtain ⟨p, hp, hpe⟩ := List.mem_map.mp hx
  rw [← hpe]
  exact h p hp

/-- A rewrite that preserves every entry's occurrence count of `i`
preserves the total. -/
theorem ways_occ_ifmap_congr {m : osmMap way_t} {c : Int × way_t → Bool}
    {F : Int × way_t → way_t} {i : Int}
    (h : ∀ p ∈ m, (F p).node_chain.count i = p.2.node_chain.count i) :
    ways_occ (m.map fun p => if c p then (p.1, F p) else p) i =
      ways_occ m i := by
  rw [ways_occ_ifmap]
  unfold ways_occ
  refine congrArg List.sum (List.map_congr_left ?_)
  intro p hp
  by_cases hc : c p <;> simp [hc, h p hp]

/-- `node_delete_core` in keep-refs mode on a node whose counter is already
zero touches only the node map: the node is freed when new, soft-deleted
otherwise. -/
theorem node_delete_core_zero (g : osm_t) (nid : Int) {n : node_t}
    (h : g.nodes.lookup nid = some n) (h0 : n.ways = 0) :
    (g.node_delete_core nid true).1 =
      if isNew nid then { g with nodes := g.nodes.erase nid }
      else { g with nodes := g.nodes.modify nid node_t.markDeleted } := by
  unfold osm_t.node_delete_core
  simp only [h, h0]
  split <;> simp

/-- What one `osm_unref_way_free` fold over a chain `C` does to the graph:
ways and relations are untouched, every node's counter drops by its
occurrence count in `C` (saturating), and a node can disappear or gain the
Deleted flag only once its counter is exhausted by `C`. -/
def unrefRel (C : List Int) (g g' : osm_t) : Prop :=
  g'.ways = g.ways ∧ g'.relations = g.relations ∧
  osmMap.SortedKeys g'.nodes ∧
  (∀ i, g.nodes.lookup i = none → g'.nodes.lookup i = none) ∧
  (∀ i n', g'.nodes.lookup i = some n' → ∃ n, g.nodes.lookup i = some n ∧
      n'.ways = n.ways - C.count i ∧
      (n'.flags.deleted = n.flags.deleted ∨
        (n'.flags.deleted = true ∧ n.ways ≤ C.count i))) ∧
  (∀ i n, g.nodes.lookup i = some n → g'.nodes.lookup i = none →
      n.ways ≤ C.count i)

theorem unrefRel_comp {x : Int} {rest : List Int} {g g1 g2 : osm_t}
    (h1 : unrefRel [x] g g1) (h2 : unrefRel rest g1 g2) :
    unrefRel (x :: rest) g g2 := by
  obtain ⟨hw1, hr1, _, hn1, hs1, ha1⟩ := h1
  obtain ⟨hw2, hr2, hsort2, hn2, hs2, ha2⟩ := h2
  have hcount : ∀ i : Int, (x :: rest).count i =
      List.count i [x] + rest.count i := by
    intro i
    simp [List.count_cons]
    omega
  refine ⟨hw2.trans hw1, hr2.trans hr1, hsort2, ?_, ?_, ?_⟩
  · intro i h
    exact hn2 i (hn1 i h)
  · intro i n2 h
    obtain ⟨n1, hl1, hwys1, hfl1⟩ := hs2 i n2 h
    obtain ⟨n0, hl0, hwys0, hfl0⟩ := hs1 i n1 hl1
    refine ⟨n0, hl0, ?_, ?_⟩
    · rw [hcount i]
      omega
    · rcases hfl1 with hfl1 | hfl1
      · rcases hfl0 with hfl0 | hfl0
        · exact Or.inl (hfl1.trans hfl0)
        · exact Or.inr ⟨hfl1.trans hfl0.1, by rw [hcount i]; omega⟩
      · exact Or.inr ⟨hfl1.1, by rw [hcount i]; omega⟩
  · intro i n0 hl0 h
    cases hl1 : g1.nodes.lookup i with
    | none =>
        have := ha1 i n0 hl0 hl1
        rw [hcount i]
        omega
    | some n1 =>
        obtain ⟨n0', hl0', hwys0, _⟩ := hs1 i n1 hl1
        rw [hl0] at hl0'
        injection hl0' with hl0'
        have := ha2 i n1 hl1 h
        rw [hcount i, hl0']
        omega

theorem unref_one (g : osm_t) (x : Int) (hs : osmMap.SortedKeys g.nodes) :
    unrefRel [x] g (osm_unref_way_free g x) := by
  have hcx : List.count x [x] = 1 := by simp
  have hcne : ∀ i : Int, i ≠ x → List.count i [x] = 0 := by
    intro i hi
    simp [List.count_singleton]
    omega
  unfold osm_unref_way_free
  split
  · next hl =>
      refine ⟨rfl, rfl, hs, fun i h => h, ?_, ?_⟩
      · intro i n' h'
        refine ⟨n', h', ?_, Or.inl rfl⟩
        by_cases hix : i = x
        · rw [hix] at h'; rw [h'] at hl; cases hl
        · rw [hcne i hix]; omega
      · intro i n h h'
        rw [h] at h'; cases h'
  · next n hl =>
      have hsins : osmMap.SortedKeys
          (g.nodes.insert x { n with ways := n.ways - 1 }) :=
        osmMap.SortedKeys.insert hs x _
      have hlookup : ∀ i : Int,
          (g.nodes.insert x { n with ways := n.ways - 1 }).lookup i =
            if i = x then some { n with ways := n.ways - 1 }
            else g.nodes.lookup i := fun i => osmMap.lookup_insert _ _ _ i
      dsimp only
      split
      · next hcond =>
          rw [Bool.and_eq_true, Bool.and_eq_true] at hcond
          have hzero : n.ways - 1 = 0 := by
            have := hcond.1.1
            simpa using this
          rw [node_delete_core_zero _ x (by rw [hlookup x, if_pos rfl]) hzero]
          split
          · next hnew =>
              refine ⟨rfl, rfl, osmMap.SortedKeys.erase hsins x, ?_, ?_, ?_⟩
              · intro i h
                rw [osmMap.lookup_erase]
                by_cases hix : i = x
                · rw [if_pos hix]
                · rw [if_neg hix, hlookup i, if_neg hix]
                  exact h
              · intro i n' h'
                rw [osmMap.lookup_erase] at h'
                by_cases hix : i = x
                · rw [if_pos hix] at h'; cases h'
                · rw [if_neg hix, hlookup i, if_neg hix] at h'
                  exact ⟨n', h', by rw [hcne i hix]; omega, Or.inl rfl⟩
              · intro i n0 hl0 h'
                rw [osmMap.lookup_erase] at h'
                by_cases hix : i = x
                · rw [hix] at hl0
                  rw [hl0] at hl
                  injection hl with hl
                  rw [hix, hcx, hl]
                  omega
                · rw [if_neg hix, hlookup i, if_neg hix, hl0] at h'
                  cases h'
          · next hnew =>
              refine ⟨rfl, rfl, osmMap.SortedKeys.modify hsins x _, ?_, ?_, ?_⟩
              · intro i h
                rw [osmMap.lookup_modify]
                by_cases hix : i = x
                · rw [hix] at h
                  rw [h] at hl; cases hl
                · rw [if_neg hix, hlookup i, if_neg hix]
                  exact h
              · intro i n' h'
                rw [osmMap.lookup_modify] at h'
                by_cases hix : i = x
                · rw [if_pos hix, hix, hlookup x, if_pos rfl] at h'
                  injection h' with h'
                  refine ⟨n, by rw [hix]; exact hl, ?_, ?_⟩
                  · rw [hix, hcx, ← h']
                    rfl
                  · refine Or.inr ⟨by rw [← h']; rfl, ?_⟩
                    rw [hix, hcx]
                    omega
                · rw [if_neg hix, hlookup i, if_neg hix] at h'
                  exact ⟨n', h', by rw [hcne i hix]; omega, Or.inl rfl⟩
              · intro i n0 hl0 h'
                rw [osmMap.lookup_modify] at h'
                by_cases hix : i = x
                · rw [if_pos hix, hix, hlookup x, if_pos rfl] at h'
                  cases h'
                · rw [if_neg hix, hlookup i, if_neg hix, hl0] at h'
                  cases h'
      · refine ⟨rfl, rfl, hsins, ?_, ?_, ?_⟩
        · intro i h
          rw [hlookup i]
          by_cases hix : i = x
          · rw [hix] at h
            rw [h] at hl; cases hl
          · rw [if_neg hix]
            exact h
        · intro i n' h'
          rw [hlookup i] at h'
          by_cases hix : i = x
          · rw [if_pos hix] at h'
            injection h' with h'
            refine ⟨n, by rw [hix]; exact hl, ?_, Or.inl (by rw [← h'])⟩
            rw [hix, hcx, ← h']
          · rw [if_neg hix] at h'
            exact ⟨n', h', by rw [hcne i hix]; omega, Or.inl rfl⟩
        · intro i n0 hl0 h'
          rw [hlookup i] at h'
          by_cases hix : i = x
          · rw [if_pos hix] at h'; cases h'
          · rw [if_neg hix, hl0] at h'; cases h'

theorem unref_fold (C : List Int) (g : osm_t)
    (hs : osmMap.SortedKeys g.nodes) :
    unrefRel C g (C.foldl osm_unref_way_free g) := by
  induction C generalizing g with
  | nil =>
      refine ⟨rfl, rfl, hs, fun i h => h, ?_, ?_⟩
      · intro i n' h'
        exact ⟨n', h', by simp, Or.inl rfl⟩
      · intro i n h h'
        simp only [List.foldl_nil] at h'
        rw [h] at h'; cases h'
  | cons x rest ih =>
      rw [List.foldl_cons]
      have h1 := unref_one g x hs
      exact unrefRel_comp h1 (ih _ h1.2.2.1)

/-- The corrected reference-count invariant: sorted maps, chains only
reference present nodes, every counter bounds the number of chain entries
holding the node, with equality while the node is not soft-deleted. -/
def refInvP (g : osm_t) : Prop :=
  osmMap.SortedKeys g.nodes ∧ osmMap.SortedKeys g.ways ∧
  (∀ p ∈ g.ways, ∀ x ∈ p.2.node_chain, (g.nodes.lookup x).isSome = true) ∧
  (∀ i n, g.nodes.lookup i = some n →
      ways_occ g.ways i ≤ n.ways ∧
      (n.flags.deleted = false → n.ways = ways_occ g.ways i)) ∧
  g.nodes.lookup ID_ILLEGAL = none

theorem occ_zero_of_absent {g : osm_t}
    (hpres : ∀ p ∈ g.ways, ∀ x ∈ p.2.node_chain,
      (g.nodes.lookup x).isSome = true)
    {i : Int} (habs : g.nodes.lookup i = none) :
    ways_occ g.ways i = 0 := by
  unfold ways_occ
  refine List.sum_eq_zero ?_
  intro c hc
  obtain ⟨p, hp, hpe⟩ := List.mem_map.mp hc
  rw [← hpe]
  by_contra hpos
  have hmem : i ∈ p.2.node_chain :=
    List.count_pos_iff.mp (Nat.pos_of_ne_zero hpos)
  have := hpres p hp i hmem
  rw [habs] at this
  cases this

namespace osmMap

theorem mem_modify {α} {m : osmMap α} {k : Int} {f : α → α}
    {p : Int × α} (h : p ∈ m.modify k f) :
    ∃ q ∈ m, p.1 = q.1 ∧ (p.2 = q.2 ∨ p.2 = f q.2) := by
  induction m with
  | nil => cases h
  | cons q0 rest ih =>
      obtain ⟨k', v⟩ := q0
      rw [show modify ((k', v) :: rest) k f =
          if k' = k then (k', f v) :: modify rest k f
          else (k', v) :: modify rest k f from rfl] at h
      by_cases h1 : k' = k
      · rw [if_pos h1] at h
        rcases List.mem_cons.mp h with h5 | h5
        · exact ⟨(k', v), List.mem_cons_self _ _, by rw [h5], Or.inr (by rw [h5])⟩
        · obtain ⟨q, hq, hqe⟩ := ih h5
          exact ⟨q, List.mem_cons_of_mem _ hq, hqe.1, hqe.2⟩
      · rw [if_neg h1] at h
        rcases List.mem_cons.mp h with h5 | h5
        · exact ⟨(k', v), List.mem_cons_self _ _, by rw [h5], Or.inl (by rw [h5])⟩
        · obtain ⟨q, hq, hqe⟩ := ih h5
          exact ⟨q, List.mem_cons_of_mem _ hq, hqe.1, hqe.2⟩

theorem lookup_isSome_modify {α} (m : osmMap α) (k : Int) (f : α → α)
    (i : Int) :
    ((m.modify k f).lookup i).isSome = (m.lookup i).isSome := by
  rw [lookup_modify]
  by_cases h : i = k
  · rw [if_pos h]
    cases m.lookup i <;> rfl
  · rw [if_neg h]

end osmMap

/-- `osm_t::attach` for a fresh zero-referenced node keeps the invariant. -/
theorem refInvP_node_attach {g : osm_t} (h : refInvP g) (nd : node_t)
    (hnd : nd.ways = 0) (hdel : nd.flags.deleted = false) :
    refInvP (g.node_attach nd).1 := by
  obtain ⟨hsn, hsw, hpres, hcnt, h0⟩ := h
  have hocc : ways_occ g.ways (osm_new_id g.nodes) = 0 :=
    occ_zero_of_absent hpres (osmMap.lookup_new_id_none hsn)
  unfold osm_t.node_attach
  dsimp only
  have hnz : ID_ILLEGAL ≠ osm_new_id g.nodes := by
    have := osm_new_id_neg g.nodes
    unfold ID_ILLEGAL
    omega
  refine ⟨osmMap.SortedKeys.insert hsn _ _, hsw, ?_, ?_,
    by rw [osmMap.lookup_insert, if_neg hnz]; exact h0⟩
  · intro p hp x hx
    rw [osmMap.lookup_insert]
    by_cases h1 : x = osm_new_id g.nodes
    · rw [if_pos h1]; rfl
    · rw [if_neg h1]
      exact hpres p hp x hx
  · intro i n hn
    rw [osmMap.lookup_insert] at hn
    by_cases h1 : i = osm_new_id g.nodes
    · rw [if_pos h1] at hn
      injection hn with hn
      rw [← hn, h1]
      simp [hocc, hnd, hdel]
    · rw [if_neg h1] at hn
      exact hcnt i n hn

/-- `osm_t::attach` for a fresh empty way keeps the invariant. -/
theorem refInvP_way_attach {g : osm_t} (h : refInvP g) (w : way_t)
    (hw : w.node_chain = []) : refInvP (g.way_attach w).1 := by
  obtain ⟨hsn, hsw, hpres, hcnt, h0⟩ := h
  have hfresh : ∀ p ∈ g.ways, p.1 ≠ osm_new_id g.ways :=
    (osmMap.lookup_eq_none_iff _ _).mp (osmMap.lookup_new_id_none hsw)
  have hocc : ∀ i, ways_occ ((g.ways.insert (osm_new_id g.ways)
      { w with id := osm_new_id g.ways, flags := w.flags.markDirty })) i =
      ways_occ g.ways i := by
    intro i
    rw [ways_occ_insert_fresh hfresh]
    simp [hw]
  unfold osm_t.way_attach
  dsimp only
  refine ⟨hsn, osmMap.SortedKeys.insert hsw _ _, ?_, ?_, h0⟩
  · intro p hp x hx
    rcases osmMap.mem_insert hp with h5 | h5
    · rw [h5] at hx
      simp [hw] at hx
    · exact hpres p h5 x hx
  · intro i n hn
    rw [hocc i]
    exact hcnt i n hn

/-- `way_t::append_node` keeps the invariant: one more chain entry, one
more count on the appended node. -/
theorem refInvP_append_node {g : osm_t} (h : refInvP g) (wid nid : Int) :
    refInvP (g.append_node wid nid) := by
  obtain ⟨hsn, hsw, hpres, hcnt, h0⟩ := h
  unfold osm_t.append_node
  split
  · next w nd hlw hln =>
      have hocc : ∀ i, ways_occ (g.ways.modify wid fun w =>
          { w with node_chain := w.node_chain ++ [nid] }) i =
          ways_occ g.ways i + (if nid = i then 1 else 0) := by
        intro i
        have := ways_occ_modify hsw hlw
          (fun w => { w with node_chain := w.node_chain ++ [nid] }) i
        simp only [List.count_append] at this
        have hsing : List.count i [nid] = if nid = i then 1 else 0 := by
          by_cases h1 : nid = i <;> simp [List.count_singleton, h1]
        omega
      refine ⟨osmMap.SortedKeys.modify hsn nid _,
        osmMap.SortedKeys.modify hsw wid _, ?_, ?_,
        by rw [osmMap.lookup_modify]; split <;> simp [h0]⟩
      · intro p hp x hx
        rw [osmMap.lookup_isSome_modify]
        obtain ⟨q, hq, hqk, hqv⟩ := osmMap.mem_modify hp
        rcases hqv with hqv | hqv
        · rw [hqv] at hx
          exact hpres q hq x hx
        · rw [hqv] at hx
          simp only [List.mem_append] at hx
          rcases hx with hx | hx
          · exact hpres q hq x hx
          · simp at hx
            rw [hx, hln]
            rfl
      · intro i n hn
        rw [osmMap.lookup_modify] at hn
        rw [hocc i]
        by_cases h1 : i = nid
        · rw [if_pos h1, h1, hln] at hn
          injection hn with hn
          have hc := hcnt nid nd hln
          rw [← hn, h1]
          dsimp only
          have hif : (if nid = nid then (1 : Nat) else 0) = 1 := by simp
          rw [hif]
          constructor
          · have := hc.1
            omega
          · intro hdf
            have := hc.2 hdf
            omega
        · rw [if_neg h1] at hn
          have hc := hcnt i n hn
          have hif : (if nid = i then (1 : Nat) else 0) = 0 :=
            if_neg (fun hc2 => h1 hc2.symm)
          rw [hif]
          constructor
          · have := hc.1
            omega
          · intro hdf
            have := hc.2 hdf
            omega
  · exact ⟨hsn, hsw, hpres, hcnt, h0⟩

theorem not_mem_chain_of_occ_zero {ws : osmMap way_t} {i : Int}
    (h : ways_occ ws i = 0) : ∀ p ∈ ws, i ∉ p.2.node_chain := by
  intro p hp hmem
  have hcnt : p.2.node_chain.count i ≠ 0 :=
    Nat.pos_iff_ne_zero.mp (List.count_pos_iff.mpr hmem)
  unfold ways_occ at h
  exact hcnt (List.sum_eq_zero_iff.mp h _
    (List.mem_map_of_mem (fun p => p.2.node_chain.count i) hp))

theorem refInvP_set_relations (g : osm_t) (r : osmMap relation_t) :
    refInvP g → refInvP { g with relations := r } :=
  fun ⟨a, b, c, d, e⟩ => ⟨a, b, c, d, e⟩

/-- The chain scrub of `node_delete_core` in public (drop-references) mode
keeps the invariant: every occurrence of the node disappears from the
chains, and the node is erased (new) or soft-deleted (upstream). -/
theorem refInvP_node_delete_core {g : osm_t} (h : refInvP g) (nid : Int) :
    refInvP (g.node_delete_core nid false).1 := by
  obtain ⟨hsn, hsw, hpres, hcnt, h0⟩ := h
  unfold osm_t.node_delete_core
  split
  · exact ⟨hsn, hsw, hpres, hcnt, h0⟩
  · next node hl =>
      have hGw : ∀ (W : osmMap way_t) (R : osmMap relation_t),
          osmMap.SortedKeys W →
          (∀ p ∈ W, ∀ x ∈ p.2.node_chain, (g.nodes.lookup x).isSome = true) →
          ways_occ W nid = 0 →
          (∀ i, i ≠ nid → ways_occ W i = ways_occ g.ways i) →
          refInvP (if isNew nid
            then { nodes := g.nodes.erase nid, ways := W, relations := R,
                   hiddenWays := g.hiddenWays }
            else { nodes := g.nodes.modify nid node_t.markDeleted, ways := W,
                   relations := R, hiddenWays := g.hiddenWays }) := by
        intro W R hWs hWp hW0 hWi
        split
        · refine ⟨osmMap.SortedKeys.erase hsn nid, hWs, ?_, ?_,
            by rw [osmMap.lookup_erase]; split <;> simp [h0]⟩
          · intro p hp x hx
            rw [osmMap.lookup_erase]
            have hxne : x ≠ nid := by
              intro hc
              exact not_mem_chain_of_occ_zero hW0 p hp (hc ▸ hx)
            rw [if_neg hxne]
            exact hWp p hp x hx
          · intro i n hn
            rw [osmMap.lookup_erase] at hn
            by_cases h1 : i = nid
            · rw [if_pos h1] at hn; cases hn
            · rw [if_neg h1] at hn
              rw [hWi i h1]
              exact hcnt i n hn
        · refine ⟨osmMap.SortedKeys.modify hsn nid _, hWs, ?_, ?_,
            by rw [osmMap.lookup_modify]; split <;> simp [h0]⟩
          · intro p hp x hx
            rw [osmMap.lookup_isSome_modify]
            exact hWp p hp x hx
          · intro i n hn
            rw [osmMap.lookup_modify] at hn
            by_cases h1 : i = nid
            · rw [if_pos h1, h1, hl] at hn
              injection hn with hn
              rw [← hn, h1, hW0]
              constructor
              · exact Nat.zero_le _
              · intro hdf
                simp [node_t.markDeleted, flags_t.markDeleted] at hdf
            · rw [if_neg h1] at hn
              rw [hWi i h1]
              exact hcnt i n hn
      dsimp only
      by_cases hwp : node.ways > 0
      · rw [if_pos hwp]
        refine hGw _ _ ?_ ?_ ?_ ?_
        · exact osmMap.sortedKeys_ifmap hsw _ _
        · intro p hp x hx
          obtain ⟨q, hq, hqe⟩ := List.mem_map.mp hp
          by_cases hc : q.2.node_chain.contains nid
          · rw [if_pos hc] at hqe
            rw [← hqe] at hx
            simp only at hx
            have hx2 : x ∈ q.2.node_chain := List.mem_of_mem_filter hx
            exact hpres q hq x hx2
          · rw [if_neg hc] at hqe
            rw [← hqe] at hx
            exact hpres q hq x hx
        · refine ways_occ_ifmap_zero ?_
          intro p hp
          by_cases hc : p.2.node_chain.contains nid
          · rw [if_pos hc]
            refine List.count_eq_zero.mpr ?_
            intro hmem
            have := List.of_mem_filter hmem
            simp at this
          · rw [if_neg hc]
            refine List.count_eq_zero.mpr ?_
            intro hmem
            simp at hc
            exact hc hmem
        · intro i hine
          refine ways_occ_ifmap_congr ?_
          intro p hp
          exact List.count_filter (by simp [hine])
      · rw [if_neg hwp]
        have hocc0 : ways_occ g.ways nid = 0 := by
          have := (hcnt nid node hl).1
          omega
        exact hGw _ _ hsw hpres hocc0 (fun i _ => rfl)

theorem count_le_ways_occ {m : osmMap way_t} {p : Int × way_t} (hp : p ∈ m)
    (i : Int) : p.2.node_chain.count i ≤ ways_occ m i := by
  unfold ways_occ
  exact List.single_le_sum (fun x _ => Nat.zero_le x) _
    (List.mem_map_of_mem (fun p => p.2.node_chain.count i) hp)

/-- `osm_t::way_delete` keeps the invariant: each chain node's counter
drops by its occurrence count in the deleted chain, the chain is cleared,
and nodes whose counters hit zero are freed or soft-deleted. -/
theorem refInvP_way_delete {g : osm_t} (h : refInvP g) (wid : Int) :
    refInvP (g.way_delete wid) := by
  obtain ⟨hsn, hsw, hpres, hcnt, h0⟩ := h
  unfold osm_t.way_delete
  split
  · exact ⟨hsn, hsw, hpres, hcnt, h0⟩
  · next way hl =>
      dsimp only
      set g1 := if wid ≠ ID_ILLEGAL then g.remove_from_relations (.way wid)
        else g with hg1def
      have hg1n : g1.nodes = g.nodes := by
        rw [hg1def]; split <;> rfl
      have hg1w : g1.ways = g.ways := by
        rw [hg1def]; split <;> rfl
      set C := way.node_chain with hC
      have hrel := unref_fold C g1 (by rw [hg1n]; exact hsn)
      set g2 := C.foldl osm_unref_way_free g1 with hg2def
      obtain ⟨hr_w, _, hr_s, hr_none, hr_some, hr_abs⟩ := hrel
      have hg2w : g2.ways = g.ways := by rw [hr_w, hg1w]
      obtain ⟨m1, m2, hmeq, hm1, hm2, hmod, _⟩ :=
        osmMap.modify_erase_split hsw hl
          (fun w => { w with node_chain := ([] : List Int) })
      -- occurrence decomposition of the original map
      have hoccdec : ∀ i, ways_occ g.ways i =
          ways_occ m1 i + C.count i + ways_occ m2 i := by
        intro i
        rw [hmeq, ways_occ_append, ways_occ_cons, hC]
        omega
      -- the two possible final way maps share their occurrence sums
      have hmod2 : (m1 ++ (wid, { way with node_chain := ([] : List Int) })
            :: m2).modify wid way_t.markDeleted =
          m1 ++ (wid, way_t.markDeleted { way with node_chain := ([] : List Int) })
            :: m2 := by
        rw [osmMap.modify_append, osmMap.modify_eq_of_forall_ne hm1,
          show osmMap.modify ((wid, { way with node_chain := ([] : List Int) }) :: m2)
              wid way_t.markDeleted =
            if wid = wid then
              (wid, way_t.markDeleted { way with node_chain := ([] : List Int) })
                :: osmMap.modify m2 wid way_t.markDeleted
            else _ :: osmMap.modify m2 wid way_t.markDeleted from rfl,
          if_pos rfl, osmMap.modify_eq_of_forall_ne hm2]
      have hera2 : (m1 ++ (wid, { way with node_chain := ([] : List Int) })
            :: m2).erase wid = m1 ++ m2 := by
        rw [osmMap.erase_append, osmMap.erase_eq_of_forall_ne hm1,
          show osmMap.erase ((wid, { way with node_chain := ([] : List Int) }) :: m2)
              wid =
            if wid = wid then osmMap.erase m2 wid
            else (wid, { way with node_chain := ([] : List Int) })
              :: osmMap.erase m2 wid from rfl,
          if_pos rfl, osmMap.erase_eq_of_forall_ne hm2]
      -- shared pieces for both final shapes
      have hpresfin : ∀ (p : Int × way_t), (p ∈ m1 ∨ p ∈ m2) →
          ∀ x ∈ p.2.node_chain, (g2.nodes.lookup x).isSome = true := by
        intro p hp x hx
        cases hcase : g2.nodes.lookup x with
        | some v => rfl
        | none =>
            exfalso
            have hpg : p ∈ g.ways := by
              rw [hmeq]
              rcases hp with hp | hp
              · exact List.mem_append_left _ hp
              · exact List.mem_append_right _ (List.mem_cons_of_mem _ hp)
            have hx0 : (g.nodes.lookup x).isSome = true := hpres p hpg x hx
            cases hlx : g.nodes.lookup x with
            | none => rw [hlx] at hx0; cases hx0
            | some n0 =>
                have habs := hr_abs x n0 (by rw [hg1n]; exact hlx) hcase
                have hcle : p.2.node_chain.count x ≥ 1 :=
                  List.count_pos_iff.mpr hx
                have hple : p.2.node_chain.count x ≤
                    ways_occ m1 x + ways_occ m2 x := by
                  rcases hp with hp | hp
                  · have := count_le_ways_occ hp x
                    omega
                  · have := count_le_ways_occ hp x
                    omega
                have hocc := hoccdec x
                have hinv := (hcnt x n0 hlx).1
                omega
      have hcntfin : ∀ (W : osmMap way_t),
          (∀ i, ways_occ W i = ways_occ m1 i + ways_occ m2 i) →
          ∀ i n, g2.nodes.lookup i = some n →
            ways_occ W i ≤ n.ways ∧
            (n.flags.deleted = false → n.ways = ways_occ W i) := by
        intro W hWocc i n hn
        obtain ⟨n0, hl0, hwys, hfl⟩ := hr_some i n hn
        rw [hg1n] at hl0
        have hc0 := hcnt i n0 hl0
        have hod := hoccdec i
        have hWi := hWocc i
        constructor
        · rcases hfl with hfl | hfl <;> omega
        · intro hdf
          rcases hfl with hfl | hfl
          · rw [hfl] at hdf
            have := hc0.2 hdf
            omega
          · rw [hfl.1] at hdf
            cases hdf
      split
      · next hnew =>
          rw [hg2w, hmod, hmod2]
          have hWocc : ∀ i, ways_occ (m1 ++
              (wid, way_t.markDeleted { way with node_chain := ([] : List Int) })
                :: m2) i = ways_occ m1 i + ways_occ m2 i := by
            intro i
            rw [ways_occ_append, ways_occ_cons]
            simp [way_t.markDeleted]
          refine ⟨hr_s, ?_, ?_, ?_, hr_none _ (by rw [hg1n]; exact h0)⟩
          · rw [← hmod2, ← hmod]
            exact osmMap.SortedKeys.modify (osmMap.SortedKeys.modify hsw _ _) _ _
          · intro p hp x hx
            rcases List.mem_append.mp hp with hp | hp
            · exact hpresfin p (Or.inl hp) x hx
            · rcases List.mem_cons.mp hp with hp | hp
              · rw [hp] at hx
                simp [way_t.markDeleted] at hx
              · exact hpresfin p (Or.inr hp) x hx
          · exact hcntfin _ hWocc
      · next hnew =>
          rw [hg2w, hmod, hera2]
          have hWocc : ∀ i, ways_occ (m1 ++ m2) i =
              ways_occ m1 i + ways_occ m2 i := fun i => ways_occ_append m1 m2 i
          refine ⟨hr_s, ?_, ?_, ?_, hr_none _ (by rw [hg1n]; exact h0)⟩
          · rw [← hera2, ← hmod]
            exact osmMap.SortedKeys.erase (osmMap.SortedKeys.modify hsw _ _) _
          · intro p hp x hx
            exact hpresfin p (List.mem_append.mp hp) x hx
          · exact hcntfin _ hWocc

/-- Both public `node_delete` modes keep the invariant; the short-ways
cascade is a fold of conditional way deletions. -/
theorem refInvP_node_delete {g : osm_t} (h : refInvP g) (nid : Int)
    (short : Bool) :
    refInvP (g.node_delete nid (if short then .shortWays else .default)) := by
  have hstep : ∀ (l : List Int) (g0 : osm_t), refInvP g0 →
      refInvP (l.foldl (fun o wid =>
        match o.ways.lookup wid with
        | some w => if w.node_chain.length = 1 then o.way_delete wid else o
        | none => o) g0) := by
    intro l
    induction l with
    | nil => intro g0 h0; exact h0
    | cons x xs ih =>
        intro g0 h0
        rw [List.foldl_cons]
        refine ih _ ?_
        cases hcase : g0.ways.lookup x with
        | none => simpa [hcase] using h0
        | some w =>
            simp only [hcase]
            split
            · exact refInvP_way_delete h0 x
            · exact h0
  cases short
  · exact refInvP_node_delete_core h nid
  · exact hstep _ _ (refInvP_node_delete_core h nid)

theorem count_take_drop (l : List Int) (n : Nat) (x : Int) :
    List.count x (l.take n) + List.count x (l.drop n) = List.count x l := by
  rw [← List.count_append, List.take_append_drop]

theorem getLastD_eq_getLast {l : List Int} (hne : l ≠ []) (d : Int) :
    l.getLastD d = l.getLast hne := by
  cases l with
  | nil => exact absurd rfl hne
  | cons a t => simp [List.getLastD_eq_getLast?, List.getLast?_eq_getLast]

theorem getLastD_mem {l : List Int} (hne : l ≠ []) (d : Int) :
    l.getLastD d ∈ l := by
  rw [getLastD_eq_getLast hne]
  exact List.getLast_mem hne

theorem dropLast_append_getLastD {l : List Int} (hne : l ≠ []) (d : Int) :
    l.dropLast ++ [l.getLastD d] = l := by
  rw [getLastD_eq_getLast hne]
  exact List.dropLast_append_getLast hne

theorem osmMap.modify_eq_of_lookup_none {α} {m : osmMap α} {k : Int}
    (h : m.lookup k = none) (f : α → α) : m.modify k f = m :=
  osmMap.modify_eq_of_forall_ne ((osmMap.lookup_eq_none_iff _ _).mp h) f

theorem refInvP_relation_transfer_all {G : osm_t} (h : refInvP G)
    (d s : Int) : refInvP (relation_transfer_all G d s) := by
  unfold relation_transfer_all
  split
  · exact h
  · exact refInvP_set_relations _ _ h

/-- `way_t::split` keeps the invariant in all its branches: un-closing a
closed way drops one occurrence of its shared end node together with its
counter; an open split re-distributes the chain over the two ways,
incrementing the cut node's counter exactly when the cut node is shared. -/
theorem refInvP_way_split {g : osm_t} (h : refInvP g) (wid : Int)
    (cutAt : Nat) (cutAtNode : Bool) :
    refInvP (g.way_split wid cutAt cutAtNode).1 := by
  obtain ⟨hsn, hsw, hpres, hcnt, h0⟩ := h
  have hbuild : ∀ (N : osmMap node_t) (W : osmMap way_t)
      (R : osmMap relation_t) (H : List Int),
      osmMap.SortedKeys N → osmMap.SortedKeys W →
      (∀ p ∈ W, ∀ x ∈ p.2.node_chain, (N.lookup x).isSome = true) →
      (∀ i n, N.lookup i = some n → ways_occ W i ≤ n.ways ∧
        (n.flags.deleted = false → n.ways = ways_occ W i)) →
      N.lookup ID_ILLEGAL = none →
      refInvP ⟨N, W, R, H⟩ :=
    fun N W R H a b c d e => ⟨a, b, c, d, e⟩
  unfold osm_t.way_split
  split
  · exact ⟨hsn, hsw, hpres, hcnt, h0⟩
  · next way hl =>
      split
      · exact ⟨hsn, hsw, hpres, hcnt, h0⟩
      · next hlen =>
          dsimp only
          have hwaymem : (wid, way) ∈ g.ways := osmMap.lookup_mem hl
          have hM1s : osmMap.SortedKeys (g.ways.modify wid way_t.mark_dirty) :=
            osmMap.SortedKeys.modify hsw _ _
          have hM1l : (g.ways.modify wid way_t.mark_dirty).lookup wid =
              some way.mark_dirty := by
            rw [osmMap.lookup_modify, if_pos rfl, hl]
            rfl
          have hM1occ : ∀ x, ways_occ (g.ways.modify wid way_t.mark_dirty) x =
              ways_occ g.ways x := by
            intro x
            have hadd := ways_occ_modify hsw hl way_t.mark_dirty x
            have hch : (way_t.mark_dirty way).node_chain = way.node_chain := rfl
            rw [hch] at hadd
            omega
          have hM1mem : ∀ p ∈ g.ways.modify wid way_t.mark_dirty,
              ∀ x ∈ p.2.node_chain, x ∈ way.node_chain ∨
                ∃ q ∈ g.ways, x ∈ q.2.node_chain := by
            intro p hp x hx
            obtain ⟨q, hq, _, hv⟩ := osmMap.mem_modify hp
            rcases hv with hv | hv
            · exact Or.inr ⟨q, hq, hv ▸ hx⟩
            · rw [hv] at hx
              exact Or.inr ⟨q, hq, hx⟩
          split
          · next hclosed =>
              -- closed way: un-close and rotate
              have hCne : way.node_chain ≠ [] := by
                intro hc
                rw [hc] at hlen
                simp at hlen
              have hback := getLastD_mem hCne 0
              have hbacksome : (g.nodes.lookup (way.node_chain.getLastD 0)).isSome = true :=
                hpres (wid, way) hwaymem _ hback
              have hrotmem : ∀ x, x ∈ way.node_chain.dropLast.drop cutAt ++
                  way.node_chain.dropLast.take cutAt → x ∈ way.node_chain := by
                intro x hx
                have hsub : x ∈ way.node_chain.dropLast := by
                  rcases List.mem_append.mp hx with hx | hx
                  · exact List.mem_of_mem_drop hx
                  · exact List.mem_of_mem_take hx
                exact List.dropLast_subset _ hsub
              have hcountrot : ∀ x, List.count x
                  (way.node_chain.dropLast.drop cutAt ++
                    way.node_chain.dropLast.take cutAt) =
                  List.count x way.node_chain.dropLast := by
                intro x
                rw [List.count_append]
                have := count_take_drop way.node_chain.dropLast cutAt x
                omega
              have hcountlast : ∀ x, List.count x way.node_chain.dropLast +
                  (if way.node_chain.getLastD 0 = x then 1 else 0) =
                  List.count x way.node_chain := by
                intro x
                conv_rhs => rw [← dropLast_append_getLastD hCne 0]
                rw [List.count_append]
                have : List.count x [way.node_chain.getLastD 0] =
                    if way.node_chain.getLastD 0 = x then 1 else 0 := by
                  by_cases hc : way.node_chain.getLastD 0 = x
                  · rw [hc]; simp
                  · rw [if_neg hc]
                    refine List.count_eq_zero.mpr ?_
                    simp only [List.mem_singleton]
                    exact fun hh => hc hh.symm
                omega
              have hocc2 : ∀ x, ways_occ
                  ((g.ways.modify wid way_t.mark_dirty).modify wid fun w =>
                    { w with node_chain :=
                      way.node_chain.dropLast.drop cutAt ++
                        way.node_chain.dropLast.take cutAt }) x +
                  (if way.node_chain.getLastD 0 = x then 1 else 0) =
                  ways_occ g.ways x := by
                intro x
                have hadd := ways_occ_modify hM1s hM1l (fun w =>
                  { w with node_chain :=
                    way.node_chain.dropLast.drop cutAt ++
                      way.node_chain.dropLast.take cutAt }) x
                have hch : (way_t.mark_dirty way).node_chain = way.node_chain := rfl
                simp only at hadd
                rw [hch] at hadd
                have h1 := hcountrot x
                have h2 := hcountlast x
                have h3 := hM1occ x
                omega
              refine hbuild _ _ _ _ (osmMap.SortedKeys.modify hsn _ _)
                (osmMap.SortedKeys.modify hM1s _ _) ?_ ?_ ?_
              · intro p hp x hx
                rw [osmMap.lookup_isSome_modify]
                obtain ⟨q, hq, _, hv⟩ := osmMap.mem_modify hp
                rcases hv with hv | hv
                · rw [hv] at hx
                  rcases hM1mem q hq x hx with hx2 | ⟨q2, hq2, hx2⟩
                  · exact hpres (wid, way) hwaymem x hx2
                  · exact hpres q2 hq2 x hx2
                · rw [hv] at hx
                  simp only at hx
                  exact hpres (wid, way) hwaymem x (hrotmem x hx)
              · intro i n hn
                rw [osmMap.lookup_modify] at hn
                have hoc := hocc2 i
                by_cases h1 : i = way.node_chain.getLastD 0
                · rw [if_pos h1] at hn
                  cases hlb : g.nodes.lookup i with
                  | none => rw [hlb] at hn; cases hn
                  | some n0 =>
                      rw [hlb] at hn
                      injection hn with hn
                      have hc0 : ways_occ g.ways i ≤ n0.ways ∧
                          (n0.flags.deleted = false →
                            n0.ways = ways_occ g.ways i) := hcnt i n0 hlb
                      have hcle : List.count i way.node_chain ≤
                          ways_occ g.ways i := count_le_ways_occ hwaymem i
                      have hcpos : 1 ≤ List.count i way.node_chain := by
                        rw [h1]
                        exact List.count_pos_iff.mpr hback
                      rw [← hn]
                      dsimp only
                      rw [if_pos h1.symm] at hoc
                      constructor
                      · omega
                      · intro hdf
                        have := hc0.2 hdf
                        omega
                · rw [if_neg h1] at hn
                  rw [if_neg (fun hc => h1 hc.symm)] at hoc
                  have hc0 := hcnt i n hn
                  constructor
                  · omega
                  · intro hdf
                    have := hc0.2 hdf
                    omega
              · rw [osmMap.lookup_modify]
                split <;> simp [h0]
          · next hopen =>
              -- open way: cut into head and tail segments
              have hCsplit : ∀ x, List.count x (way.node_chain.take cutAt) +
                  List.count x (way.node_chain.drop cutAt) =
                  List.count x way.node_chain :=
                fun x => count_take_drop way.node_chain cutAt x
              have hheadsub : ∀ x, x ∈ way.node_chain.take
                  (cutAt + (if cutAtNode then 1 else 0)) →
                  x ∈ way.node_chain := fun x hx => List.mem_of_mem_take hx
              have htailsub : ∀ x, x ∈ way.node_chain.drop cutAt →
                  x ∈ way.node_chain := fun x hx => List.mem_of_mem_drop hx
              -- occurrence ledger for the head rewrite
              have hocc2 : ∀ x, ways_occ
                  ((g.ways.modify wid way_t.mark_dirty).modify wid fun w =>
                    { w with node_chain := way.node_chain.take (cutAt + (if cutAtNode then 1 else 0)) }) x +
                  List.count x way.node_chain =
                  ways_occ g.ways x + List.count x (way.node_chain.take
                    (cutAt + (if cutAtNode then 1 else 0))) := by
                intro x
                have hadd := ways_occ_modify hM1s hM1l (fun w =>
                  { w with node_chain := way.node_chain.take (cutAt + (if cutAtNode then 1 else 0)) }) x
                have hch : (way_t.mark_dirty way).node_chain = way.node_chain := rfl
                simp only at hadd
                rw [hch] at hadd
                have h3 := hM1occ x
                omega
              have hM2s : osmMap.SortedKeys
                  ((g.ways.modify wid way_t.mark_dirty).modify wid fun w =>
                    { w with node_chain := way.node_chain.take (cutAt + (if cutAtNode then 1 else 0)) }) :=
                osmMap.SortedKeys.modify hM1s _ _
              have hM2pres : ∀ p ∈ ((g.ways.modify wid way_t.mark_dirty).modify
                    wid fun w => { w with node_chain := way.node_chain.take (cutAt + (if cutAtNode then 1 else 0)) }),
                  ∀ x ∈ p.2.node_chain, (g.nodes.lookup x).isSome = true := by
                intro p hp x hx
                obtain ⟨q, hq, _, hv⟩ := osmMap.mem_modify hp
                rcases hv with hv | hv
                · rw [hv] at hx
                  rcases hM1mem q hq x hx with hx2 | ⟨q2, hq2, hx2⟩
                  · exact hpres (wid, way) hwaymem x hx2
                  · exact hpres q2 hq2 x hx2
                · rw [hv] at hx
                  simp only at hx
                  exact hpres (wid, way) hwaymem x (hheadsub x hx)
              -- relate the cut node to the head of the tail
              have hcutD : way.node_chain.getD cutAt 0 =
                  ((way.node_chain.drop cutAt).head?).getD 0 := by
                rw [List.head?_drop, List.getD_eq_getElem?_getD]
              have htake1 : way.node_chain.take (cutAt + 1) =
                  way.node_chain.take cutAt ++
                    ((way.node_chain.drop cutAt).head?).toList := by
                rw [List.head?_drop]
                exact List.take_succ
              split
              · next hshort =>
                  split
                  · next front heq =>
                      -- degenerate tail [front]
                      have hfrontC : front ∈ way.node_chain :=
                        htailsub front (List.mem_of_mem_head? heq)
                      have hfrontsome : (g.nodes.lookup front).isSome = true :=
                        hpres (wid, way) hwaymem front hfrontC
                      have hne : way.node_chain.drop cutAt ≠ [] := by
                        intro hc
                        rw [hc] at heq
                        cases heq
                      have hlen1 : (way.node_chain.drop cutAt).length = 1 := by
                        have := List.length_pos.mpr hne
                        omega
                      have htail1 : way.node_chain.drop cutAt = [front] := by
                        obtain ⟨a, ha⟩ := List.length_eq_one.mp hlen1
                        rw [ha] at heq
                        injection heq with heq
                        rw [ha, heq]
                      have hcountC : ∀ x, List.count x way.node_chain =
                          List.count x (way.node_chain.take cutAt) +
                          (if front = x then 1 else 0) := by
                        intro x
                        have h1 := hCsplit x
                        rw [htail1] at h1
                        have h2 : List.count x [front] =
                            if front = x then 1 else 0 := by
                          by_cases hc : front = x
                          · rw [hc]; simp
                          · rw [if_neg hc]
                            refine List.count_eq_zero.mpr ?_
                            simp only [List.mem_singleton]
                            exact fun hh => hc hh.symm
                        omega
                      by_cases hcn : cutAtNode = true
                      · have hone : (if cutAtNode = true then 1 else 0) = 1 := by
                          rw [if_pos hcn]
                        rw [hone] at hocc2 hM2s hM2pres ⊢
                        have hcut : way.node_chain.getD cutAt 0 = front := by
                          rw [hcutD, heq]
                          rfl
                        have hhead : ∀ x, List.count x
                            (way.node_chain.take (cutAt + 1)) =
                            List.count x way.node_chain := by
                          intro x
                          have := hcountC x
                          rw [htake1, heq]
                          rw [List.count_append]
                          have h2 : List.count x (some front).toList =
                              if front = x then 1 else 0 := by
                            by_cases hc : front = x
                            · rw [hc]; simp
                            · rw [if_neg hc]
                              refine List.count_eq_zero.mpr ?_
                              simp only [Option.toList_some, List.mem_singleton]
                              exact fun hh => hc hh.symm
                          omega
                        rw [if_pos hcn, hcut]
                        refine hbuild _ _ _ _
                          (osmMap.SortedKeys.modify
                            (osmMap.SortedKeys.modify hsn _ _) _ _)
                          hM2s ?_ ?_ ?_
                        · intro p hp x hx
                          rw [osmMap.lookup_isSome_modify,
                            osmMap.lookup_isSome_modify]
                          exact hM2pres p hp x hx
                        · intro i n hn
                          rw [osmMap.lookup_modify] at hn
                          have hoc := hocc2 i
                          rw [hhead i] at hoc
                          by_cases h1 : i = front
                          · rw [if_pos h1, osmMap.lookup_modify,
                              if_pos h1, h1] at hn
                            cases hlb : g.nodes.lookup front with
                            | none => rw [hlb] at hn; cases hn
                            | some n0 =>
                                rw [hlb] at hn
                                simp only [Option.map_some'] at hn
                                injection hn with hn
                                have hc0 := hcnt front n0 hlb
                                rw [h1] at hoc
                                rw [← hn, h1]
                                dsimp only
                                constructor
                                · omega
                                · intro hdf
                                  have := hc0.2 hdf
                                  omega
                          · rw [if_neg h1, osmMap.lookup_modify,
                              if_neg h1] at hn
                            have hc0 := hcnt i n hn
                            constructor
                            · omega
                            · intro hdf
                              have := hc0.2 hdf
                              omega
                        · rw [osmMap.lookup_modify]
                          split
                          · rw [osmMap.lookup_modify]
                            split <;> simp [h0]
                          · rw [osmMap.lookup_modify]
                            split <;> simp [h0]
                      · have hzero : (if cutAtNode = true then 1 else 0) = 0 := by
                          rw [if_neg hcn]
                        rw [hzero] at hocc2 hM2s hM2pres ⊢
                        have hhead : ∀ x, List.count x
                            (way.node_chain.take (cutAt + 0)) +
                            (if front = x then 1 else 0) =
                            List.count x way.node_chain := by
                          intro x
                          have := hcountC x
                          rw [show cutAt + 0 = cutAt from rfl]
                          omega
                        rw [if_neg hcn]
                        refine hbuild _ _ _ _
                          (osmMap.SortedKeys.modify hsn _ _) hM2s ?_ ?_ ?_
                        · intro p hp x hx
                          rw [osmMap.lookup_isSome_modify]
                          exact hM2pres p hp x hx
                        · intro i n hn
                          rw [osmMap.lookup_modify] at hn
                          have hoc := hocc2 i
                          have hh := hhead i
                          by_cases h1 : i = front
                          · rw [if_pos h1, h1] at hn
                            cases hlb : g.nodes.lookup front with
                            | none => rw [hlb] at hn; cases hn
                            | some n0 =>
                                rw [hlb] at hn
                                simp only [Option.map_some'] at hn
                                injection hn with hn
                                have hc0 := hcnt front n0 hlb
                                have hcle : List.count front way.node_chain ≤
                                    ways_occ g.ways front :=
                                  count_le_ways_occ hwaymem front
                                have hcpos : 1 ≤ List.count front way.node_chain :=
                                  List.count_pos_iff.mpr hfrontC
                                rw [← hn]
                                dsimp only
                                rw [if_pos h1.symm] at hh
                                rw [h1] at hoc hh
                                rw [h1]
                                constructor
                                · omega
                                · intro hdf
                                  have := hc0.2 hdf
                                  omega
                          · rw [if_neg h1] at hn
                            have hc0 := hcnt i n hn
                            rw [if_neg (fun hc => h1 hc.symm)] at hh
                            constructor
                            · omega
                            · intro hdf
                              have := hc0.2 hdf
                              omega
                        · rw [osmMap.lookup_modify]
                          split <;> simp [h0]
                  · next heq =>
                      -- empty tail: nothing moves
                      have htail0 : way.node_chain.drop cutAt = [] :=
                        List.head?_eq_none_iff.mp heq
                      have hcountC : ∀ x, List.count x way.node_chain =
                          List.count x (way.node_chain.take cutAt) := by
                        intro x
                        have h1 := hCsplit x
                        rw [htail0] at h1
                        simpa using h1.symm
                      by_cases hcn : cutAtNode = true
                      · have hone : (if cutAtNode = true then 1 else 0) = 1 := by
                          rw [if_pos hcn]
                        rw [hone] at hocc2 hM2s hM2pres ⊢
                        have hcut : way.node_chain.getD cutAt 0 = ID_ILLEGAL := by
                          rw [hcutD, heq]
                          rfl
                        have hnofix : g.nodes.modify
                            (way.node_chain.getD cutAt 0) (fun n =>
                              { n with ways := n.ways + 1 }) = g.nodes := by
                          rw [hcut]
                          exact osmMap.modify_eq_of_lookup_none h0 _
                        have hhead : ∀ x, List.count x
                            (way.node_chain.take (cutAt + 1)) =
                            List.count x way.node_chain := by
                          intro x
                          rw [htake1, heq]
                          simp only [Option.toList_none, List.append_nil]
                          exact (hcountC x).symm
                        rw [if_pos hcn, hnofix]
                        refine hbuild _ _ _ _ hsn hM2s hM2pres ?_ h0
                        intro i n hn
                        have hoc := hocc2 i
                        rw [hhead i] at hoc
                        have hc0 := hcnt i n hn
                        constructor
                        · omega
                        · intro hdf
                          have := hc0.2 hdf
                          omega
                      · have hzero : (if cutAtNode = true then 1 else 0) = 0 := by
                          rw [if_neg hcn]
                        rw [hzero] at hocc2 hM2s hM2pres ⊢
                        have hhead : ∀ x, List.count x
                            (way.node_chain.take (cutAt + 0)) =
                            List.count x way.node_chain := by
                          intro x
                          rw [show cutAt + 0 = cutAt from rfl]
                          exact (hcountC x).symm
                        rw [if_neg hcn]
                        refine hbuild _ _ _ _ hsn hM2s hM2pres ?_ h0
                        intro i n hn
                        have hoc := hocc2 i
                        rw [hhead i] at hoc
                        have hc0 := hcnt i n hn
                        constructor
                        · omega
                        · intro hdf
                          have := hc0.2 hdf
                          omega
              · next hlong =>
                  -- a real new way is created
                  have htailne : way.node_chain.drop cutAt ≠ [] := by
                    intro hc
                    rw [hc] at hlong
                    simp at hlong
                  obtain ⟨front, heq⟩ : ∃ f,
                      (way.node_chain.drop cutAt).head? = some f := by
                    cases hfr : (way.node_chain.drop cutAt).head? with
                    | none => exact absurd (List.head?_eq_none_iff.mp hfr) htailne
                    | some f => exact ⟨f, rfl⟩
                  have hfrontC : front ∈ way.node_chain :=
                    htailsub front (List.mem_of_mem_head? heq)
                  have hfrontsome : (g.nodes.lookup front).isSome = true :=
                    hpres (wid, way) hwaymem front hfrontC
                  -- count of head and tail against the original chain
                  have hheadtail : ∀ x,
                      List.count x (way.node_chain.take
                        (cutAt + (if cutAtNode then 1 else 0))) +
                      List.count x (way.node_chain.drop cutAt) =
                      List.count x way.node_chain +
                        (if cutAtNode then (if front = x then 1 else 0) else 0) := by
                    intro x
                    cases hcn : cutAtNode with
                    | true =>
                        rw [show cutAt + (if true then 1 else 0) = cutAt + 1
                          from rfl, htake1, heq]
                        rw [List.count_append]
                        have h2 : List.count x (some front).toList =
                            if front = x then 1 else 0 := by
                          by_cases hc : front = x
                          · rw [hc]; simp
                          · rw [if_neg hc]
                            refine List.count_eq_zero.mpr ?_
                            simp only [Option.toList_some, List.mem_singleton]
                            exact fun hh => hc hh.symm
                        have h1 := hCsplit x
                        simp only [if_true]
                        omega
                    | false =>
                        rw [show cutAt + (if false then 1 else 0) = cutAt
                          from rfl]
                        rw [if_neg Bool.false_ne_true]
                        have h1 := hCsplit x
                        omega
                  -- the two final chains partition head and tail
                  have hpart : ∀ x,
                      List.count x (if (way.node_chain.take
                          (cutAt + (if cutAtNode then 1 else 0))).length <
                          (way.node_chain.drop cutAt).length then
                          way.node_chain.drop cutAt
                        else way.node_chain.take
                          (cutAt + (if cutAtNode then 1 else 0))) +
                      List.count x (if (way.node_chain.take
                          (cutAt + (if cutAtNode then 1 else 0))).length <
                          (way.node_chain.drop cutAt).length then
                          way.node_chain.take
                            (cutAt + (if cutAtNode then 1 else 0))
                        else way.node_chain.drop cutAt) =
                      List.count x (way.node_chain.take
                        (cutAt + (if cutAtNode then 1 else 0))) +
                      List.count x (way.node_chain.drop cutAt) := by
                    intro x
                    by_cases hlc : (way.node_chain.take
                        (cutAt + (if cutAtNode then 1 else 0))).length <
                        (way.node_chain.drop cutAt).length
                    · rw [if_pos hlc, if_pos hlc]
                      omega
                    · rw [if_neg hlc, if_neg hlc]
                  have hcutfront : way.node_chain.getD cutAt 0 = front := by
                    rw [hcutD, heq]
                    rfl
                  have hfront0 : ID_ILLEGAL ≠ front := by
                    intro hc
                    rw [← hc] at hfrontsome
                    rw [h0] at hfrontsome
                    cases hfrontsome
                  have hM2l : ((g.ways.modify wid way_t.mark_dirty).modify wid fun w => { w with node_chain := way.node_chain.take (cutAt + (if cutAtNode then 1 else 0)) }).lookup wid =
                      some { way.mark_dirty with node_chain := way.node_chain.take (cutAt + (if cutAtNode then 1 else 0)) } := by
                    rw [osmMap.lookup_modify, if_pos rfl, hM1l]
                    rfl
                  have hM3s : osmMap.SortedKeys (((g.ways.modify wid way_t.mark_dirty).modify wid fun w => { w with node_chain := way.node_chain.take (cutAt + (if cutAtNode then 1 else 0)) }).modify wid fun w => { w with node_chain := (if (way.node_chain.take (cutAt + (if cutAtNode then 1 else 0))).length < (way.node_chain.drop cutAt).length then way.node_chain.drop cutAt else way.node_chain.take (cutAt + (if cutAtNode then 1 else 0))) }) :=
                    osmMap.SortedKeys.modify hM2s _ _
                  have hocc3 : ∀ x, ways_occ (((g.ways.modify wid way_t.mark_dirty).modify wid fun w => { w with node_chain := way.node_chain.take (cutAt + (if cutAtNode then 1 else 0)) }).modify wid fun w => { w with node_chain := (if (way.node_chain.take (cutAt + (if cutAtNode then 1 else 0))).length < (way.node_chain.drop cutAt).length then way.node_chain.drop cutAt else way.node_chain.take (cutAt + (if cutAtNode then 1 else 0))) }) x + List.count x (way.node_chain.take (cutAt + (if cutAtNode then 1 else 0))) =
                      ways_occ ((g.ways.modify wid way_t.mark_dirty).modify wid fun w => { w with node_chain := way.node_chain.take (cutAt + (if cutAtNode then 1 else 0)) }) x + List.count x (if (way.node_chain.take (cutAt + (if cutAtNode then 1 else 0))).length < (way.node_chain.drop cutAt).length then way.node_chain.drop cutAt else way.node_chain.take (cutAt + (if cutAtNode then 1 else 0))) := by
                    intro x
                    have hadd := ways_occ_modify hM2s hM2l
                      (fun w => { w with node_chain := (if (way.node_chain.take (cutAt + (if cutAtNode then 1 else 0))).length < (way.node_chain.drop cutAt).length then way.node_chain.drop cutAt else way.node_chain.take (cutAt + (if cutAtNode then 1 else 0))) }) x
                    dsimp only at hadd
                    omega
                  have hfreshW : ∀ p ∈ (((g.ways.modify wid way_t.mark_dirty).modify wid fun w => { w with node_chain := way.node_chain.take (cutAt + (if cutAtNode then 1 else 0)) }).modify wid fun w => { w with node_chain := (if (way.node_chain.take (cutAt + (if cutAtNode then 1 else 0))).length < (way.node_chain.drop cutAt).length then way.node_chain.drop cutAt else way.node_chain.take (cutAt + (if cutAtNode then 1 else 0))) }), p.1 ≠ osm_new_id (((g.ways.modify wid way_t.mark_dirty).modify wid fun w => { w with node_chain := way.node_chain.take (cutAt + (if cutAtNode then 1 else 0)) }).modify wid fun w => { w with node_chain := (if (way.node_chain.take (cutAt + (if cutAtNode then 1 else 0))).length < (way.node_chain.drop cutAt).length then way.node_chain.drop cutAt else way.node_chain.take (cutAt + (if cutAtNode then 1 else 0))) }) :=
                    (osmMap.lookup_eq_none_iff _ _).mp
                      (osmMap.lookup_new_id_none hM3s)
                  have hocc4 : ∀ x, ways_occ ((((g.ways.modify wid way_t.mark_dirty).modify wid fun w => { w with node_chain := way.node_chain.take (cutAt + (if cutAtNode then 1 else 0)) }).modify wid fun w => { w with node_chain := (if (way.node_chain.take (cutAt + (if cutAtNode then 1 else 0))).length < (way.node_chain.drop cutAt).length then way.node_chain.drop cutAt else way.node_chain.take (cutAt + (if cutAtNode then 1 else 0))) }).insert (osm_new_id (((g.ways.modify wid way_t.mark_dirty).modify wid fun w => { w with node_chain := way.node_chain.take (cutAt + (if cutAtNode then 1 else 0)) }).modify wid fun w => { w with node_chain := (if (way.node_chain.take (cutAt + (if cutAtNode then 1 else 0))).length < (way.node_chain.drop cutAt).length then way.node_chain.drop cutAt else way.node_chain.take (cutAt + (if cutAtNode then 1 else 0))) }))
                      { id := osm_new_id (((g.ways.modify wid way_t.mark_dirty).modify wid fun w => { w with node_chain := way.node_chain.take (cutAt + (if cutAtNode then 1 else 0)) }).modify wid fun w => { w with node_chain := (if (way.node_chain.take (cutAt + (if cutAtNode then 1 else 0))).length < (way.node_chain.drop cutAt).length then way.node_chain.drop cutAt else way.node_chain.take (cutAt + (if cutAtNode then 1 else 0))) }), version := 0,
                         flags := flags_t.clear.markDirty,
                         tags := tag_list_t.copy way.tags,
                         node_chain := (if (way.node_chain.take (cutAt + (if cutAtNode then 1 else 0))).length < (way.node_chain.drop cutAt).length then way.node_chain.take (cutAt + (if cutAtNode then 1 else 0)) else way.node_chain.drop cutAt) }) x =
                      List.count x (if (way.node_chain.take (cutAt + (if cutAtNode then 1 else 0))).length < (way.node_chain.drop cutAt).length then way.node_chain.take (cutAt + (if cutAtNode then 1 else 0)) else way.node_chain.drop cutAt) + ways_occ (((g.ways.modify wid way_t.mark_dirty).modify wid fun w => { w with node_chain := way.node_chain.take (cutAt + (if cutAtNode then 1 else 0)) }).modify wid fun w => { w with node_chain := (if (way.node_chain.take (cutAt + (if cutAtNode then 1 else 0))).length < (way.node_chain.drop cutAt).length then way.node_chain.drop cutAt else way.node_chain.take (cutAt + (if cutAtNode then 1 else 0))) }) x := by
                    intro x
                    rw [ways_occ_insert_fresh hfreshW]
                  have hledger : ∀ x, ways_occ ((((g.ways.modify wid way_t.mark_dirty).modify wid fun w => { w with node_chain := way.node_chain.take (cutAt + (if cutAtNode then 1 else 0)) }).modify wid fun w => { w with node_chain := (if (way.node_chain.take (cutAt + (if cutAtNode then 1 else 0))).length < (way.node_chain.drop cutAt).length then way.node_chain.drop cutAt else way.node_chain.take (cutAt + (if cutAtNode then 1 else 0))) }).insert (osm_new_id (((g.ways.modify wid way_t.mark_dirty).modify wid fun w => { w with node_chain := way.node_chain.take (cutAt + (if cutAtNode then 1 else 0)) }).modify wid fun w => { w with node_chain := (if (way.node_chain.take (cutAt + (if cutAtNode then 1 else 0))).length < (way.node_chain.drop cutAt).length then way.node_chain.drop cutAt else way.node_chain.take (cutAt + (if cutAtNode then 1 else 0))) }))
                      { id := osm_new_id (((g.ways.modify wid way_t.mark_dirty).modify wid fun w => { w with node_chain := way.node_chain.take (cutAt + (if cutAtNode then 1 else 0)) }).modify wid fun w => { w with node_chain := (if (way.node_chain.take (cutAt + (if cutAtNode then 1 else 0))).length < (way.node_chain.drop cutAt).length then way.node_chain.drop cutAt else way.node_chain.take (cutAt + (if cutAtNode then 1 else 0))) }), version := 0,
                         flags := flags_t.clear.markDirty,
                         tags := tag_list_t.copy way.tags,
                         node_chain := (if (way.node_chain.take (cutAt + (if cutAtNode then 1 else 0))).length < (way.node_chain.drop cutAt).length then way.node_chain.take (cutAt + (if cutAtNode then 1 else 0)) else way.node_chain.drop cutAt) }) x =
                      ways_occ g.ways x +
                        (if cutAtNode = true then (if front = x then 1 else 0)
                         else 0) := by
                    intro x
                    have h2 := hocc2 x
                    have h3 := hocc3 x
                    have h4 := hocc4 x
                    have h5 := hpart x
                    have h6 := hheadtail x
                    omega
                  refine refInvP_relation_transfer_all ?_ _ _
                  refine hbuild _ _ _ _ ?_ ?_ ?_ ?_ ?_
                  · by_cases hcn : cutAtNode = true
                    · rw [if_pos hcn]
                      exact osmMap.SortedKeys.modify hsn _ _
                    · rw [if_neg hcn]
                      exact hsn
                  · exact osmMap.SortedKeys.insert hM3s _ _
                  · intro p hp x hx
                    have hnodes : (g.nodes.lookup x).isSome = true := by
                      rcases osmMap.mem_insert hp with h5 | h5
                      · rw [h5] at hx
                        dsimp only at hx
                        have hxC : x ∈ way.node_chain := by
                          by_cases hlc : (way.node_chain.take (cutAt + (if cutAtNode then 1 else 0))).length < (way.node_chain.drop cutAt).length
                          · rw [if_pos hlc] at hx
                            exact hheadsub x hx
                          · rw [if_neg hlc] at hx
                            exact htailsub x hx
                        exact hpres (wid, way) hwaymem x hxC
                      · obtain ⟨q, hq, _, hv⟩ := osmMap.mem_modify h5
                        rcases hv with hv | hv
                        · rw [hv] at hx
                          exact hM2pres q hq x hx
                        · rw [hv] at hx
                          dsimp only at hx
                          have hxC : x ∈ way.node_chain := by
                            by_cases hlc : (way.node_chain.take (cutAt + (if cutAtNode then 1 else 0))).length < (way.node_chain.drop cutAt).length
                            · rw [if_pos hlc] at hx
                              exact htailsub x hx
                            · rw [if_neg hlc] at hx
                              exact hheadsub x hx
                          exact hpres (wid, way) hwaymem x hxC
                    by_cases hcn : cutAtNode = true
                    · rw [if_pos hcn, osmMap.lookup_isSome_modify]
                      exact hnodes
                    · rw [if_neg hcn]
                      exact hnodes
                  · dsimp only
                    intro i n hn
                    have hld := hledger i
                    by_cases hcn : cutAtNode = true
                    · rw [if_pos hcn] at hn
                      rw [hcutfront, osmMap.lookup_modify] at hn
                      by_cases h1 : i = front
                      · rw [if_pos h1, h1] at hn
                        cases hlb : g.nodes.lookup front with
                        | none => rw [hlb] at hn; cases hn
                        | some n0 =>
                            rw [hlb] at hn
                            simp only [Option.map_some'] at hn
                            injection hn with hn
                            have hc0 := hcnt front n0 hlb
                            have hdel : (if cutAtNode = true then
                                (if front = i then (1 : Nat) else 0) else 0)
                                = 1 := by
                              rw [if_pos hcn, if_pos h1.symm]
                            rw [hdel] at hld
                            rw [h1] at hld
                            rw [← hn, h1]
                            dsimp only
                            constructor
                            · omega
                            · intro hdf
                              have := hc0.2 hdf
                              omega
                      · rw [if_neg h1] at hn
                        have hc0 := hcnt i n hn
                        have hdel : (if cutAtNode = true then
                            (if front = i then (1 : Nat) else 0) else 0)
                            = 0 := by
                          rw [if_pos hcn, if_neg (fun hc => h1 hc.symm)]
                        rw [hdel] at hld
                        constructor
                        · omega
                        · intro hdf
                          have := hc0.2 hdf
                          omega
                    · rw [if_neg hcn] at hn
                      have hc0 := hcnt i n hn
                      have hdel : (if cutAtNode = true then
                          (if front = i then (1 : Nat) else 0) else 0)
                          = 0 := by
                        rw [if_neg hcn]
                      rw [hdel] at hld
                      constructor
                      · omega
                      · intro hdf
                        have := hc0.2 hdf
                        omega
                  · by_cases hcn : cutAtNode = true
                    · rw [if_pos hcn, hcutfront, osmMap.lookup_modify,
                        if_neg hfront0]
                      exact h0
                    · rw [if_neg hcn]
                      exact h0

/-- Counting specification of the inner `mergeNodes` chain rewrite: the
processed count is capped by the budget, every processed occurrence of
`remove` disappears, `keep` gains exactly the replacement count, other ids
are untouched, and no new ids appear. -/
theorem join_chain_spec (keep remove : Int) (hkr : keep ≠ remove) :
    ∀ (c : List Int) (prev : Option Int) (budget : Nat),
      (join_chain keep remove c prev budget).2.1 =
          min budget (List.count remove c) ∧
      (join_chain keep remove c prev budget).2.2 ≤
          (join_chain keep remove c prev budget).2.1 ∧
      List.count remove (join_chain keep remove c prev budget).1 =
          List.count remove c - min budget (List.count remove c) ∧
      List.count keep (join_chain keep remove c prev budget).1 =
          List.count keep c + (join_chain keep remove c prev budget).2.2 ∧
      (∀ x, x ≠ keep → x ≠ remove →
        List.count x (join_chain keep remove c prev budget).1 =
          List.count x c) ∧
      (∀ x ∈ (join_chain keep remove c prev budget).1, x = keep ∨ x ∈ c) := by
  intro c
  have hcons : ∀ (z x : Int) (l : List Int),
      List.count x (z :: l) = List.count x l + (if x = z then 1 else 0) := by
    intro z x l
    simp only [List.count_cons, beq_iff_eq]
    by_cases hzx : x = z
    · rw [if_pos hzx.symm, if_pos hzx]
    · rw [if_neg (fun hh => hzx hh.symm), if_neg hzx]
  induction c with
  | nil =>
      intro prev budget
      simp only [join_chain]
      refine ⟨by simp, by simp, by simp, by simp,
        by intro x _ _; trivial, by intro x hx; cases hx⟩
  | cons y rest ih =>
      intro prev budget
      simp only [join_chain]
      by_cases h1 : (decide (budget ≠ 0) && (y == remove)) = true
      · rw [if_pos h1]
        rw [Bool.and_eq_true] at h1
        have hb : budget ≠ 0 := of_decide_eq_true h1.1
        have hy : y = remove := by simpa using h1.2
        have h9 : List.count remove (y :: rest) = List.count remove rest + 1 := by
          rw [hcons, if_pos hy.symm]
        have h10 : List.count keep (y :: rest) = List.count keep rest := by
          rw [hcons, if_neg (fun hh => hkr (hh.trans hy))]
          omega
        by_cases h2 : (prev == some keep || rest.head? == some keep) = true
        · rw [if_pos h2]
          obtain ⟨ha, hb2, hc, hd, he, hf⟩ := ih prev (budget - 1)
          dsimp only
          refine ⟨by omega, by omega, by omega, by omega, ?_, ?_⟩
          · intro x hx1 hx2
            have h11 : List.count x (y :: rest) = List.count x rest := by
              rw [hcons, if_neg (fun hh => hx2 (hh.trans hy))]
              omega
            have h12 := he x hx1 hx2
            omega
          · intro x hx
            rcases hf x hx with hx | hx
            · exact Or.inl hx
            · exact Or.inr (List.mem_cons_of_mem _ hx)
        · rw [if_neg h2]
          obtain ⟨ha, hb2, hc, hd, he, hf⟩ := ih (some keep) (budget - 1)
          dsimp only
          have h13 : List.count remove
              (keep :: (join_chain keep remove rest (some keep) (budget - 1)).1) =
              List.count remove
                (join_chain keep remove rest (some keep) (budget - 1)).1 := by
            rw [hcons, if_neg (fun hh => hkr hh.symm)]
            omega
          have h14 : List.count keep
              (keep :: (join_chain keep remove rest (some keep) (budget - 1)).1) =
              List.count keep
                (join_chain keep remove rest (some keep) (budget - 1)).1 + 1 := by
            rw [hcons, if_pos rfl]
          refine ⟨by omega, by omega, by omega, by omega, ?_, ?_⟩
          · intro x hx1 hx2
            have h11 : List.count x (y :: rest) = List.count x rest := by
              rw [hcons, if_neg (fun hh => hx2 (hh.trans hy))]
              omega
            have h15 : List.count x
                (keep :: (join_chain keep remove rest (some keep) (budget - 1)).1) =
                List.count x
                  (join_chain keep remove rest (some keep) (budget - 1)).1 := by
              rw [hcons, if_neg hx1]
              omega
            have h12 := he x hx1 hx2
            omega
          · intro x hx
            rcases List.mem_cons.mp hx with hx | hx
            · exact Or.inl hx
            · rcases hf x hx with hx | hx
              · exact Or.inl hx
              · exact Or.inr (List.mem_cons_of_mem _ hx)
      · rw [if_neg h1]
        obtain ⟨ha, hb2, hc, hd, he, hf⟩ := ih (some y) budget
        have hcase : budget = 0 ∨ y ≠ remove := by
          rw [Bool.and_eq_true] at h1
          by_cases hb : budget = 0
          · exact Or.inl hb
          · right
            intro hy
            exact h1 ⟨decide_eq_true hb, by simp [hy]⟩
        dsimp only
        have h8 : ∀ x, List.count x
            (y :: (join_chain keep remove rest (some y) budget).1) =
            List.count x (join_chain keep remove rest (some y) budget).1 +
              (if x = y then 1 else 0) :=
          fun x => hcons y x (join_chain keep remove rest (some y) budget).1
        have h9 : ∀ x, List.count x (y :: rest) =
            List.count x rest + (if x = y then 1 else 0) :=
          fun x => hcons y x rest
        refine ⟨?_, by omega, ?_, ?_, ?_, ?_⟩
        · have h9r := h9 remove
          rcases hcase with hb | hy
          · omega
          · rw [if_neg (fun hh => hy hh.symm)] at h9r
            omega
        · have h9r := h9 remove
          have h8r := h8 remove
          rcases hcase with hb | hy
          · omega
          · rw [if_neg (fun hh => hy hh.symm)] at h9r h8r
            omega
        · have h9k := h9 keep
          have h8k := h8 keep
          omega
        · intro x hx1 hx2
          have h9x := h9 x
          have h8x := h8 x
          have h12 := he x hx1 hx2
          omega
        · intro x hx
          rcases List.mem_cons.mp hx with hx | hx
          · exact Or.inr (by rw [hx]; exact List.mem_cons_self _ _)
          · rcases hf x hx with hx | hx
            · exact Or.inl hx
            · exact Or.inr (List.mem_cons_of_mem _ hx)

/-- Counting specification of the outer `mergeNodes` way loop. -/
theorem merge_rewire_spec (keep remove : Int) (hkr : keep ≠ remove) :
    ∀ (ws : osmMap way_t) (budget : Nat),
      (merge_rewire_ways keep remove ws budget).2.1 =
          budget - min budget (ways_occ ws remove) ∧
      ways_occ (merge_rewire_ways keep remove ws budget).1 remove =
          ways_occ ws remove - min budget (ways_occ ws remove) ∧
      ways_occ (merge_rewire_ways keep remove ws budget).1 keep =
          ways_occ ws keep + (merge_rewire_ways keep remove ws budget).2.2 ∧
      (∀ x, x ≠ keep → x ≠ remove →
        ways_occ (merge_rewire_ways keep remove ws budget).1 x =
          ways_occ ws x) ∧
      osmMap.keys (merge_rewire_ways keep remove ws budget).1 =
        osmMap.keys ws ∧
      (∀ p ∈ (merge_rewire_ways keep remove ws budget).1,
        ∀ x ∈ p.2.node_chain, x = keep ∨ ∃ q ∈ ws, x ∈ q.2.node_chain) := by
  intro ws
  induction ws with
  | nil =>
      intro budget
      simp only [merge_rewire_ways]
      refine ⟨by simp [ways_occ], by simp [ways_occ], by simp [ways_occ],
        by intro x _ _; first | rfl | trivial,
        by first | rfl | trivial, by intro p hp; cases hp⟩
  | cons q rest ih =>
      obtain ⟨wid, w⟩ := q
      intro budget
      simp only [merge_rewire_ways]
      by_cases hb : budget ≠ 0
      · rw [if_pos hb]
        dsimp only
        obtain ⟨hj1, hj2, hj3, hj4, hj5, hj6⟩ :=
          join_chain_spec keep remove hkr w.node_chain none budget
        obtain ⟨hi1, hi2, hi3, hi4, hi5, hi6⟩ := ih (budget - (join_chain keep remove w.node_chain none budget).2.1)
        have hchain : ((if (join_chain keep remove w.node_chain none budget).2.1 ≠ 0 then { w.mark_dirty with node_chain := (join_chain keep remove w.node_chain none budget).1 } else w) : way_t).node_chain =
            (if (join_chain keep remove w.node_chain none budget).2.1 ≠ 0 then (join_chain keep remove w.node_chain none budget).1 else w.node_chain) := by
          split <;> rfl
        have hcrem : List.count remove ((if (join_chain keep remove w.node_chain none budget).2.1 ≠ 0 then { w.mark_dirty with node_chain := (join_chain keep remove w.node_chain none budget).1 } else w) : way_t).node_chain =
            List.count remove w.node_chain - (join_chain keep remove w.node_chain none budget).2.1 := by
          rw [hchain]
          by_cases hr0 : (join_chain keep remove w.node_chain none budget).2.1 ≠ 0
          · rw [if_pos hr0]
            omega
          · rw [if_neg hr0]
            omega
        have hckeep : List.count keep ((if (join_chain keep remove w.node_chain none budget).2.1 ≠ 0 then { w.mark_dirty with node_chain := (join_chain keep remove w.node_chain none budget).1 } else w) : way_t).node_chain =
            List.count keep w.node_chain + (join_chain keep remove w.node_chain none budget).2.2 := by
          rw [hchain]
          by_cases hr0 : (join_chain keep remove w.node_chain none budget).2.1 ≠ 0
          · rw [if_pos hr0]
            omega
          · rw [if_neg hr0]
            omega
        have hcx : ∀ x, x ≠ keep → x ≠ remove →
            List.count x ((if (join_chain keep remove w.node_chain none budget).2.1 ≠ 0 then { w.mark_dirty with node_chain := (join_chain keep remove w.node_chain none budget).1 } else w) : way_t).node_chain =
            List.count x w.node_chain := by
          intro x hx1 hx2
          rw [hchain]
          by_cases hr0 : (join_chain keep remove w.node_chain none budget).2.1 ≠ 0
          · rw [if_pos hr0]
            exact hj5 x hx1 hx2
          · rw [if_neg hr0]
        have hcmem : ∀ x ∈ ((if (join_chain keep remove w.node_chain none budget).2.1 ≠ 0 then { w.mark_dirty with node_chain := (join_chain keep remove w.node_chain none budget).1 } else w) : way_t).node_chain,
            x = keep ∨ x ∈ w.node_chain := by
          intro x hx
          rw [hchain] at hx
          by_cases hr0 : (join_chain keep remove w.node_chain none budget).2.1 ≠ 0
          · rw [if_pos hr0] at hx
            exact hj6 x hx
          · rw [if_neg hr0] at hx
            exact Or.inr hx
        have hoccr := ways_occ_cons wid w rest remove
        have hocck := ways_occ_cons wid w rest keep
        refine ⟨?_, ?_, ?_, ?_, ?_, ?_⟩
        · omega
        · rw [ways_occ_cons, hcrem]
          omega
        · rw [ways_occ_cons, hckeep]
          omega
        · intro x hx1 hx2
          rw [ways_occ_cons, hcx x hx1 hx2]
          have h5 := hi4 x hx1 hx2
          have h6 := ways_occ_cons wid w rest x
          omega
        · unfold osmMap.keys at hi5 ⊢
          simp only [List.map_cons]
          rw [hi5]
        · intro p hp x hx
          rcases List.mem_cons.mp hp with hp | hp
          · rw [hp] at hx
            rcases hcmem x hx with hx | hx
            · exact Or.inl hx
            · exact Or.inr ⟨(wid, w), List.mem_cons_self _ _, hx⟩
          · rcases hi6 p hp x hx with hx | ⟨q2, hq2, hx⟩
            · exact Or.inl hx
            · exact Or.inr ⟨q2, List.mem_cons_of_mem _ hq2, hx⟩
      · rw [if_neg hb]
        have hb0 : budget = 0 := by omega
        dsimp only
        refine ⟨by omega, by omega, by omega,
          by intro x _ _; first | rfl | trivial,
          by first | rfl | trivial, ?_⟩
        intro p hp x hx
        exact Or.inr ⟨p, hp, hx⟩

/-- Keep-refs `node_delete_core` on a node with no remaining chain
occurrences keeps the invariant: chains are only marked, never edited. -/
theorem refInvP_node_delete_core_keep {g : osm_t} (h : refInvP g) (nid : Int)
    (hocc : ways_occ g.ways nid = 0) :
    refInvP (g.node_delete_core nid true).1 := by
  obtain ⟨hsn, hsw, hpres, hcnt, h0⟩ := h
  unfold osm_t.node_delete_core
  split
  · exact ⟨hsn, hsw, hpres, hcnt, h0⟩
  · next node hl =>
      have hGw : ∀ (W : osmMap way_t) (R : osmMap relation_t),
          osmMap.SortedKeys W →
          (∀ p ∈ W, ∀ x ∈ p.2.node_chain, (g.nodes.lookup x).isSome = true) →
          (∀ i, ways_occ W i = ways_occ g.ways i) →
          refInvP (if isNew nid
            then { nodes := g.nodes.erase nid, ways := W, relations := R,
                   hiddenWays := g.hiddenWays }
            else { nodes := g.nodes.modify nid node_t.markDeleted, ways := W,
                   relations := R, hiddenWays := g.hiddenWays }) := by
        intro W R hWs hWp hWi
        have hW0 : ways_occ W nid = 0 := by rw [hWi]; exact hocc
        split
        · refine ⟨osmMap.SortedKeys.erase hsn nid, hWs, ?_, ?_,
            by rw [osmMap.lookup_erase]; split <;> simp [h0]⟩
          · intro p hp x hx
            rw [osmMap.lookup_erase]
            have hxne : x ≠ nid := by
              intro hc
              exact not_mem_chain_of_occ_zero hW0 p hp (hc ▸ hx)
            rw [if_neg hxne]
            exact hWp p hp x hx
          · intro i n hn
            rw [osmMap.lookup_erase] at hn
            by_cases h1 : i = nid
            · rw [if_pos h1] at hn; cases hn
            · rw [if_neg h1] at hn
              rw [hWi i]
              exact hcnt i n hn
        · refine ⟨osmMap.SortedKeys.modify hsn nid _, hWs, ?_, ?_,
            by rw [osmMap.lookup_modify]; split <;> simp [h0]⟩
          · intro p hp x hx
            rw [osmMap.lookup_isSome_modify]
            exact hWp p hp x hx
          · intro i n hn
            rw [osmMap.lookup_modify] at hn
            by_cases h1 : i = nid
            · rw [if_pos h1, h1, hl] at hn
              injection hn with hn
              rw [← hn, h1, hWi, hocc]
              constructor
              · exact Nat.zero_le _
              · intro hdf
                simp [node_t.markDeleted, flags_t.markDeleted] at hdf
            · rw [if_neg h1] at hn
              rw [hWi i]
              exact hcnt i n hn
      dsimp only
      by_cases hwp : node.ways > 0
      · rw [if_pos hwp]
        refine hGw _ _ (osmMap.sortedKeys_ifmap hsw _ _) ?_ ?_
        · intro p hp x hx
          obtain ⟨q, hq, hqe⟩ := List.mem_map.mp hp
          by_cases hc : q.2.node_chain.contains nid
          · rw [if_pos hc] at hqe
            rw [← hqe] at hx
            exact hpres q hq x hx
          · rw [if_neg hc] at hqe
            rw [← hqe] at hx
            exact hpres q hq x hx
        · intro i
          exact ways_occ_ifmap_congr (fun p _ => rfl)
      · rw [if_neg hwp]
        exact hGw _ _ hsw hpres (fun i => rfl)

/-- Core of the `mergeNodes` preservation argument, stated over the graph
obtained after the six node modifications, the way rewiring and the relation
rewrite, for either survivor choice: the invariant survives up to and
including the final keep-refs deletion of the losing node. -/
theorem refInvP_merge_core {g : osm_t} (h : refInvP g) {keepId removeId : Int}
    {keepN removeN : node_t} (hne : keepId ≠ removeId)
    (hk : g.nodes.lookup keepId = some keepN)
    (hr : g.nodes.lookup removeId = some removeN)
    {W : osmMap way_t} {rem2 add2 : Nat}
    (hrw : merge_rewire_ways keepId removeId g.ways removeN.ways = (W, rem2, add2))
    (pos2 : pos_t) (lpos2 : lpos_t) (R : osmMap relation_t) (mtags : tag_list_t) :
    refInvP (osm_t.node_delete_core
      { nodes := (((((g.nodes.modify keepId node_t.mark_dirty).modify removeId node_t.mark_dirty).modify keepId (fun n => { n with pos := pos2, lpos := lpos2 })).modify keepId (fun n => { n with ways := n.ways + add2 })).modify removeId (fun n => { n with ways := rem2 })).modify keepId (fun n => { n with tags := mtags }),
        ways := W, relations := R, hiddenWays := g.hiddenWays }
      removeId true).1 := by
  obtain ⟨hsn, hsw, hpres, hcnt, h0⟩ := h
  obtain ⟨hw1, hw2, hw3, hw4, hw5, hw6⟩ :=
    merge_rewire_spec keepId removeId hne g.ways removeN.ways
  rw [hrw] at hw1 hw2 hw3 hw4 hw5 hw6
  dsimp only at hw1 hw2 hw3 hw4 hw5 hw6
  have hocc_le : ways_occ g.ways removeId ≤ removeN.ways :=
    (hcnt removeId removeN hr).1
  have hoccR : ways_occ W removeId = 0 := by rw [hw2]; omega
  have hrem2 : rem2 = removeN.ways - ways_occ g.ways removeId := by
    rw [hw1]; omega
  have hlookN : ∀ i,
      ((((((g.nodes.modify keepId node_t.mark_dirty).modify removeId node_t.mark_dirty).modify keepId (fun n => { n with pos := pos2, lpos := lpos2 })).modify keepId (fun n => { n with ways := n.ways + add2 })).modify removeId (fun n => { n with ways := rem2 })).modify keepId (fun n => { n with tags := mtags })).lookup i =
      if i = keepId then (g.nodes.lookup keepId).map (fun n => { n with flags := n.flags.markDirty, pos := pos2, lpos := lpos2, ways := n.ways + add2, tags := mtags })
      else if i = removeId then (g.nodes.lookup removeId).map (fun n => { n with flags := n.flags.markDirty, ways := rem2 })
      else g.nodes.lookup i := by
    intro i
    simp only [osmMap.lookup_modify]
    by_cases h1 : i = keepId
    · have h2 : ¬ i = removeId := fun hc => hne (h1.symm.trans hc)
      simp only [if_pos h1, if_neg h2, Option.map_map]
      rw [h1]
      cases g.nodes.lookup keepId with
      | none => rfl
      | some n => rfl
    · by_cases h2 : i = removeId
      · simp only [if_neg h1, if_pos h2, Option.map_map]
        rw [h2]
        cases g.nodes.lookup removeId with
        | none => rfl
        | some n => rfl
      · simp only [if_neg h1, if_neg h2]
  have hG5 : refInvP
      { nodes := (((((g.nodes.modify keepId node_t.mark_dirty).modify removeId node_t.mark_dirty).modify keepId (fun n => { n with pos := pos2, lpos := lpos2 })).modify keepId (fun n => { n with ways := n.ways + add2 })).modify removeId (fun n => { n with ways := rem2 })).modify keepId (fun n => { n with tags := mtags }),
        ways := W, relations := R, hiddenWays := g.hiddenWays } := by
    refine ⟨?_, ?_, ?_, ?_, ?_⟩
    · exact osmMap.SortedKeys.modify (osmMap.SortedKeys.modify
        (osmMap.SortedKeys.modify (osmMap.SortedKeys.modify
          (osmMap.SortedKeys.modify (osmMap.SortedKeys.modify hsn _ _) _ _)
          _ _) _ _) _ _) _ _
    · show List.Pairwise (· < ·) (osmMap.keys W)
      rw [hw5]
      exact hsw
    · intro p hp x hx
      dsimp only at hp ⊢
      rw [hlookN x]
      rcases hw6 p hp x hx with hxk | ⟨q, hq, hqx⟩
      · rw [if_pos hxk, hk]
        rfl
      · by_cases hx1 : x = keepId
        · rw [if_pos hx1, hk]
          rfl
        · by_cases hx2 : x = removeId
          · rw [if_neg hx1, if_pos hx2, hr]
            rfl
          · rw [if_neg hx1, if_neg hx2]
            exact hpres q hq x hqx
    · intro i n hn
      dsimp only at hn ⊢
      rw [hlookN i] at hn
      by_cases h1 : i = keepId
      · rw [if_pos h1, hk, Option.map_some'] at hn
        injection hn with hn
        have hnw : n.ways = keepN.ways + add2 := by rw [← hn]
        have hnd : n.flags.deleted = keepN.flags.deleted := by
          rw [← hn]; simp [flags_t.markDirty]
        obtain ⟨hle, heq⟩ := hcnt keepId keepN hk
        constructor
        · rw [h1, hw3, hnw]
          omega
        · intro hdf
          rw [hnd] at hdf
          rw [h1, hw3, hnw, heq hdf]
      · by_cases h2 : i = removeId
        · rw [if_neg h1, if_pos h2, hr, Option.map_some'] at hn
          injection hn with hn
          have hnw : n.ways = rem2 := by rw [← hn]
          have hnd : n.flags.deleted = removeN.flags.deleted := by
            rw [← hn]; simp [flags_t.markDirty]
          obtain ⟨hle, heq⟩ := hcnt removeId removeN hr
          constructor
          · rw [h2, hoccR]
            exact Nat.zero_le _
          · intro hdf
            rw [hnd] at hdf
            have hre := heq hdf
            rw [h2, hoccR, hnw, hrem2]
            omega
        · rw [if_neg h1, if_neg h2] at hn
          rw [hw4 i h1 h2]
          exact hcnt i n hn
    · dsimp only
      rw [hlookN ID_ILLEGAL]
      have hki : ¬ (ID_ILLEGAL : Int) = keepId := by
        intro hc
        rw [← hc, h0] at hk
        cases hk
      have hri : ¬ (ID_ILLEGAL : Int) = removeId := by
        intro hc
        rw [← hc, h0] at hr
        cases hr
      rw [if_neg hki, if_neg hri]
      exact h0
  exact refInvP_node_delete_core_keep hG5 removeId hoccR

/-- `mergeNodes`, as dispatched by the mutation interpreter (identity when
the C++ preconditions fail), preserves the corrected invariant. -/
theorem refInvP_mergeNodes {g : osm_t} (h : refInvP g) (a b : Int) :
    refInvP (match g.mergeNodes a b with
             | some r => r.1
             | none => g) := by
  unfold osm_t.mergeNodes
  by_cases hab : a = b
  · rw [if_pos hab]
    exact h
  · rw [if_neg hab]
    cases hla : g.nodes.lookup a with
    | none => exact h
    | some first =>
        cases hlb : g.nodes.lookup b with
        | none => exact h
        | some second =>
            dsimp only
            cases hpf : (g.checkObjectPersistence (object_t.node a)
                (object_t.node b)).1 with
            | true =>
                exact refInvP_merge_core h hab hla hlb rfl _ _ _ _
            | false =>
                exact refInvP_merge_core h (fun hc => hab hc.symm) hlb hla
                  rfl _ _ _ _

/-- The empty graph satisfies the corrected invariant. -/
theorem refInvP_empty : refInvP osm_t.empty := by
  refine ⟨List.Pairwise.nil, List.Pairwise.nil, ?_, ?_, rfl⟩
  · intro p hp
    cases hp
  · intro i n hn
    cases hn

/-- The propositional invariant implies the executable `refInv` flag. -/
theorem refInv_of_refInvP {g : osm_t} (h : refInvP g) : g.refInv = true := by
  obtain ⟨hsn, hsw, hpres, hcnt, h0⟩ := h
  unfold osm_t.refInv
  simp only [List.all_eq_true]
  intro p hp
  have hl : g.nodes.lookup p.1 = some p.2 := osmMap.sorted_mem_lookup hsn hp
  obtain ⟨hle, heq⟩ := hcnt p.1 p.2 hl
  rw [Bool.and_eq_true, decide_eq_true_eq, Bool.or_eq_true, beq_iff_eq,
    chain_occ_eq]
  refine ⟨hle, ?_⟩
  cases hdf : p.2.flags.deleted with
  | true => exact Or.inl rfl
  | false => exact Or.inr (heq hdf)

/-- A freshly parsed base graph, as the reference-count claims assume it:
sorted maps, chains referencing only present nodes, every node's counter
equal to its occurrence count, no node soft-deleted yet and no entry under
`ID_ILLEGAL`. -/
def osm_t.refBaseClean (g : osm_t) : Bool :=
  decide (osmMap.SortedKeys g.nodes) && decide (osmMap.SortedKeys g.ways) &&
  (g.ways.all fun p => p.2.node_chain.all fun x => (g.nodes.lookup x).isSome) &&
  (g.nodes.all fun p => p.2.ways == chain_occ g p.1 && !p.2.flags.deleted) &&
  (g.nodes.lookup ID_ILLEGAL).isNone

/-- A clean base satisfies the corrected invariant. -/
theorem refInvP_of_refBaseClean {g : osm_t} (h : g.refBaseClean = true) :
    refInvP g := by
  unfold osm_t.refBaseClean at h
  simp only [Bool.and_eq_true, decide_eq_true_eq, List.all_eq_true,
    Option.isNone_iff_eq_none, Bool.not_eq_true', beq_iff_eq] at h
  obtain ⟨⟨⟨⟨hsn, hsw⟩, hpres⟩, hcnt⟩, h0⟩ := h
  refine ⟨hsn, hsw, ?_, ?_, h0⟩
  · intro p hp x hx
    exact hpres p hp x hx
  · intro i n hn
    have hmem : (i, n) ∈ g.nodes := osmMap.lookup_mem hn
    obtain ⟨hw, hd⟩ := hcnt (i, n) hmem
    rw [chain_occ_eq] at hw
    exact ⟨le_of_eq hw.symm, fun _ => hw⟩

/-- C3 (with the claim's 'distinct Way objects' corrected to chain
occurrences, and equality restricted to nodes not yet soft-deleted): after
every sequence of graph mutations — attach, append_node, both node-delete
modes, way_delete, mergeNodes, way_split — applied to any clean freshly
parsed base, every node's `ways` counter bounds the number of node-chain
entries referencing it, with equality whenever the node is not
soft-deleted; the executable checker `refInv` accepts every reachable
graph. -/
theorem ways_counter_occurrences (base : osm_t) (ms : List mutation_t)
    (hb : base.refBaseClean = true) :
    (apply_mutations base ms).refInv = true := by
  refine refInv_of_refInvP ?_
  have hstep : ∀ (l : List mutation_t) (g : osm_t), refInvP g →
      refInvP (l.foldl apply_mutation g) := by
    intro l
    induction l with
    | nil => intro g hg; exact hg
    | cons m rest ih =>
        intro g hg
        rw [List.foldl_cons]
        refine ih _ ?_
        cases m with
        | nodeAttach p lp tags => exact refInvP_node_attach hg _ rfl rfl
        | wayAttach tags => exact refInvP_way_attach hg _ rfl
        | appendNode wid nid => exact refInvP_append_node hg wid nid
        | nodeDelete nid short => exact refInvP_node_delete hg nid short
        | wayDelete wid => exact refInvP_way_delete hg wid
        | merge a b => exact refInvP_mergeNodes hg a b
        | split wid cutAt cutAtNode =>
            exact refInvP_way_split hg wid cutAt cutAtNode
  exact hstep ms base (refInvP_of_refBaseClean hb)

/-- A clean parsed base with two upstream nodes and one way holding both:
counters match the single occurrence of each node. -/
def bgC3 : osm_t :=
  { nodes := [(1, mkNode 1 1 1), (2, mkNode 2 1 1)],
    ways := [(10, mkWay 10 [1, 2])],
    relations := [], hiddenWays := [] }

/-- Mutations exercised by the C3 witness: a soft delete of upstream node
1 (positive id, so `markDeleted` fires and its stale counter stays) and an
append of node 2. -/
def msC3w : List mutation_t :=
  [.nodeDelete 1 false, .appendNode 10 2]

/-- C3 witness: the clean base hypothesis holds on `bgC3` and the checker
accepts the graph after a soft node delete and an append. -/
theorem ways_counter_occurrences_witness :
    bgC3.refBaseClean = true ∧
    (apply_mutations bgC3 msC3w).refInv = true :=
  ⟨by decide, ways_counter_occurrences bgC3 msC3w (by decide)⟩

/-- Mutation script: one way, two nodes, then append node −1, node −2 and
node −1 again to the way, so the chain visits node −1 twice. -/
def msC3 : List mutation_t :=
  [.wayAttach none, .nodeAttach ⟨0, 0⟩ ⟨0, 0⟩ none,
   .nodeAttach ⟨1, 1⟩ ⟨1, 1⟩ none, .appendNode (-1) (-1),
   .appendNode (-1) (-2), .appendNode (-1) (-1)]

/-- C3 counterexample to the literal claim: node −1 ends with `ways = 2`
while only one distinct way contains it — the counter tracks chain
occurrences, not distinct ways; and soft-deleting the upstream node 1 of
`bgC3` removes its chain entry while keeping its counter at 1, so equality
also fails on soft-deleted nodes — both corrections of the amendment are
forced. -/
theorem ways_counter_not_distinct_ways :
    ((apply_mutations osm_t.empty msC3).nodes.lookup (-1)).map node_t.ways =
        some 2 ∧
    distinct_ways_containing (apply_mutations osm_t.empty msC3) (-1) = 1 ∧
    ((apply_mutations bgC3 [.nodeDelete 1 false]).nodes.lookup 1).map
        (fun n => (n.ways, n.flags.deleted)) = some (1, true) ∧
    chain_occ (apply_mutations bgC3 [.nodeDelete 1 false]) 1 = 0 := by
  decide

/-- First-member role flip of the legacy `reverse_roles::operator()` in
`osm.cpp`: `DS_ROUTE_REVERSE` there is the string "reverse", so a
`forward` role is rewritten to `reverse` and only a `reverse` role is
rewritten back to `forward` (both compared with `strcasecmp`); the first
member referencing the way is found through `find_way_or_ref`, which
accepts the real reference and the `WAY_ID` reference alike, as
`object_t.eq` does. -/
def flip_first_role_old (w : object_t) : List member_t → List member_t × Bool
  | [] => ([], false)
  | m :: rest =>
      if object_t.eq m.object w then
        match m.role with
        | some role =>
            if strcaseEq role "forward" then
              (({ m with role := some "reverse" } : member_t) :: rest, true)
            else if strcaseEq role "reverse" then
              (({ m with role := some "forward" } : member_t) :: rest, true)
            else (m :: rest, false)
        | none => (m :: rest, false)
      else
        let r := flip_first_role_old w rest
        (m :: r.1, r.2)

/-- The legacy `reverse_roles::operator()` of `osm.cpp` on one relation:
case-insensitive `type=route` check via `osm_tag_get_by_key`, then the
legacy role flip; the relation gets `OSM_FLAG_DIRTY` when a flip
happened. -/
def reverse_roles_old_rel (r : relation_t) (w : object_t) : relation_t :=
  match r.tags.get_value "type" with
  | none => r
  | some ty =>
      if !(strcaseEq ty "route") then r
      else
        let fr := flip_first_role_old w r.members
        if fr.2 then { r.mark_dirty with members := fr.1 } else r

/-- A `TYPE=Route` relation holding way 7 with role `Forward` and way 9
with role `backward`. -/
def rC6old : relation_t :=
  { id := 5, version := 1, flags := flags_t.clear,
    tags := some [⟨"TYPE", "Route"⟩],
    members := [⟨.way 7, some "Forward"⟩, ⟨.way 9, some "backward"⟩] }

/-- C6 counterexample for the legacy `osm.cpp` `reverse_roles`: reversing
way 7 turns its `Forward` role into `reverse`, not `backward`, and
reversing way 9 leaves its `backward` role unflipped and the relation
clean — while the current variant behaves as the claim states on the same
inputs. -/
theorem reverse_roles_old_variant_counterexample :
    (reverse_roles_old_rel rC6old (.way 7)).members.map member_t.role =
        [some "reverse", some "backward"] ∧
    (reverse_roles_old_rel rC6old (.way 9)).members.map member_t.role =
        [some "Forward", some "backward"] ∧
    (reverse_roles_old_rel rC6old (.way 9)).flags = flags_t.clear ∧
    (reverse_roles_rel rC6old (.way 7)).members.map member_t.role =
        [some "backward", some "backward"] ∧
    (reverse_roles_rel rC6old (.way 9)).members.map member_t.role =
        [some "Forward", some "forward"] := by
  decide

end Osm2go
